import Mathlib

/-!
# Inviwo module manager

A shallow embedding of `src/core/common/modulemanager.cpp` (class `ModuleManager`) and proofs
about its library discovery, registration, dependency checking, cascading deregistration
and teardown.

Conventions of the embedding:

* C++ vectors are Lean lists, `std::unique_ptr` ownership is plain list membership.
* Recursive lambdas/functions whose recursion the source does not bound
  (`findDependentModules`, `getDeps`, the dependency sorter) take a `fuel : Nat` and return `none`
  when it runs out; results are stated as "from some fuel on the result is `some x`".
* A module constructor either returns a module or throws; `CreateResult` is that outcome.
* `ModuleManager.events` is a ghost log of the observable calls made by the manager.
-/

namespace inviwo

/-! ## Strings and identifier sets -/

/-- Modelled from the spec: the string helper `toLower` (declared in the string utilities,
outside the given sources). Names are case-insensitive; the helper lower-cases every letter. -/
def toLower (s : String) : String := String.mk (s.data.map Char.toLower)

/-- Modelled from the spec: `iCaseCmp`, the case-insensitive equality of two names
(declared in the string utilities, outside the given sources). -/
def iCaseCmp (l r : String) : Bool := toLower l == toLower r

/-- Modelled from the spec: `IdSet = std::set<std::string, CaseInsensitiveCompare>`, a
"mapping-free set of case-insensitive names". The list holds one representative per
case-insensitive class, in insertion order (the C++ set walks them in case-insensitive
alphabetical order). The embedded code only tests membership (`count`), inserts, and walks
a whole set to insert into another set, so the order changes no membership. -/
structure IdSet where
  ids : List String
deriving DecidableEq, Repr

/-- The empty identifier set (`IdSet deregister;`). -/
def IdSet.empty : IdSet := ⟨[]⟩

/-- Number of keys equivalent to `key`: `std::set::count` under the case-insensitive order. -/
def IdSet.count (s : IdSet) (key : String) : Nat :=
  if s.ids.any (fun x => iCaseCmp x key) then 1 else 0

/-- Insertion of one key, `std::set::insert` / `emplace`: no effect when an equivalent key
is already present. -/
def IdSet.insert (s : IdSet) (key : String) : IdSet :=
  if s.count key != 0 then s else ⟨s.ids ++ [key]⟩

/-- Range insertion `set.insert(first, last)`. -/
def IdSet.insertAll (s : IdSet) (keys : List String) : IdSet :=
  keys.foldl IdSet.insert s

/-! ## Data model -/

/-- Modelled from the spec: the semantic version of a module or of the core
(`version.h` is outside the given sources): major, minor and patch numbers. -/
structure Version where
  major : Nat
  minor : Nat
  patch : Nat
deriving DecidableEq, Repr

/-- Modelled from the spec: `Version::semanticVersionEqual`, "exact equality" of the
semantic version: major, minor and patch all agree. -/
def Version.semanticVersionEqual (v other : Version) : Bool :=
  v.major == other.major && v.minor == other.minor && v.patch == other.patch

/-- A live module (`InviwoModule`); the manager only ever reads `getIdentifier()`. -/
structure InviwoModule where
  identifier : String
deriving DecidableEq, Repr

/-- Outcome of `obj->create(app_)` as `registerModules` distinguishes it: a module, a
`ModuleInitException` carrying `getModulesToDeregister()`, or any other exception
(`inviwo::Exception` or `std::exception`). -/
inductive CreateResult
  | module (m : InviwoModule)
  | moduleInitException (modulesToDeregister : List String)
  | exception
deriving DecidableEq, Repr

/-- The descriptor `InviwoModuleFactoryObject`, with the fields the manager reads. -/
structure InviwoModuleFactoryObject where
  name : String
  version : Version
  inviwoCoreVersion : Version
  dependencies : List (String × Version)
  aliases : List String
  protectedModule : Bool
  create : CreateResult
deriving DecidableEq, Repr

/-- A loaded library (`SharedLibrary`), identified by `getFilePath()`. -/
structure SharedLibrary where
  filePath : String
deriving DecidableEq, Repr

/-- Observable calls made by the manager, in the order they happen. -/
inductive Event
  | postProgress (name : String)
  | checkDependencies (name : String)
  | create (name : String)
  | moduleDestroyed (identifier : String)
  | factoryObjectDestroyed (name : String)
  | libraryReleased (filePath : String)
  | modulesDidRegister
  | modulesWillUnregister
  | networkCleared
deriving DecidableEq, Repr

/-- The state of a `ModuleManager`: its four containers, plus the ghost event log. -/
structure ModuleManager where
  protected_ : IdSet
  sharedLibraries_ : List SharedLibrary
  factoryObjects_ : List InviwoModuleFactoryObject
  modules_ : List InviwoModule
  events : List Event
deriving DecidableEq, Repr

/-- A freshly constructed manager: every container is empty. -/
def ModuleManager.init : ModuleManager :=
  { protected_ := IdSet.empty, sharedLibraries_ := [], factoryObjects_ := [],
    modules_ := [], events := [] }

/-- Append one event to the ghost log. -/
def ModuleManager.emit (mm : ModuleManager) (e : Event) : ModuleManager :=
  { mm with events := mm.events ++ [e] }

/-! ## Vector helpers -/

/-- Modelled from the spec: `util::reverse_erase_if` (`vectoroperations.h` is outside the
given sources): walks the vector from its last element to its first and erases every
element satisfying `pred`. Returns the remaining vector and the erased elements in the
order they were erased. -/
def reverse_erase_if {α : Type} (pred : α → Bool) (v : List α) : List α × List α :=
  v.foldr (fun x acc => if pred x then (acc.1, acc.2 ++ [x]) else (x :: acc.1, acc.2)) ([], [])

/-- Modelled from the spec: `util::push_back_unique` (`vectoroperations.h` is outside the
given sources): appends the item unless the vector already contains it. -/
def push_back_unique (v : List String) (item : String) : List String :=
  if v.contains item then v else v ++ [item]

/-! ## Lookups -/

/-- `ModuleManager::getModuleByIdentifier`: first live module whose identifier equals
`identifier` ignoring case. -/
def ModuleManager.getModuleByIdentifier (mm : ModuleManager) (identifier : String) :
    Option InviwoModule :=
  mm.modules_.find? (fun m => iCaseCmp m.identifier identifier)

/-- `ModuleManager::getFactoryObject`: first known descriptor whose name equals
`identifier` ignoring case. -/
def ModuleManager.getFactoryObject (mm : ModuleManager) (identifier : String) :
    Option InviwoModuleFactoryObject :=
  mm.factoryObjects_.find? (fun module => iCaseCmp module.name identifier)

/-- `ModuleManager::isProtected`. -/
def ModuleManager.isProtected (mm : ModuleManager) (module : String) : Bool :=
  mm.protected_.count module != 0

/-- `ModuleManager::addProtectedIdentifier`. -/
def ModuleManager.addProtectedIdentifier (mm : ModuleManager) (id : String) : ModuleManager :=
  { mm with protected_ := mm.protected_.insert id }

/-- `ModuleManager::registerModule`: `modules_.push_back`. -/
def ModuleManager.registerModule (mm : ModuleManager) (module : InviwoModule) : ModuleManager :=
  { mm with modules_ := mm.modules_ ++ [module] }

/-! ## Version checker -/

/-- One reason appended to the `err` stream of `checkDependencies`. -/
inductive DependencyError
  | coreVersion (builtFor current : Version)
  | failedToRegister (dependency : String)
  | versionMismatch (dependency : String) (required loaded : Version)
  | notFound (dependency : String) (required : Version)
deriving DecidableEq, Repr

/-- The body of the `for (const auto& dep : obj.dependencies)` loop of `checkDependencies`:
what one dependency entry appends to `err`. -/
def ModuleManager.checkDependency (mm : ModuleManager) (obj : InviwoModuleFactoryObject)
    (dep : String × Version) : List DependencyError :=
  match mm.getFactoryObject dep.1 with
  | some depObj =>
    if (mm.getModuleByIdentifier depObj.name).isNone then
      [DependencyError.failedToRegister depObj.name]
    else if !depObj.version.semanticVersionEqual obj.version then
      [DependencyError.versionMismatch depObj.name dep.2 depObj.version]
    else []
  | none => [DependencyError.notFound dep.1 dep.2]

/-- The contents of the `err` stream at the end of `checkDependencies`. -/
def ModuleManager.checkDependenciesErr (mm : ModuleManager) (buildVersion : Version)
    (obj : InviwoModuleFactoryObject) : List DependencyError :=
  let err :=
    if !buildVersion.semanticVersionEqual obj.inviwoCoreVersion then
      [DependencyError.coreVersion obj.inviwoCoreVersion buildVersion]
    else []
  obj.dependencies.foldl (fun err dep => err ++ mm.checkDependency obj dep) err

/-- `ModuleManager::checkDependencies`: true exactly when nothing was written to `err`.
`buildVersion` is the global `build::version`. -/
def ModuleManager.checkDependencies (mm : ModuleManager) (buildVersion : Version)
    (obj : InviwoModuleFactoryObject) : Bool :=
  (mm.checkDependenciesErr buildVersion obj).isEmpty

/-! ## Dependents and cascading deregistration -/

/-- `ModuleManager::findDependentModules` over the descriptor list `factoryObjects`.
The source recursion is unbounded; `fuel` bounds its depth. -/
def findDependentModules (factoryObjects : List InviwoModuleFactoryObject) :
    Nat → String → Option (List String)
  | 0, _ => none
  | fuel + 1, module => do
    let dependencies ← factoryObjects.foldlM (fun dependencies item =>
      if item.dependencies.any (fun dep => dep.1 == module) then do
        let name := toLower item.name
        let deps ← findDependentModules factoryObjects fuel name
        some (dependencies ++ deps ++ [name])
      else some dependencies) []
    some (dependencies.foldl push_back_unique [])

/-- `ModuleManager::findDependentModules` on the manager's own descriptor list. -/
def ModuleManager.findDependentModules (mm : ModuleManager) (fuel : Nat) (module : String) :
    Option (List String) :=
  inviwo.findDependentModules mm.factoryObjects_ fuel module

/-- First loop of `deregisterDependetModules`: the set `deregister` built from the
requested names and their dependents. -/
def ModuleManager.deregisterSet (mm : ModuleManager) (fuel : Nat) (toDeregister : List String) :
    Option IdSet :=
  toDeregister.foldlM (fun deregister m => do
    let dependents ← mm.findDependentModules fuel m
    some ((deregister.insert m).insertAll dependents)) IdSet.empty

/-- `ModuleManager::deregisterDependetModules`: erases, last to first, every live module
whose identifier is in the `deregister` set; returns the identifiers in erasure order. -/
def ModuleManager.deregisterDependetModules (mm : ModuleManager) (fuel : Nat)
    (toDeregister : List String) : Option (ModuleManager × List String) := do
  let deregister ← mm.deregisterSet fuel toDeregister
  let r := reverse_erase_if (fun m => deregister.count m.identifier != 0) mm.modules_
  some ({ mm with modules_ := r.1,
                  events := mm.events ++ r.2.map (fun m => Event.moduleDestroyed m.identifier) },
        r.2.map (fun m => m.identifier))

/-! ## Dependency sorter -/

/-- Modelled from the spec: the recursive visit of the Dependency Sorter
`topologicalModuleFactoryObjectSort` (defined outside the given sources): "process each
Descriptor, recursively visiting declared dependencies first via name lookup within the
same list, marking visited nodes to avoid reprocessing". Descriptors are addressed by
their position in `objs`; `sorted` lists the positions already emitted, which are the
visited marks. The spec leaves the walk unbounded on a cycle; `fuel` bounds its depth. -/
def topologicalVisit (objs : List InviwoModuleFactoryObject) :
    Nat → Nat → List Nat → Option (List Nat)
  | 0, _, _ => none
  | fuel + 1, i, sorted =>
    if i ∈ sorted then some sorted
    else
      match objs[i]? with
      | none => some sorted
      | some obj => do
        let sorted' ← obj.dependencies.foldlM (fun acc dep =>
          let j := objs.findIdx (fun mfo => iCaseCmp mfo.name dep.1)
          if j < objs.length then topologicalVisit objs fuel j acc else some acc) sorted
        some (sorted' ++ [i])

/-- Modelled from the spec: the Dependency Sorter `topologicalModuleFactoryObjectSort`
(defined outside the given sources): every Descriptor is visited in list order, and the
list is rearranged in the order in which the visits emitted them. -/
def topologicalModuleFactoryObjectSort (fuel : Nat) (objs : List InviwoModuleFactoryObject) :
    Option (List InviwoModuleFactoryObject) := do
  let sorted ← (List.range objs.length).foldlM
    (fun acc i => topologicalVisit objs fuel i acc) []
  some (sorted.filterMap (fun i => objs[i]?))

/-! ## Registration and teardown -/

/-- Body of the `for (auto& obj : factoryObjects_)` loop of `registerModules`. -/
def ModuleManager.registerModulesStep (buildVersion : Version) (fuel : Nat)
    (mm : ModuleManager) (obj : InviwoModuleFactoryObject) : Option ModuleManager :=
  let mm := mm.emit (Event.postProgress obj.name)
  if (mm.getModuleByIdentifier obj.name).isSome then some mm
  else
    let mm := mm.emit (Event.checkDependencies obj.name)
    if !mm.checkDependencies buildVersion obj then some mm
    else
      let mm := mm.emit (Event.create obj.name)
      match obj.create with
      | CreateResult.module m => some (mm.registerModule m)
      | CreateResult.moduleInitException toDeregister =>
        (mm.deregisterDependetModules fuel toDeregister).map Prod.fst
      | CreateResult.exception => some mm

/-- `ModuleManager::registerModules(std::vector<...> mfo)`: append the batch, sort the
whole descriptor list, run the loop body on every descriptor, notify. -/
def ModuleManager.registerModules (buildVersion : Version) (fuel : Nat) (mm : ModuleManager)
    (mfo : List InviwoModuleFactoryObject) : Option ModuleManager := do
  let sorted ← topologicalModuleFactoryObjectSort fuel (mm.factoryObjects_ ++ mfo)
  let mm' ← sorted.foldlM (ModuleManager.registerModulesStep buildVersion fuel)
    { mm with factoryObjects_ := sorted }
  some (mm'.emit Event.modulesDidRegister)

/-- `ModuleManager::unregisterModules`. `strip` is `util::stripModuleFileNameDecoration`
(defined outside the given sources), taken as a parameter. -/
def ModuleManager.unregisterModules (strip : String → String) (mm : ModuleManager) :
    ModuleManager :=
  let mods := reverse_erase_if (fun m => !mm.isProtected m.identifier) mm.modules_
  let mfos := reverse_erase_if (fun mfo => !mm.isProtected mfo.name) mm.factoryObjects_
  let libs := reverse_erase_if (fun lib => !mm.isProtected (strip lib.filePath))
    mm.sharedLibraries_
  { protected_ := mm.protected_
    sharedLibraries_ := libs.1
    factoryObjects_ := mfos.1
    modules_ := mods.1
    events := mm.events ++ [Event.modulesWillUnregister, Event.networkCleared]
      ++ mods.2.map (fun m => Event.moduleDestroyed m.identifier)
      ++ mfos.2.map (fun mfo => Event.factoryObjectDestroyed mfo.name)
      ++ libs.2.map (fun lib => Event.libraryReleased lib.filePath) }

/-! ## Enabled-modules filter and library discovery -/

/-- `std::for_each(first, last, f)` for a function `f` that takes its argument by value
and returns a value: `f` is applied to every element, its result is discarded and the
range is left as it was. -/
def for_each {α β : Type} (v : List α) (_f : α → β) : List α := v

/-- `ModuleManager::getEnabledFilter`. `enabledModulesFile` is `none` when
`<executable>-enabled-modules.txt` is not a regular file, and otherwise the
whitespace-separated words that `std::istream_iterator<std::string>` reads from it.
`util::contains(enabledModules, name)` is exact string equality with one of the entries. -/
def getEnabledFilter (enabledModulesFile : Option (List String)) : String → Bool :=
  match enabledModulesFile with
  | none => fun _ => true
  | some words =>
    let enabledModules := for_each words toLower
    fun name => enabledModules.contains name

/-- `std::filesystem::path::filename()` on a generic-format path string: the part after the
last directory separator. -/
def pathFilename (file : String) : String :=
  String.mk (file.data.reverse.takeWhile (fun c => c != '/')).reverse

/-- `std::filesystem::path::extension()`: the part of the filename from its last dot on,
empty when the filename is `.` or `..`, has no dot, or has its only dot in front. -/
def pathExtension (file : String) : String :=
  let name := (pathFilename file).data
  let ext := (name.reverse.takeWhile (fun c => c != '.')).reverse
  if name = ['.'] ∨ name = ['.', '.'] then ""
  else if ext.length = name.length ∨ ext.length + 1 = name.length then ""
  else String.mk ('.' :: ext)

/-- `s.find(pattern) != std::string::npos`: `pattern` occurs somewhere in `s`. -/
def stringFind (s pattern : String) : Bool :=
  s.data.tails.any (fun t => pattern.data.isPrefixOf t)

/-- The filter of `registerModules(RuntimeModuleLoading, isEnabled)` (lines 178-192):
`std::erase_if` removes a file when its extension is not a library type, or its path
string (`file.string()`) contains neither marker, or it is equivalent to the path of a
loaded library, or `isEnabled` rejects its stripped name. `libraryTypes` is
`SharedLibrary::libraryFileExtensions()`, `equivalent` is `std::filesystem::equivalent`
and `strip` is `util::stripModuleFileNameDecoration`, all taken as parameters. -/
def libraryFilter (libraryTypes : List String) (equivalent : String → String → Bool)
    (strip : String → String) (isEnabled : String → Bool)
    (sharedLibraries_ : List SharedLibrary) (libraryFiles : List String) : List String :=
  let isModuleLibraryLoaded := fun (path : String) =>
    sharedLibraries_.any (fun lib => equivalent lib.filePath path)
  libraryFiles.filter (fun file =>
    !(!libraryTypes.contains (pathExtension file) ||
      (!stringFind file "inviwo-module" && !stringFind file "inviwo-core") ||
      isModuleLibraryLoaded file || !isEnabled (strip file)))

/-- Outcome of opening one library and resolving `createModule` in it (lines 239-243):
the `SharedLibrary` constructor throws, the symbol is missing, or `moduleFunc()` returns a
descriptor. -/
inductive ModuleFunc
  | loadException
  | noCreateModule
  | factoryObject (mfo : InviwoModuleFactoryObject)
deriving DecidableEq, Repr

/-- One entry of `tmpLibraryFiles` with what the process and the loader say about it:
the original path, the staged path, `isLoaded(filePath)` (the library is already resident
in the process) and the outcome of loading it. -/
structure LibraryFile where
  filePath : String
  tmpPath : String
  loaded : Bool
  moduleFunc : ModuleFunc
deriving DecidableEq, Repr

/-- Body of the `for (const auto& [filePath, tmpPath] : tmpLibraryFiles)` loop
(lines 234-264) on the pair of the manager and the local vector `modules`. -/
def ModuleManager.loadLibrary (acc : ModuleManager × List InviwoModuleFactoryObject)
    (file : LibraryFile) : ModuleManager × List InviwoModuleFactoryObject :=
  match file.moduleFunc with
  | ModuleFunc.loadException => acc
  | ModuleFunc.noCreateModule => acc
  | ModuleFunc.factoryObject mfo =>
    ({ acc.1 with
        protected_ :=
          if mfo.protectedModule || file.loaded then acc.1.protected_.insert mfo.name
          else acc.1.protected_
        sharedLibraries_ := acc.1.sharedLibraries_ ++
          [{ filePath := if file.loaded then file.filePath else file.tmpPath }] },
     acc.2 ++ [mfo])

/-- The recursive lambda `getDeps` of `getProtectedDependencies`, threading the set
`dependencies` it writes to. The source recursion is unbounded; `fuel` bounds its depth. -/
def getDeps (modules : List InviwoModuleFactoryObject) : Nat → String → IdSet → Option IdSet
  | 0, _, _ => none
  | fuel + 1, module, dependencies =>
    match modules.find? (fun m => iCaseCmp m.name module) with
    | some m =>
      m.dependencies.foldlM (fun (deps : IdSet) (dep : String × Version) =>
        getDeps modules fuel dep.1 (deps.insert dep.1)) dependencies
    | none => some dependencies

/-- `ModuleManager::getProtectedDependencies`. The protected identifiers are walked in the
order of the list of representatives. -/
def getProtectedDependencies (fuel : Nat) (ptotectedIds : IdSet)
    (modules : List InviwoModuleFactoryObject) : Option IdSet :=
  ptotectedIds.ids.foldlM (fun (deps : IdSet) (module : String) =>
    getDeps modules fuel module deps) IdSet.empty

/-- `ModuleManager::registerModules(RuntimeModuleLoading, isEnabled)` from the loop over
`tmpLibraryFiles` on (lines 233-269): load the libraries, protect the flagged or resident
descriptors, add the protected dependencies found in the new descriptors, register. -/
def ModuleManager.registerModulesRuntimeModuleLoading (buildVersion : Version) (fuel : Nat)
    (mm : ModuleManager) (tmpLibraryFiles : List LibraryFile) : Option ModuleManager := do
  let r := tmpLibraryFiles.foldl ModuleManager.loadLibrary (mm, [])
  let dependencies ← getProtectedDependencies fuel r.1.protected_ r.2
  ({ r.1 with protected_ := r.1.protected_.insertAll dependencies.ids } :
    ModuleManager).registerModules buildVersion fuel r.2

/-! ## Reload staging -/

/-- `std::filesystem::path::stem()`: the filename without its extension. -/
def pathStem (file : String) : String :=
  String.mk ((pathFilename file).data.take
    ((pathFilename file).data.length - (pathExtension file).data.length))

/-- `tmpDir / name` for a directory path without trailing separator and a relative name
(`operator/` of `std::filesystem::path` in generic format). -/
def pathAppend (dir name : String) : String := dir ++ "/" ++ name

/-- What the staging lambda sees of the file system. `last_write_time p` is `none` when
the throwing overload `std::filesystem::last_write_time(p)` raises `filesystem_error`
(the file does not exist or cannot be examined) and the modification time otherwise;
`copy_file from to` is the result of `std::filesystem::copy_file(from, to, ec)`, false
when the copy reports an error (as it does, called without an overwrite option, when `to`
exists). -/
structure FileSystem where
  last_write_time : String → Option Nat
  copy_file : String → String → Bool

/-- The exception `std::filesystem::filesystem_error` leaving the staging lambda; nothing
in `registerModules(RuntimeModuleLoading, isEnabled)` catches it. -/
inductive FilesystemError
  | filesystem_error
deriving DecidableEq, Repr

/-- Ghost log of the staging lambda: the call of `copy_file` and the warning. -/
inductive StagingEvent
  | copy_file (src dst : String)
  | logWarn (dst : String)
deriving DecidableEq, Repr

/-- The lambda passed to `std::transform` in `registerModules(RuntimeModuleLoading,
isEnabled)` (lines 206-224): the pair (original path, path to load) for one candidate,
with the ghost log of what it did. `reloading` is `isRuntimeModuleReloadingEnabled()`. -/
def stageLibraryFile (reloading : Bool) (tmpDir : String) (fs : FileSystem)
    (filePath : String) : Except FilesystemError ((String × String) × List StagingEvent) :=
  if reloading then
    let dstPath := pathAppend tmpDir (pathStem filePath)
    match fs.last_write_time filePath, fs.last_write_time dstPath with
    | some src, some dst =>
      if src != dst then
        if !fs.copy_file filePath dstPath then
          Except.ok ((filePath, filePath),
            [StagingEvent.copy_file filePath dstPath, StagingEvent.logWarn dstPath])
        else Except.ok ((filePath, dstPath), [StagingEvent.copy_file filePath dstPath])
      else Except.ok ((filePath, dstPath), [])
    | _, _ => Except.error FilesystemError.filesystem_error
  else Except.ok ((filePath, filePath), [])

/-- The `std::transform` over the candidates: the pairs in order, or the exception of the
first candidate whose lambda throws. -/
def stageLibraryFiles (reloading : Bool) (tmpDir : String) (fs : FileSystem)
    (libraryFiles : List String) : Except FilesystemError (List (String × String)) :=
  libraryFiles.mapM (fun filePath =>
    (stageLibraryFile reloading tmpDir fs filePath).map (fun r => r.1))

/-- A file system in which exactly the listed files exist, with the listed modification
times; a copy succeeds when the destination does not exist and reports an error when it
does, as `copy_file` does without an overwrite option. -/
def mkFileSystem (files : List (String × Nat)) : FileSystem :=
  { last_write_time := fun p => (files.find? (fun f => f.1 == p)).map (fun f => f.2)
    copy_file := fun _ dst => (files.find? (fun f => f.1 == dst)).isNone }

/-! ## Concrete descriptors and states used in the examples -/

/-- Version 1.0.0. -/
def v100 : Version := { major := 1, minor := 0, patch := 0 }

/-- Version 1.0.1. -/
def v101 : Version := { major := 1, minor := 0, patch := 1 }

/-- Version 2.0.0. -/
def v200 : Version := { major := 2, minor := 0, patch := 0 }

/-- A descriptor built for core 1.0.0 whose constructor returns a module named like it. -/
def mkDescriptor (name : String) (version : Version) (dependencies : List (String × Version)) :
    InviwoModuleFactoryObject :=
  { name := name, version := version, inviwoCoreVersion := v100, dependencies := dependencies,
    aliases := [], protectedModule := false, create := CreateResult.module { identifier := name } }

/-- A descriptor built for core 1.0.0 whose constructor throws a `ModuleInitException`
naming `toDeregister`. -/
def mkFailing (name : String) (dependencies : List (String × Version))
    (toDeregister : List String) : InviwoModuleFactoryObject :=
  { name := name, version := v100, inviwoCoreVersion := v100, dependencies := dependencies,
    aliases := [], protectedModule := false,
    create := CreateResult.moduleInitException toDeregister }

/-- A manager with the given descriptors and live modules, nothing protected. -/
def mkManager (factoryObjects : List InviwoModuleFactoryObject) (modules : List InviwoModule) :
    ModuleManager :=
  { protected_ := IdSet.empty, sharedLibraries_ := [], factoryObjects_ := factoryObjects,
    modules_ := modules, events := [] }

/-! ## Dependency graph and fuel -/

/-- Descriptor `a` declares a dependency entry whose name is the name of `b`, ignoring
case. -/
def InviwoModuleFactoryObject.dependsOn (a b : InviwoModuleFactoryObject) : Bool :=
  a.dependencies.any (fun dep => iCaseCmp b.name dep.1)

/-- The dependency edge `a → b` between two descriptors of the list `objs`. -/
def DependsIn (objs : List InviwoModuleFactoryObject) (a b : InviwoModuleFactoryObject) : Prop :=
  a ∈ objs ∧ b ∈ objs ∧ a.dependsOn b = true

/-- The dependency graph of `objs` is acyclic: no descriptor depends on itself, directly or
through a chain of dependency edges. -/
def Acyclic (objs : List InviwoModuleFactoryObject) : Prop :=
  ∀ a, ¬ Relation.TransGen (DependsIn objs) a a

/-- A fuel-bounded computation returns `a` from some amount of fuel on. -/
def Converges {α : Type} (c : Nat → Option α) (a : α) : Prop :=
  ∃ fuel₀, ∀ fuel, fuel₀ ≤ fuel → c fuel = some a

/-- The edge the sorter follows from position `i`: a dependency entry of the descriptor at
`i` whose name lookup in `objs` finds position `j`. -/
def SortEdge (objs : List InviwoModuleFactoryObject) (i j : Nat) : Prop :=
  ∃ obj, objs[i]? = some obj ∧ ∃ dep ∈ obj.dependencies,
    objs.findIdx (fun mfo => iCaseCmp mfo.name dep.1) = j ∧ j < objs.length

/-- Invariant of the positions emitted so far by the sorter: no position twice, only
positions of `objs`, and every position comes after the positions it has an edge to. -/
def SortInv (objs : List InviwoModuleFactoryObject) (acc : List Nat) : Prop :=
  acc.Nodup ∧ (∀ k ∈ acc, k < objs.length) ∧
  ∀ p (hp : p < acc.length), ∀ j, SortEdge objs acc[p] j → j ∈ acc.take p

/-- The name `n` depends on the name `m` in the list `fo`: a descriptor named `n` declares a
dependency named `m` (names compared ignoring case), directly or through a chain of such
declarations. -/
inductive DependsOnName (fo : List InviwoModuleFactoryObject) : String → String → Prop
  | direct (item : InviwoModuleFactoryObject) (dep : String × Version) (n m : String) :
      item ∈ fo → iCaseCmp item.name n = true → dep ∈ item.dependencies →
      iCaseCmp dep.1 m = true → DependsOnName fo n m
  | trans (n k m : String) : DependsOnName fo n k → DependsOnName fo k m → DependsOnName fo n m

/-- What the `deregister` set built from the names `toDeregister` contains: only keys
equal (ignoring case) to a requested name or to a name depending on one, and at least
every requested name and every descriptor name with a dependency entry spelled exactly
like a requested name; and a key that is not a requested name comes with every
descriptor name that has a dependency entry spelled like the key in lower case. -/
def DeregisterSetSpec (fo : List InviwoModuleFactoryObject) (toDeregister : List String)
    (deregister : IdSet) : Prop :=
  (∀ x, deregister.count x ≠ 0 →
    ∃ n ∈ toDeregister, iCaseCmp n x = true ∨ DependsOnName fo x n) ∧
  (∀ n ∈ toDeregister, ∀ x, iCaseCmp n x = true → deregister.count x ≠ 0) ∧
  (∀ n ∈ toDeregister, ∀ item ∈ fo, ∀ dep ∈ item.dependencies, dep.1 = n →
    deregister.count item.name ≠ 0) ∧
  (∀ x, deregister.count x ≠ 0 → (∃ n ∈ toDeregister, iCaseCmp n x = true) ∨
    ∀ item ∈ fo, ∀ dep ∈ item.dependencies, dep.1 = toLower x →
      deregister.count item.name ≠ 0)

/-- The effect of one run of the loop body of `registerModules` on descriptor `obj`, from
state `mm` to state `mm'`, case by case: already loaded; rejected by the version checker;
constructed; construction failed with a generic exception; construction failed with a
`ModuleInitException` and the named modules and their dependents were erased. -/
def RegisterStepPost (buildVersion : Version) (mm : ModuleManager)
    (obj : InviwoModuleFactoryObject) (mm' : ModuleManager) : Prop :=
  mm'.factoryObjects_ = mm.factoryObjects_ ∧ mm'.protected_ = mm.protected_ ∧
  mm'.sharedLibraries_ = mm.sharedLibraries_ ∧
  (((mm.getModuleByIdentifier obj.name).isSome = true ∧ mm'.modules_ = mm.modules_ ∧
      mm'.events = mm.events ++ [Event.postProgress obj.name]) ∨
   (mm.getModuleByIdentifier obj.name = none ∧ mm.checkDependencies buildVersion obj = false ∧
      mm'.modules_ = mm.modules_ ∧
      mm'.events = mm.events ++ [Event.postProgress obj.name,
        Event.checkDependencies obj.name]) ∨
   (mm.getModuleByIdentifier obj.name = none ∧ mm.checkDependencies buildVersion obj = true ∧
      ∃ m, obj.create = CreateResult.module m ∧ mm'.modules_ = mm.modules_ ++ [m] ∧
      mm'.events = mm.events ++ [Event.postProgress obj.name,
        Event.checkDependencies obj.name, Event.create obj.name]) ∨
   (mm.getModuleByIdentifier obj.name = none ∧ mm.checkDependencies buildVersion obj = true ∧
      obj.create = CreateResult.exception ∧ mm'.modules_ = mm.modules_ ∧
      mm'.events = mm.events ++ [Event.postProgress obj.name,
        Event.checkDependencies obj.name, Event.create obj.name]) ∨
   (mm.getModuleByIdentifier obj.name = none ∧ mm.checkDependencies buildVersion obj = true ∧
      ∃ toDeregister deregister,
      obj.create = CreateResult.moduleInitException toDeregister ∧
      DeregisterSetSpec mm.factoryObjects_ toDeregister deregister ∧
      mm'.modules_ = mm.modules_.filter (fun m => !(deregister.count m.identifier != 0)) ∧
      mm'.events = mm.events ++ [Event.postProgress obj.name,
        Event.checkDependencies obj.name, Event.create obj.name] ++
        (mm.modules_.filter (fun m => deregister.count m.identifier != 0)).reverse.map
          (fun m => Event.moduleDestroyed m.identifier)))

/-- What the Dependency Sorter returns for the list `objs`: a permutation of it in which
every descriptor comes after the descriptor each of its dependency entries resolves to by
name lookup in `objs`. -/
def SortedSpec (objs sorted : List InviwoModuleFactoryObject) : Prop :=
  sorted.Perm objs ∧
  ∀ (p : Nat) (a : InviwoModuleFactoryObject), sorted[p]? = some a →
    ∀ dep ∈ a.dependencies, ∀ b,
    objs.find? (fun mfo => iCaseCmp mfo.name dep.1) = some b →
    ∃ q, q < p ∧ sorted[q]? = some b

/-- No two live modules have the same identifier, ignoring case. -/
def UniqueIdentifiers (modules : List InviwoModule) : Prop :=
  modules.Pairwise (fun a b => iCaseCmp a.identifier b.identifier = false)

/-- The cascading-teardown scenario: four descriptors with pairwise different names, built
for the running core. `A` depends on `B` and its constructor fails with a
`ModuleInitException` naming `B` (spelled `e`); `C` depends on `B` through an entry
spelled `e` as well; `B` and `D` have no dependencies; the constructors of `B`, `C` and
`D` return modules named like their descriptors; the versions of `B`, of the entries
naming `B` and of the modules `A` and `C` all agree. -/
structure CascadeScenario (buildVersion : Version) (A B C D : InviwoModuleFactoryObject)
    (mB mC mD : InviwoModule) (e : String) : Prop where
  nameAB : iCaseCmp A.name B.name = false
  nameAC : iCaseCmp A.name C.name = false
  nameAD : iCaseCmp A.name D.name = false
  nameBC : iCaseCmp B.name C.name = false
  nameBD : iCaseCmp B.name D.name = false
  nameCD : iCaseCmp C.name D.name = false
  coreA : buildVersion.semanticVersionEqual A.inviwoCoreVersion = true
  coreB : buildVersion.semanticVersionEqual B.inviwoCoreVersion = true
  coreC : buildVersion.semanticVersionEqual C.inviwoCoreVersion = true
  coreD : buildVersion.semanticVersionEqual D.inviwoCoreVersion = true
  depsA : ∃ eA vA, A.dependencies = [(eA, vA)] ∧ iCaseCmp B.name eA = true ∧
    B.version.semanticVersionEqual vA = true
  versionA : B.version.semanticVersionEqual A.version = true
  createA : A.create = CreateResult.moduleInitException [e]
  spelling : iCaseCmp B.name e = true
  depsB : B.dependencies = []
  createB : B.create = CreateResult.module mB
  identB : iCaseCmp mB.identifier B.name = true
  depsC : ∃ vC, C.dependencies = [(e, vC)] ∧ B.version.semanticVersionEqual vC = true
  versionC : B.version.semanticVersionEqual C.version = true
  createC : C.create = CreateResult.module mC
  identC : iCaseCmp mC.identifier C.name = true
  depsD : D.dependencies = []
  createD : D.create = CreateResult.module mD
  identD : iCaseCmp mD.identifier D.name = true

/-- Loop invariant of the cascading-teardown scenario, for the processed part `pre` of the
sorted list: only the modules of `B`, `C`, `D` are ever live; before `A` is processed the
module of `B` is live once `B` is processed; after `A` is processed the modules of `B` and
`C` are not live; the module of `D` is live once `D` is processed. -/
def CascadeInv (A B D : InviwoModuleFactoryObject) (mB mC mD : InviwoModule)
    (pre : List InviwoModuleFactoryObject) (mm : ModuleManager) : Prop :=
  (∀ x ∈ mm.modules_, x = mB ∨ x = mC ∨ x = mD) ∧
  (A ∉ pre → B ∈ pre → mB ∈ mm.modules_) ∧
  (A ∈ pre → mB ∉ mm.modules_ ∧ mC ∉ mm.modules_) ∧
  (D ∈ pre → mD ∈ mm.modules_)

/-! ## Discovery batches -/

/-- The descriptors a discovery pass obtains from its library files, in order: the local
vector `modules` of `registerModules(RuntimeModuleLoading, isEnabled)`. -/
def discoveredModules (files : List LibraryFile) : List InviwoModuleFactoryObject :=
  files.filterMap (fun file =>
    match file.moduleFunc with
    | ModuleFunc.factoryObject mfo => some mfo
    | _ => none)

/-- The edge `getDeps` follows from the name `n` inside the batch `modules`: the first
descriptor of the batch named `n` (ignoring case) declares a dependency named `k`. -/
def BatchEdge (modules : List InviwoModuleFactoryObject) (n k : String) : Prop :=
  ∃ m, modules.find? (fun d => iCaseCmp d.name n) = some m ∧ ∃ dep ∈ m.dependencies, dep.1 = k

/-- What `getDeps` returns for the name `n` on every incoming set `deps`: it returns (from
some fuel on) a set that holds, up to case, the keys of `deps` and the names reachable
from `n` along `BatchEdge`. -/
def GetDepsSpec (modules : List InviwoModuleFactoryObject) (n : String) : Prop :=
  ∀ deps : IdSet, ∃ r, Converges (fun fuel => getDeps modules fuel n deps) r ∧
    ∀ x, r.count x ≠ 0 ↔
      deps.count x ≠ 0 ∨ ∃ k, Relation.TransGen (BatchEdge modules) n k ∧ iCaseCmp k x = true

/-- The libraries a discovery pass appends to `sharedLibraries_`, in order: one per file
that yields a descriptor, opened from the original path when the library is already
resident and from the staged path otherwise. -/
def discoveredLibraries (files : List LibraryFile) : List SharedLibrary :=
  files.filterMap (fun file =>
    match file.moduleFunc with
    | ModuleFunc.factoryObject _ =>
      some { filePath := if file.loaded then file.filePath else file.tmpPath }
    | _ => none)

/-- A discovery candidate whose library `name` yields the descriptor `mfo`. -/
def mkLibraryFile (name : String) (loaded : Bool) (mfo : InviwoModuleFactoryObject) :
    LibraryFile :=
  { filePath := name, tmpPath := name, loaded := loaded,
    moduleFunc := ModuleFunc.factoryObject mfo }

/-- A descriptor like `mkDescriptor` that declares itself protected. -/
def mkProtectedDescriptor (name : String) (version : Version)
    (dependencies : List (String × Version)) : InviwoModuleFactoryObject :=
  { mkDescriptor name version dependencies with protectedModule := true }

/-- A descriptor built for core 1.0.0 whose constructor throws a generic exception. -/
def mkThrowing (name : String) (dependencies : List (String × Version)) :
    InviwoModuleFactoryObject :=
  { name := name, version := v100, inviwoCoreVersion := v100, dependencies := dependencies,
    aliases := [], protectedModule := false, create := CreateResult.exception }

/-- The descriptor of the module `A` declares a dependency on the module `B`: a descriptor
of `fo` named like the identifier of `A` has a dependency entry named like the identifier
of `B`, names compared ignoring case. -/
def Declares (fo : List InviwoModuleFactoryObject) (A B : InviwoModule) : Prop :=
  ∃ d ∈ fo, iCaseCmp d.name A.identifier = true ∧
    ∃ dep ∈ d.dependencies, iCaseCmp dep.1 B.identifier = true

/-- The live module order is consistent with the dependency direction: when the
descriptor of the live module `A` declares a dependency on the live module `B`, `B`
stands before `A` in the live module list. -/
def ModuleManager.LiveOrder (mm : ModuleManager) : Prop :=
  ∀ (i j : Nat) (A B : InviwoModule), mm.modules_[i]? = some A → mm.modules_[j]? = some B →
    Declares mm.factoryObjects_ A B → j < i

/-- Invariant behind the live module order, over the descriptors `fo` and the live
modules: every live module has a descriptor named like it; every dependency entry of the
descriptor of a live module names a live module; no live module declares a dependency on
itself or on a module that stands after it. -/
def OrderInvOn (fo : List InviwoModuleFactoryObject) (modules : List InviwoModule) : Prop :=
  (∀ m ∈ modules, ∃ d ∈ fo, iCaseCmp d.name m.identifier = true) ∧
  (∀ A ∈ modules, ∀ d ∈ fo, iCaseCmp d.name A.identifier = true →
    ∀ dep ∈ d.dependencies, ∃ B ∈ modules, iCaseCmp B.identifier dep.1 = true) ∧
  (∀ A ∈ modules, ¬ Declares fo A A) ∧
  modules.Pairwise (fun X Y => ¬ Declares fo X Y)

/-- The invariant `OrderInvOn` of a state of the manager. -/
def ModuleManager.OrderInv (mm : ModuleManager) : Prop :=
  OrderInvOn mm.factoryObjects_ mm.modules_

/-- No two descriptors of the list have the same name, ignoring case. -/
def NamesDistinct (fo : List InviwoModuleFactoryObject) : Prop :=
  fo.Pairwise (fun a b => iCaseCmp a.name b.name = false)

/-- A declared dependency edge out of the name `n` in the list `modules`: a descriptor of
the list named `n` (ignoring case) has a dependency entry named `k`. -/
def DeclaredEdge (modules : List InviwoModuleFactoryObject) (n k : String) : Prop :=
  ∃ m ∈ modules, iCaseCmp m.name n = true ∧ ∃ dep ∈ m.dependencies, dep.1 = k

/-- The spelling under which a cascading deregistration reaches every dependent: when the
construction of a descriptor of `fo` fails naming `n` for deregistration, every
dependency entry that names `n` is spelled like `n`, and every dependency entry that
names a descriptor depending on `n` is spelled like the name of that descriptor in lower
case. It holds of every list in which no construction fails with a `ModuleInitException`. -/
def CascadeSpelling (fo : List InviwoModuleFactoryObject) : Prop :=
  ∀ x ∈ fo, ∀ toDeregister, x.create = CreateResult.moduleInitException toDeregister →
    ∀ n ∈ toDeregister, ∀ d ∈ fo, ∀ dep ∈ d.dependencies,
      (iCaseCmp dep.1 n = true → dep.1 = n) ∧
      (∀ d' ∈ fo, DependsOnName fo d'.name n → iCaseCmp dep.1 d'.name = true →
        dep.1 = toLower d'.name)

/-! ## Basic facts about the helpers -/

theorem reverse_erase_if_eq {α : Type} (pred : α → Bool) (v : List α) :
    reverse_erase_if pred v = (v.filter (fun x => !pred x), (v.filter pred).reverse) := by
  induction v with
  | nil => rfl
  | cons x xs ih =>
    have h : reverse_erase_if pred (x :: xs) =
        (if pred x then ((reverse_erase_if pred xs).1, (reverse_erase_if pred xs).2 ++ [x])
          else (x :: (reverse_erase_if pred xs).1, (reverse_erase_if pred xs).2)) := rfl
    rw [h, ih]
    cases hp : pred x <;> simp [List.filter_cons, hp]

theorem iCaseCmp_iff (a b : String) : iCaseCmp a b = true ↔ toLower a = toLower b := by
  simp [iCaseCmp]

theorem iCaseCmp_refl (a : String) : iCaseCmp a a = true := by simp [iCaseCmp]

theorem iCaseCmp_comm (a b : String) : iCaseCmp a b = iCaseCmp b a := by
  rw [Bool.eq_iff_iff, iCaseCmp_iff, iCaseCmp_iff]; exact eq_comm

theorem IdSet.count_ne_zero_iff (s : IdSet) (key : String) :
    s.count key ≠ 0 ↔ ∃ x ∈ s.ids, iCaseCmp x key = true := by
  unfold IdSet.count
  by_cases h : s.ids.any (fun x => iCaseCmp x key) = true
  · simp only [h, if_true]
    simpa using h
  · simp only [h]
    simpa using h

theorem ModuleManager.isProtected_iff (mm : ModuleManager) (module : String) :
    mm.isProtected module = true ↔ ∃ x ∈ mm.protected_.ids, iCaseCmp x module = true := by
  unfold ModuleManager.isProtected
  rw [← IdSet.count_ne_zero_iff]
  simp

theorem checkDependenciesErr_fold_nil (mm : ModuleManager) (obj : InviwoModuleFactoryObject)
    (deps : List (String × Version)) (init : List DependencyError) :
    deps.foldl (fun err dep => err ++ mm.checkDependency obj dep) init = [] ↔
      init = [] ∧ ∀ dep ∈ deps, mm.checkDependency obj dep = [] := by
  induction deps generalizing init with
  | nil => simp
  | cons d ds ih =>
    rw [List.foldl_cons, ih]
    simp [and_assoc]

theorem ModuleManager.checkDependencies_iff (mm : ModuleManager) (buildVersion : Version)
    (obj : InviwoModuleFactoryObject) :
    mm.checkDependencies buildVersion obj = true ↔
      buildVersion.semanticVersionEqual obj.inviwoCoreVersion = true ∧
      ∀ dep ∈ obj.dependencies, mm.checkDependency obj dep = [] := by
  unfold ModuleManager.checkDependencies ModuleManager.checkDependenciesErr
  rw [List.isEmpty_iff, checkDependenciesErr_fold_nil]
  cases buildVersion.semanticVersionEqual obj.inviwoCoreVersion <;> simp

/-! ## The loop body when the version checker rejects -/

theorem ModuleManager.registerModulesStep_rejected (buildVersion : Version) (fuel : Nat)
    (mm : ModuleManager) (obj : InviwoModuleFactoryObject)
    (h : mm.checkDependencies buildVersion obj = false) :
    ∃ evs, mm.registerModulesStep buildVersion fuel obj = some { mm with events := mm.events ++ evs } ∧
      ∀ e ∈ evs, e = Event.postProgress obj.name ∨ e = Event.checkDependencies obj.name := by
  unfold ModuleManager.registerModulesStep
  by_cases hl : ((mm.emit (Event.postProgress obj.name)).getModuleByIdentifier obj.name).isSome = true
  · refine ⟨[Event.postProgress obj.name], ?_, by simp⟩
    simp only [hl, if_true]
    rfl
  · refine ⟨[Event.postProgress obj.name, Event.checkDependencies obj.name], ?_, by simp⟩
    have hc : ((mm.emit (Event.postProgress obj.name)).emit
        (Event.checkDependencies obj.name)).checkDependencies buildVersion obj = false := h
    simp only [hl, hc]
    simp [ModuleManager.emit]

/-! ## Claims about the version checker -/

/-- C1 (code evaluated at the failing input): with `base` live at version 1.0.0, the
descriptor `viz` (own version 1.0.0) declaring the dependency `("base", 2.0.0)` is accepted
by `checkDependencies` and registered, because the loaded version is compared with the
version of `viz` itself and not with the version of the dependency entry; and `viz` at
own version 2.0.0 declaring `("base", 1.0.0)` is rejected although the entry matches. -/
theorem C1_checkDependencies_compares_own_version :
    (mkManager [mkDescriptor "base" v100 [], mkDescriptor "viz" v100 [("base", v200)]]
        [{ identifier := "base" }]).checkDependencies v100
        (mkDescriptor "viz" v100 [("base", v200)]) = true ∧
    (ModuleManager.init.registerModules v100 2
        [mkDescriptor "base" v100 [], mkDescriptor "viz" v100 [("base", v200)]]).map
        (fun mm => mm.modules_) = some [{ identifier := "base" }, { identifier := "viz" }] ∧
    (mkManager [mkDescriptor "base" v100 [], mkDescriptor "viz" v200 [("base", v100)]]
        [{ identifier := "base" }]).checkDependenciesErr v100
        (mkDescriptor "viz" v200 [("base", v100)]) =
        [DependencyError.versionMismatch "base" v100 v100] := by
  decide

/-- C6: `checkDependencies` accepts a descriptor exactly when its core version is
semantically equal to the running core version and no dependency entry reports an error
(in particular when it has no dependencies); semantic equality is equality of the major,
minor and patch numbers; and when the core version differs the loop body of
`registerModules` leaves every container as it was, logging only the progress message and
the version check, so no module is created. -/
theorem C6_core_version_exactness (mm : ModuleManager) (buildVersion : Version)
    (obj : InviwoModuleFactoryObject) (fuel : Nat) :
    (buildVersion.semanticVersionEqual obj.inviwoCoreVersion = true ↔
      buildVersion.major = obj.inviwoCoreVersion.major ∧
      buildVersion.minor = obj.inviwoCoreVersion.minor ∧
      buildVersion.patch = obj.inviwoCoreVersion.patch) ∧
    (mm.checkDependencies buildVersion obj = true ↔
      buildVersion.semanticVersionEqual obj.inviwoCoreVersion = true ∧
      ∀ dep ∈ obj.dependencies, mm.checkDependency obj dep = []) ∧
    (buildVersion.semanticVersionEqual obj.inviwoCoreVersion = true →
      obj.dependencies = [] → mm.checkDependencies buildVersion obj = true) ∧
    (buildVersion.semanticVersionEqual obj.inviwoCoreVersion = false →
      mm.checkDependencies buildVersion obj = false ∧
      ∃ evs, mm.registerModulesStep buildVersion fuel obj =
          some { mm with events := mm.events ++ evs } ∧
        ∀ e ∈ evs, e = Event.postProgress obj.name ∨ e = Event.checkDependencies obj.name) := by
  have hiff := mm.checkDependencies_iff buildVersion obj
  refine ⟨?_, hiff, ?_, ?_⟩
  · simp [Version.semanticVersionEqual, and_assoc]
  · intro hc hd
    rw [hiff]
    exact ⟨hc, by simp [hd]⟩
  · intro hc
    have hf : mm.checkDependencies buildVersion obj = false := by
      cases hcd : mm.checkDependencies buildVersion obj
      · rfl
      · rw [hiff, hc] at hcd
        exact absurd hcd.1 (by simp)
    exact ⟨hf, mm.registerModulesStep_rejected buildVersion fuel obj hf⟩

/-- C6 at a concrete input: a descriptor built for core 1.0.1 is rejected by a core at
1.0.0 and the loop body creates nothing for it. -/
theorem C6_core_version_exactness_witness :
    (mkManager [] []).checkDependencies v100
        { mkDescriptor "base" v100 [] with inviwoCoreVersion := v101 } = false ∧
    ∃ evs, (mkManager [] []).registerModulesStep v100 0
        { mkDescriptor "base" v100 [] with inviwoCoreVersion := v101 } =
          some { mkManager [] [] with events := (mkManager [] []).events ++ evs } ∧
        ∀ e ∈ evs, e = Event.postProgress "base" ∨ e = Event.checkDependencies "base" :=
  (C6_core_version_exactness (mkManager [] []) v100
    { mkDescriptor "base" v100 [] with inviwoCoreVersion := v101 } 0).2.2.2 (by decide)

/-- C7: when a dependency entry of `obj` names no known descriptor (case-insensitive
lookup), or names a descriptor that has no live module, `checkDependencies` returns false
and the loop body of `registerModules` leaves the live module list (and every other
container) as it was, logging only the progress message and the version check. -/
theorem C7_missing_dependency_rejected (mm : ModuleManager) (buildVersion : Version)
    (obj : InviwoModuleFactoryObject) (fuel : Nat) (dep : String × Version)
    (hdep : dep ∈ obj.dependencies)
    (hmissing : (∀ d ∈ mm.factoryObjects_, iCaseCmp d.name dep.1 = false) ∨
      ∃ depObj, mm.getFactoryObject dep.1 = some depObj ∧
        ∀ m ∈ mm.modules_, iCaseCmp m.identifier depObj.name = false) :
    mm.checkDependencies buildVersion obj = false ∧
    ∃ evs, mm.registerModulesStep buildVersion fuel obj =
        some { mm with events := mm.events ++ evs } ∧
      (∀ e ∈ evs, e = Event.postProgress obj.name ∨ e = Event.checkDependencies obj.name) := by
  have herr : mm.checkDependency obj dep ≠ [] := by
    unfold ModuleManager.checkDependency
    rcases hmissing with hnone | ⟨depObj, hfo, hmod⟩
    · have : mm.getFactoryObject dep.1 = none := by
        unfold ModuleManager.getFactoryObject
        rw [List.find?_eq_none]
        intro x hx
        simp [hnone x hx]
      simp [this]
    · have : mm.getModuleByIdentifier depObj.name = none := by
        unfold ModuleManager.getModuleByIdentifier
        rw [List.find?_eq_none]
        intro x hx
        simp [hmod x hx]
      simp [hfo, this]
  have hf : mm.checkDependencies buildVersion obj = false := by
    cases hcd : mm.checkDependencies buildVersion obj
    · rfl
    · rw [mm.checkDependencies_iff] at hcd
      exact absurd (hcd.2 dep hdep) herr
  exact ⟨hf, mm.registerModulesStep_rejected buildVersion fuel obj hf⟩

/-- C7 at a concrete input: `viz` depends on `base`, which is known but not live. -/
theorem C7_missing_dependency_rejected_witness :
    (mkManager [mkDescriptor "Base" v100 [], mkDescriptor "viz" v100 [("base", v100)]]
      []).checkDependencies v100 (mkDescriptor "viz" v100 [("base", v100)]) = false ∧
    ∃ evs, (mkManager [mkDescriptor "Base" v100 [], mkDescriptor "viz" v100 [("base", v100)]]
      []).registerModulesStep v100 0 (mkDescriptor "viz" v100 [("base", v100)]) =
        some { mkManager [mkDescriptor "Base" v100 [], mkDescriptor "viz" v100 [("base", v100)]]
                [] with
               events := (mkManager [mkDescriptor "Base" v100 [],
                  mkDescriptor "viz" v100 [("base", v100)]] []).events ++ evs } ∧
      (∀ e ∈ evs, e = Event.postProgress "viz" ∨ e = Event.checkDependencies "viz") :=
  C7_missing_dependency_rejected _ v100 (mkDescriptor "viz" v100 [("base", v100)]) 0
    ("base", v100) (by decide)
    (Or.inr ⟨mkDescriptor "Base" v100 [], by decide, by decide⟩)

/-! ## Teardown -/

theorem ModuleManager.unregisterModules_modules (strip : String → String) (mm : ModuleManager) :
    (mm.unregisterModules strip).modules_ =
      mm.modules_.filter (fun m => mm.isProtected m.identifier) := by
  simp [ModuleManager.unregisterModules, reverse_erase_if_eq]

/-- C10: after `unregisterModules` the live module list is the previous list filtered to
the identifiers in the protected set, the descriptor list is filtered to the protected
names, the loaded-library list is filtered to the libraries whose stripped file name is
protected (filtering keeps the relative order), and the protected set is unchanged; a name
is protected exactly when the set holds a key equal to it ignoring case. -/
theorem C10_unregisterModules_keeps_protected (strip : String → String) (mm : ModuleManager) :
    (mm.unregisterModules strip).modules_ =
      mm.modules_.filter (fun m => mm.isProtected m.identifier) ∧
    (mm.unregisterModules strip).factoryObjects_ =
      mm.factoryObjects_.filter (fun mfo => mm.isProtected mfo.name) ∧
    (mm.unregisterModules strip).sharedLibraries_ =
      mm.sharedLibraries_.filter (fun lib => mm.isProtected (strip lib.filePath)) ∧
    (mm.unregisterModules strip).protected_ = mm.protected_ ∧
    (∀ name, mm.isProtected name = true ↔
      ∃ key ∈ mm.protected_.ids, toLower key = toLower name) := by
  refine ⟨?_, ?_, ?_, rfl, ?_⟩
  · exact mm.unregisterModules_modules strip
  · simp [ModuleManager.unregisterModules, reverse_erase_if_eq]
  · simp [ModuleManager.unregisterModules, reverse_erase_if_eq]
  · intro name
    rw [mm.isProtected_iff]
    simp only [iCaseCmp_iff]

/-- C4 (counterexample): `r`, `q` (depending on `r`), `p` (depending on `q`) and `s` are
registered, then `p` alone is put in the protected set with `addProtectedIdentifier`; all
four are live and `p` is protected, yet `unregisterModules` keeps only `p`: `q` and `r`
are removed. -/
theorem C4_protected_closure_counterexample :
    ((ModuleManager.init.registerModules v100 3
        [mkDescriptor "r" v100 [], mkDescriptor "q" v100 [("r", v100)],
         mkDescriptor "p" v100 [("q", v100)], mkDescriptor "s" v100 []]).map
      (fun mm => (mm.addProtectedIdentifier "p").modules_)) =
      some [{ identifier := "r" }, { identifier := "q" }, { identifier := "p" },
            { identifier := "s" }] ∧
    ((ModuleManager.init.registerModules v100 3
        [mkDescriptor "r" v100 [], mkDescriptor "q" v100 [("r", v100)],
         mkDescriptor "p" v100 [("q", v100)], mkDescriptor "s" v100 []]).map
      (fun mm => (mm.addProtectedIdentifier "p").isProtected "p")) = some true ∧
    ((ModuleManager.init.registerModules v100 3
        [mkDescriptor "r" v100 [], mkDescriptor "q" v100 [("r", v100)],
         mkDescriptor "p" v100 [("q", v100)], mkDescriptor "s" v100 []]).map
      (fun mm => ((mm.addProtectedIdentifier "p").unregisterModules id).modules_)) =
      some [{ identifier := "p" }] := by
  decide

/-! ## Acyclic graphs: induction along dependency edges -/

theorem acyclic_of_rank (objs : List InviwoModuleFactoryObject)
    (rank : InviwoModuleFactoryObject → Nat)
    (h : ∀ a ∈ objs, ∀ b ∈ objs, a.dependsOn b = true → rank b < rank a) : Acyclic objs := by
  have key : ∀ a b, Relation.TransGen (DependsIn objs) a b → rank b < rank a := by
    intro a b hab
    induction hab with
    | single hab => exact h _ hab.1 _ hab.2.1 hab.2.2
    | tail _ hbc ih => exact lt_trans (h _ hbc.1 _ hbc.2.1 hbc.2.2) ih
  intro a ha
  exact lt_irrefl _ (key a a ha)

theorem Acyclic.of_mem_iff {objs objs' : List InviwoModuleFactoryObject} (hac : Acyclic objs)
    (h : ∀ a, a ∈ objs' ↔ a ∈ objs) : Acyclic objs' := by
  intro a ha
  apply hac a
  refine Relation.TransGen.mono ?_ ha
  intro x y hxy
  exact ⟨(h x).mp hxy.1, (h y).mp hxy.2.1, hxy.2.2⟩

theorem Acyclic.induction_dependencies {objs : List InviwoModuleFactoryObject}
    (hac : Acyclic objs) (P : InviwoModuleFactoryObject → Prop)
    (step : ∀ a ∈ objs, (∀ b ∈ objs, a.dependsOn b = true → P b) → P a) :
    ∀ a ∈ objs, P a := by
  let r : InviwoModuleFactoryObject → InviwoModuleFactoryObject → Prop :=
    Relation.TransGen (Function.swap (DependsIn objs))
  haveI : IsStrictOrder InviwoModuleFactoryObject r :=
    { irrefl := fun a h => hac a (Relation.transGen_swap.mp h)
      trans := fun _ _ _ h1 h2 => Relation.TransGen.trans h1 h2 }
  have hwf : Set.WellFoundedOn {x | x ∈ objs} r := (List.finite_toSet objs).wellFoundedOn
  intro a ha
  refine hwf.induction ha ?_
  intro y hy ih
  apply step y hy
  intro b hb hdep
  exact ih b hb (Relation.TransGen.single ⟨hy, hb, hdep⟩)

theorem Acyclic.induction_dependents {objs : List InviwoModuleFactoryObject}
    (hac : Acyclic objs) (P : InviwoModuleFactoryObject → Prop)
    (step : ∀ a ∈ objs, (∀ b ∈ objs, b.dependsOn a = true → P b) → P a) :
    ∀ a ∈ objs, P a := by
  let r : InviwoModuleFactoryObject → InviwoModuleFactoryObject → Prop :=
    Relation.TransGen (DependsIn objs)
  haveI : IsStrictOrder InviwoModuleFactoryObject r :=
    { irrefl := fun a h => hac a h
      trans := fun _ _ _ h1 h2 => Relation.TransGen.trans h1 h2 }
  have hwf : Set.WellFoundedOn {x | x ∈ objs} r := (List.finite_toSet objs).wellFoundedOn
  intro a ha
  refine hwf.induction ha ?_
  intro y hy ih
  apply step y hy
  intro b hb hdep
  exact ih b hb (Relation.TransGen.single ⟨hb, hy, hdep⟩)

/-! ## Fuel -/

theorem Converges.pure {α : Type} (a : α) : Converges (fun _ => some a) a :=
  ⟨0, fun _ _ => rfl⟩

theorem Converges.bind {α β : Type} {c : Nat → Option α} {k : Nat → α → Option β} {a : α}
    {b : β} (hc : Converges c a) (hk : Converges (fun fuel => k fuel a) b) :
    Converges (fun fuel => (c fuel).bind (k fuel)) b := by
  obtain ⟨f1, h1⟩ := hc
  obtain ⟨f2, h2⟩ := hk
  refine ⟨max f1 f2, fun fuel hf => ?_⟩
  show (c fuel).bind (k fuel) = some b
  rw [h1 fuel (le_trans (le_max_left _ _) hf)]
  exact h2 fuel (le_trans (le_max_right _ _) hf)

theorem Converges.map {α β : Type} {c : Nat → Option α} {a : α} (g : α → β)
    (hc : Converges c a) : Converges (fun fuel => (c fuel).map g) (g a) := by
  obtain ⟨f1, h1⟩ := hc
  refine ⟨f1, fun fuel hf => ?_⟩
  show (c fuel).map g = some (g a)
  rw [h1 fuel hf]
  rfl

theorem Converges.congr {α : Type} {c c' : Nat → Option α} {a : α}
    (h : ∀ fuel, c fuel = c' fuel) (hc : Converges c a) : Converges c' a := by
  obtain ⟨f1, h1⟩ := hc
  exact ⟨f1, fun fuel hf => (h fuel).symm.trans (h1 fuel hf)⟩

theorem Converges.unique {α : Type} {c : Nat → Option α} {a b : α}
    (ha : Converges c a) (hb : Converges c b) : a = b := by
  obtain ⟨f1, h1⟩ := ha
  obtain ⟨f2, h2⟩ := hb
  have e1 := h1 (max f1 f2) (le_max_left _ _)
  have e2 := h2 (max f1 f2) (le_max_right _ _)
  rw [e1] at e2
  exact Option.some.inj e2

/-- A fold whose steps converge and keep an invariant converges and keeps it. -/
theorem Converges.foldlM {α β : Type} (step : Nat → β → α → Option β) (I : β → Prop)
    (l : List α)
    (hstep : ∀ b, I b → ∀ x ∈ l, ∃ b', Converges (fun fuel => step fuel b x) b' ∧ I b') :
    ∀ b, I b → ∃ b', Converges (fun fuel => l.foldlM (step fuel) b) b' ∧ I b' := by
  induction l with
  | nil =>
    intro b hb
    exact ⟨b, ⟨0, fun _ _ => rfl⟩, hb⟩
  | cons x xs ih =>
    intro b hb
    obtain ⟨b1, hc1, hI1⟩ := hstep b hb x (List.mem_cons_self _ _)
    obtain ⟨b2, hc2, hI2⟩ :=
      ih (fun b hb y hy => hstep b hb y (List.mem_cons_of_mem _ hy)) b1 hI1
    refine ⟨b2, ?_, hI2⟩
    have := Converges.bind (k := fun fuel b => xs.foldlM (step fuel) b) hc1 hc2
    simpa [List.foldlM_cons] using this

/-! ## Case-insensitive names -/

theorem charToLower_idem (c : Char) : c.toLower.toLower = c.toLower := by
  unfold Char.toLower
  simp only
  by_cases h : c.toNat ≥ 65 ∧ c.toNat ≤ 90
  · rw [if_pos h]
    have hv : (Char.ofNat (c.toNat + 32)).toNat = c.toNat + 32 := by
      obtain ⟨h1, h2⟩ := h
      generalize c.toNat = n at h1 h2
      interval_cases n <;> rfl
    rw [hv, if_neg (by omega)]
  · rw [if_neg h, if_neg h]

theorem toLower_idem (s : String) : toLower (toLower s) = toLower s := by
  unfold toLower
  simp [List.map_map, Function.comp_def, charToLower_idem]

theorem iCaseCmp_toLower_right (a : String) : iCaseCmp a (toLower a) = true := by
  rw [iCaseCmp_iff, toLower_idem]

theorem iCaseCmp_toLower_left (a : String) : iCaseCmp (toLower a) a = true := by
  rw [iCaseCmp_iff, toLower_idem]

theorem iCaseCmp_trans {a b c : String} (h1 : iCaseCmp a b = true) (h2 : iCaseCmp b c = true) :
    iCaseCmp a c = true := by
  rw [iCaseCmp_iff] at *
  exact h1.trans h2

theorem iCaseCmp_symm {a b : String} (h : iCaseCmp a b = true) : iCaseCmp b a = true := by
  rw [iCaseCmp_comm]
  exact h

theorem iCaseCmp_false_of_left {a b c : String} (h1 : iCaseCmp a b = true)
    (h2 : iCaseCmp a c = false) : iCaseCmp b c = false := by
  cases h : iCaseCmp b c
  · rfl
  · rw [iCaseCmp_trans h1 h] at h2
    cases h2

/-! ## Identifier sets -/

theorem IdSet.count_insert_ne_zero (s : IdSet) (key x : String) :
    (s.insert key).count x ≠ 0 ↔ s.count x ≠ 0 ∨ iCaseCmp key x = true := by
  unfold IdSet.insert
  by_cases h : s.count key ≠ 0
  · have h' : (s.count key != 0) = true := by simpa using h
    rw [if_pos h']
    constructor
    · exact Or.inl
    · rintro (hx | hx)
      · exact hx
      · rw [IdSet.count_ne_zero_iff] at h ⊢
        obtain ⟨y, hy, hyk⟩ := h
        exact ⟨y, hy, iCaseCmp_trans hyk hx⟩
  · have h' : ¬ (s.count key != 0) = true := by simpa using h
    rw [if_neg h']
    rw [IdSet.count_ne_zero_iff, IdSet.count_ne_zero_iff]
    simp only [List.mem_append, List.mem_singleton]
    constructor
    · rintro ⟨y, hy | hy, hyx⟩
      · exact Or.inl ⟨y, hy, hyx⟩
      · exact Or.inr (hy ▸ hyx)
    · rintro (⟨y, hy, hyx⟩ | hx)
      · exact ⟨y, Or.inl hy, hyx⟩
      · exact ⟨key, Or.inr rfl, hx⟩

theorem IdSet.count_insertAll_ne_zero (keys : List String) (s : IdSet) (x : String) :
    (s.insertAll keys).count x ≠ 0 ↔ s.count x ≠ 0 ∨ ∃ key ∈ keys, iCaseCmp key x = true := by
  unfold IdSet.insertAll
  induction keys generalizing s with
  | nil => simp
  | cons k ks ih =>
    rw [List.foldl_cons, ih, IdSet.count_insert_ne_zero]
    simp only [List.mem_cons, exists_eq_or_imp, or_assoc]

theorem IdSet.count_empty (x : String) : IdSet.empty.count x = 0 := rfl

/-! ## `push_back_unique` -/

theorem mem_foldl_push_back_unique (l : List String) (init : List String) (x : String) :
    x ∈ l.foldl push_back_unique init ↔ x ∈ init ∨ x ∈ l := by
  induction l generalizing init with
  | nil => simp
  | cons y ys ih =>
    rw [List.foldl_cons, ih]
    unfold push_back_unique
    by_cases hy : init.contains y = true
    · rw [if_pos hy]
      have : y ∈ init := by simpa using hy
      constructor
      · rintro (h | h)
        · exact Or.inl h
        · exact Or.inr (List.mem_cons_of_mem _ h)
      · rintro (h | h)
        · exact Or.inl h
        · rcases List.mem_cons.mp h with rfl | h
          · exact Or.inl this
          · exact Or.inr h
    · rw [if_neg hy]
      simp only [List.mem_append, List.mem_singleton, List.mem_cons]
      tauto

/-! ## Lists -/

theorem find?_eq_some_of_unique {α : Type} {p : α → Bool} {l : List α} {b : α}
    (hb : b ∈ l) (hp : p b = true) (hu : ∀ x ∈ l, p x = true → x = b) :
    l.find? p = some b := by
  induction l with
  | nil => cases hb
  | cons x xs ih =>
    rw [List.find?_cons]
    cases hx : p x
    · simp only
      rcases List.mem_cons.mp hb with rfl | hb'
      · rw [hp] at hx
        cases hx
      · exact ih hb' (fun y hy hpy => hu y (List.mem_cons_of_mem _ hy) hpy)
    · simp only
      rw [hu x (List.mem_cons_self _ _) hx]

/-! ## The dependency sorter -/

theorem topologicalVisit_succ (objs : List InviwoModuleFactoryObject) (fuel i : Nat)
    (sorted : List Nat) :
    topologicalVisit objs (fuel + 1) i sorted =
      if i ∈ sorted then some sorted
      else
        match objs[i]? with
        | none => some sorted
        | some obj =>
          (obj.dependencies.foldlM (fun acc dep =>
            if objs.findIdx (fun mfo => iCaseCmp mfo.name dep.1) < objs.length then
              topologicalVisit objs fuel (objs.findIdx (fun mfo => iCaseCmp mfo.name dep.1)) acc
            else some acc) sorted).bind (fun sorted' => some (sorted' ++ [i])) := by
  rfl

theorem SortEdge.dependsIn {objs : List InviwoModuleFactoryObject} {i j : Nat}
    (h : SortEdge objs i j) :
    ∃ a b, objs[i]? = some a ∧ objs[j]? = some b ∧ DependsIn objs a b := by
  obtain ⟨a, ha, dep, hdep, hj, hlt⟩ := h
  refine ⟨a, objs[j], ha, List.getElem?_eq_getElem hlt, List.getElem?_mem ha,
    List.getElem_mem hlt, ?_⟩
  unfold InviwoModuleFactoryObject.dependsOn
  rw [List.any_eq_true]
  refine ⟨dep, hdep, ?_⟩
  subst hj
  exact List.findIdx_getElem (p := fun (mfo : InviwoModuleFactoryObject) => iCaseCmp mfo.name dep.1)

theorem SortEdge.transGen_dependsIn {objs : List InviwoModuleFactoryObject} {i j : Nat}
    (h : Relation.TransGen (SortEdge objs) i j) :
    ∃ a b, objs[i]? = some a ∧ objs[j]? = some b ∧ Relation.TransGen (DependsIn objs) a b := by
  induction h with
  | single h =>
    obtain ⟨a, b, ha, hb, hab⟩ := h.dependsIn
    exact ⟨a, b, ha, hb, Relation.TransGen.single hab⟩
  | tail _ hbc ih =>
    obtain ⟨a, b, ha, hb, hab⟩ := ih
    obtain ⟨b', c, hb', hc, hbc'⟩ := hbc.dependsIn
    rw [hb] at hb'
    cases hb'
    exact ⟨a, c, ha, hc, Relation.TransGen.tail hab hbc'⟩

theorem Acyclic.sortEdge_irrefl {objs : List InviwoModuleFactoryObject} (hac : Acyclic objs)
    (i : Nat) : ¬ Relation.TransGen (SortEdge objs) i i := by
  intro h
  obtain ⟨a, b, ha, hb, hab⟩ := SortEdge.transGen_dependsIn h
  rw [ha] at hb
  cases hb
  exact hac a hab

theorem SortInv.nil (objs : List InviwoModuleFactoryObject) : SortInv objs [] :=
  ⟨List.nodup_nil, by simp, by simp⟩

theorem SortInv.snoc {objs : List InviwoModuleFactoryObject} {acc : List Nat} {i : Nat}
    (h : SortInv objs acc) (hi : i < objs.length) (hni : i ∉ acc)
    (hdeps : ∀ j, SortEdge objs i j → j ∈ acc) : SortInv objs (acc ++ [i]) := by
  obtain ⟨hnd, hlt, hcl⟩ := h
  refine ⟨?_, ?_, ?_⟩
  · rw [List.nodup_append]
    refine ⟨hnd, List.nodup_singleton _, ?_⟩
    intro x hx hx'
    rw [List.mem_singleton] at hx'
    exact hni (hx' ▸ hx)
  · intro k hk
    rw [List.mem_append, List.mem_singleton] at hk
    rcases hk with hk | hk
    · exact hlt k hk
    · exact hk ▸ hi
  · intro p hp j hedge
    rw [List.length_append, List.length_singleton] at hp
    by_cases hpl : p < acc.length
    · rw [List.getElem_append_left hpl] at hedge
      rw [List.take_append_of_le_length (le_of_lt hpl)]
      exact hcl p hpl j hedge
    · have hpe : p = acc.length := by omega
      subst hpe
      rw [List.getElem_append_right (le_refl _)] at hedge
      simp only [Nat.sub_self, List.getElem_cons_zero] at hedge
      rw [List.take_append_of_le_length (le_refl _), List.take_length]
      exact hdeps j hedge

theorem topologicalVisit_spec {objs : List InviwoModuleFactoryObject} (hac : Acyclic objs) :
    ∀ a ∈ objs, ∀ i, objs[i]? = some a → ∀ acc, SortInv objs acc →
      ∃ acc', Converges (fun fuel => topologicalVisit objs fuel i acc) acc' ∧
        SortInv objs acc' ∧ i ∈ acc' ∧
        ∃ ext, acc' = acc ++ ext ∧ ∀ k ∈ ext, Relation.ReflTransGen (SortEdge objs) i k := by
  refine hac.induction_dependencies _ ?_
  intro a _ ih i hi acc hinv
  have hilt : i < objs.length := by
    by_contra hge
    rw [List.getElem?_eq_none (by omega)] at hi
    cases hi
  by_cases hmem : i ∈ acc
  · refine ⟨acc, ⟨1, ?_⟩, hinv, hmem, [], by simp, by simp⟩
    intro fuel hf
    obtain ⟨f, rfl⟩ : ∃ f, fuel = f + 1 := ⟨fuel - 1, by omega⟩
    show topologicalVisit objs (f + 1) i acc = some acc
    rw [topologicalVisit_succ, if_pos hmem]
  · have hfold : ∀ deps : List (String × Version), (∀ d ∈ deps, d ∈ a.dependencies) →
        ∀ acc0, SortInv objs acc0 →
        ∃ acc1, Converges (fun fuel => deps.foldlM (fun acc dep =>
            if objs.findIdx (fun mfo => iCaseCmp mfo.name dep.1) < objs.length then
              topologicalVisit objs fuel (objs.findIdx (fun mfo => iCaseCmp mfo.name dep.1)) acc
            else some acc) acc0) acc1 ∧
          SortInv objs acc1 ∧
          (∃ ext, acc1 = acc0 ++ ext ∧
            ∀ k ∈ ext, ∃ j, SortEdge objs i j ∧ Relation.ReflTransGen (SortEdge objs) j k) ∧
          (∀ d ∈ deps, objs.findIdx (fun mfo => iCaseCmp mfo.name d.1) < objs.length →
            objs.findIdx (fun mfo => iCaseCmp mfo.name d.1) ∈ acc1) := by
      intro deps
      induction deps with
      | nil =>
        intro _ acc0 h0
        exact ⟨acc0, ⟨0, fun _ _ => rfl⟩, h0, ⟨[], by simp, by simp⟩, by simp⟩
      | cons d ds ihd =>
        intro hsub acc0 h0
        have hd : d ∈ a.dependencies := hsub d (List.mem_cons_self _ _)
        have hsub' : ∀ x ∈ ds, x ∈ a.dependencies := fun x hx => hsub x (List.mem_cons_of_mem _ hx)
        by_cases hj : objs.findIdx (fun mfo => iCaseCmp mfo.name d.1) < objs.length
        · have hedge : SortEdge objs i (objs.findIdx (fun mfo => iCaseCmp mfo.name d.1)) :=
            ⟨a, hi, d, hd, rfl, hj⟩
          obtain ⟨a', b, ha', hb, hab⟩ := hedge.dependsIn
          rw [hi] at ha'
          cases ha'
          obtain ⟨accm, hcm, hinvm, hjm, extm, hextm, hreach⟩ :=
            ih b hab.2.1 hab.2.2 _ hb acc0 h0
          obtain ⟨acc1, hc1, hinv1, ⟨ext1, hext1, hreach1⟩, hall⟩ := ihd hsub' accm hinvm
          refine ⟨acc1, ?_, hinv1,
            ⟨extm ++ ext1, by rw [hext1, hextm, List.append_assoc], ?_⟩, ?_⟩
          · have := Converges.bind (k := fun fuel acc => ds.foldlM (fun acc dep =>
              if objs.findIdx (fun mfo => iCaseCmp mfo.name dep.1) < objs.length then
                topologicalVisit objs fuel
                  (objs.findIdx (fun mfo => iCaseCmp mfo.name dep.1)) acc
              else some acc) acc) hcm hc1
            refine Converges.congr (fun fuel => ?_) this
            rw [List.foldlM_cons, if_pos hj]
            rfl
          · intro k hk
            rw [List.mem_append] at hk
            rcases hk with hk | hk
            · exact ⟨_, hedge, hreach k hk⟩
            · exact hreach1 k hk
          · intro d' hd' hlt
            rw [List.mem_cons] at hd'
            rcases hd' with rfl | hd'
            · rw [hext1]
              exact List.mem_append_left _ hjm
            · exact hall d' hd' hlt
        · obtain ⟨acc1, hc1, hinv1, hext, hall⟩ := ihd hsub' acc0 h0
          refine ⟨acc1, ?_, hinv1, hext, ?_⟩
          · refine Converges.congr (fun fuel => ?_) hc1
            rw [List.foldlM_cons, if_neg hj]
            rfl
          · intro d' hd' hlt
            rcases List.mem_cons.mp hd' with rfl | hd'
            · exact absurd hlt hj
            · exact hall d' hd' hlt
    obtain ⟨acc1, hc1, hinv1, ⟨ext, hext, hreach⟩, hall⟩ :=
      hfold a.dependencies (fun _ h => h) acc hinv
    have hni : i ∉ acc1 := by
      rw [hext, List.mem_append]
      rintro (h | h)
      · exact hmem h
      · obtain ⟨j, hedge, hjk⟩ := hreach i h
        exact hac.sortEdge_irrefl i (Relation.TransGen.head' hedge hjk)
    refine ⟨acc1 ++ [i], ?_, hinv1.snoc hilt hni ?_, by simp, ext ++ [i],
      by rw [hext, List.append_assoc], ?_⟩
    · obtain ⟨f0, hf0⟩ := hc1
      refine ⟨f0 + 1, fun fuel hf => ?_⟩
      obtain ⟨f, rfl⟩ : ∃ f, fuel = f + 1 := ⟨fuel - 1, by omega⟩
      have hfold' := hf0 f (by omega)
      simp only at hfold'
      show topologicalVisit objs (f + 1) i acc = some (acc1 ++ [i])
      rw [topologicalVisit_succ, if_neg hmem, hi]
      simp only
      rw [hfold']
      rfl
    · intro j hedge
      obtain ⟨obj, hobj, dep, hdep, hjeq, hjlt⟩ := hedge
      rw [hi] at hobj
      cases hobj
      subst hjeq
      exact hall dep hdep hjlt
    · intro k hk
      rw [List.mem_append, List.mem_singleton] at hk
      rcases hk with hk | rfl
      · obtain ⟨j, hedge, hjk⟩ := hreach k hk
        exact Relation.ReflTransGen.head hedge hjk
      · exact Relation.ReflTransGen.refl

theorem find?_eq_some_findIdx {α : Type} {p : α → Bool} {l : List α} {b : α}
    (h : l.find? p = some b) : l.findIdx p < l.length ∧ l[l.findIdx p]? = some b := by
  induction l with
  | nil => simp at h
  | cons x xs ih =>
    rw [List.findIdx_cons]
    rw [List.find?_cons] at h
    cases hp : p x
    · rw [hp] at h
      obtain ⟨h1, h2⟩ := ih h
      simp only [cond_false, List.length_cons]
      exact ⟨Nat.succ_lt_succ h1, by rw [List.getElem?_cons_succ]; exact h2⟩
    · rw [hp] at h
      simp only [cond_true, List.length_cons]
      exact ⟨Nat.succ_pos _, by simpa using h⟩

theorem filterMap_getElem?_range {α : Type} (l : List α) :
    (List.range l.length).filterMap (fun i => l[i]?) = l := by
  induction l using List.reverseRecOn with
  | nil => rfl
  | append_singleton xs x ih =>
    rw [List.length_append, List.length_singleton, List.range_succ, List.filterMap_append]
    have h1 : (List.range xs.length).filterMap (fun i => (xs ++ [x])[i]?) =
        (List.range xs.length).filterMap (fun i => xs[i]?) := by
      apply List.filterMap_congr
      intro i hi
      rw [List.mem_range] at hi
      exact List.getElem?_append_left hi
    rw [h1, ih]
    simp

theorem getElem?_filterMap_getElem? {α : Type} (l : List α) (acc : List Nat)
    (hlt : ∀ k ∈ acc, k < l.length) (p : Nat) :
    (acc.filterMap (fun i => l[i]?))[p]? = (acc[p]?).bind (fun i => l[i]?) := by
  induction acc generalizing p with
  | nil => simp
  | cons k ks ih =>
    have hk : k < l.length := hlt k (List.mem_cons_self _ _)
    have ih' := ih (fun x hx => hlt x (List.mem_cons_of_mem _ hx))
    rw [List.filterMap_cons, List.getElem?_eq_getElem hk]
    cases p with
    | zero => simp [List.getElem?_eq_getElem hk]
    | succ p => simpa using ih' p

theorem topologicalSort_positions {objs : List InviwoModuleFactoryObject} (hac : Acyclic objs) :
    ∃ acc, Converges (fun fuel => (List.range objs.length).foldlM
        (fun acc i => topologicalVisit objs fuel i acc) []) acc ∧
      SortInv objs acc ∧ ∀ i, i < objs.length → i ∈ acc := by
  have hfold : ∀ is : List Nat, (∀ i ∈ is, i < objs.length) → ∀ acc0, SortInv objs acc0 →
      ∃ acc1, Converges (fun fuel => is.foldlM
          (fun acc i => topologicalVisit objs fuel i acc) acc0) acc1 ∧
        SortInv objs acc1 ∧ (∀ k ∈ acc0, k ∈ acc1) ∧ ∀ i ∈ is, i ∈ acc1 := by
    intro is
    induction is with
    | nil =>
      intro _ acc0 h0
      exact ⟨acc0, ⟨0, fun _ _ => rfl⟩, h0, fun _ h => h, by simp⟩
    | cons i is ih =>
      intro hlt acc0 h0
      have hi : i < objs.length := hlt i (List.mem_cons_self _ _)
      obtain ⟨accm, hcm, hinvm, him, ext, hext, -⟩ :=
        topologicalVisit_spec hac objs[i] (List.getElem_mem hi) i
          (List.getElem?_eq_getElem hi) acc0 h0
      obtain ⟨acc1, hc1, hinv1, hsub, hall⟩ :=
        ih (fun x hx => hlt x (List.mem_cons_of_mem _ hx)) accm hinvm
      refine ⟨acc1, ?_, hinv1, ?_, ?_⟩
      · have := Converges.bind (k := fun fuel acc => is.foldlM
          (fun acc i => topologicalVisit objs fuel i acc) acc) hcm hc1
        refine Converges.congr (fun fuel => ?_) this
        rw [List.foldlM_cons]
        rfl
      · intro k hk
        exact hsub k (by rw [hext]; exact List.mem_append_left _ hk)
      · intro x hx
        rcases List.mem_cons.mp hx with rfl | hx
        · exact hsub _ him
        · exact hall x hx
  obtain ⟨acc, hc, hinv, -, hall⟩ :=
    hfold (List.range objs.length) (fun i hi => List.mem_range.mp hi) [] (SortInv.nil objs)
  exact ⟨acc, hc, hinv, fun i hi => hall i (List.mem_range.mpr hi)⟩

/-- The sorter on an acyclic list: it returns (from some fuel on) a permutation of the
list in which every descriptor comes after the descriptors its dependency entries resolve
to by name lookup in the list. -/
theorem topologicalModuleFactoryObjectSort_spec {objs : List InviwoModuleFactoryObject}
    (hac : Acyclic objs) :
    ∃ sorted, Converges (fun fuel => topologicalModuleFactoryObjectSort fuel objs) sorted ∧
      sorted.Perm objs ∧
      ∀ (p : Nat) (a : InviwoModuleFactoryObject), sorted[p]? = some a →
        ∀ dep ∈ a.dependencies, ∀ b,
        objs.find? (fun mfo => iCaseCmp mfo.name dep.1) = some b →
        ∃ q, q < p ∧ sorted[q]? = some b := by
  obtain ⟨acc, hc, hinv, hall⟩ := topologicalSort_positions hac
  refine ⟨acc.filterMap (fun i => objs[i]?), ?_, ?_, ?_⟩
  · have := Converges.map (fun acc : List Nat => acc.filterMap (fun i => objs[i]?)) hc
    refine Converges.congr (fun fuel => ?_) this
    unfold topologicalModuleFactoryObjectSort
    cases (List.range objs.length).foldlM (fun acc i => topologicalVisit objs fuel i acc) [] <;> rfl
  · have hperm : acc.Perm (List.range objs.length) := by
      rw [List.perm_ext_iff_of_nodup hinv.1 (List.nodup_range _)]
      intro i
      rw [List.mem_range]
      exact ⟨hinv.2.1 i, hall i⟩
    have := hperm.filterMap (fun i => objs[i]?)
    rwa [filterMap_getElem?_range] at this
  · intro p a hp dep hdep b hb
    rw [getElem?_filterMap_getElem? objs acc hinv.2.1] at hp
    obtain ⟨i, hpi, hia⟩ := Option.bind_eq_some.mp hp
    obtain ⟨hjlt, hjb⟩ := find?_eq_some_findIdx hb
    have hplt : p < acc.length := by
      by_contra hge
      rw [List.getElem?_eq_none (by omega)] at hpi
      cases hpi
    have hpi' : acc[p] = i := by
      rw [List.getElem?_eq_getElem hplt] at hpi
      exact Option.some.inj hpi
    have hedge : SortEdge objs acc[p] (objs.findIdx (fun mfo => iCaseCmp mfo.name dep.1)) := by
      rw [hpi']
      exact ⟨a, hia, dep, hdep, rfl, hjlt⟩
    have hmem := hinv.2.2 p hplt _ hedge
    obtain ⟨q, hq, hqe⟩ := List.getElem_of_mem hmem
    rw [List.length_take] at hq
    rw [List.getElem_take] at hqe
    refine ⟨q, by omega, ?_⟩
    rw [getElem?_filterMap_getElem? objs acc hinv.2.1, List.getElem?_eq_getElem (by omega), hqe]
    exact hjb

/-! ## More fuel never changes a result -/

theorem foldlM_option_mono {α β : Type} {step g : β → α → Option β}
    (h : ∀ b x r, step b x = some r → g b x = some r) :
    ∀ (l : List α) (b r : β), l.foldlM step b = some r → l.foldlM g b = some r := by
  intro l
  induction l with
  | nil => intro b r hr; exact hr
  | cons x xs ih =>
    intro b r hr
    rw [List.foldlM_cons] at hr ⊢
    obtain ⟨b1, hb1, hr1⟩ := Option.bind_eq_some.mp hr
    rw [h b x b1 hb1]
    exact ih b1 r hr1

theorem topologicalVisit_mono (objs : List InviwoModuleFactoryObject) :
    ∀ (fuel : Nat) (i : Nat) (acc r : List Nat), topologicalVisit objs fuel i acc = some r →
      ∀ fuel', fuel ≤ fuel' → topologicalVisit objs fuel' i acc = some r := by
  intro fuel
  induction fuel with
  | zero => intro i acc r h; cases h
  | succ f ih =>
    intro i acc r h fuel' hle
    obtain ⟨f', rfl⟩ : ∃ f', fuel' = f' + 1 := ⟨fuel' - 1, by omega⟩
    rw [topologicalVisit_succ] at h ⊢
    by_cases hmem : i ∈ acc
    · rw [if_pos hmem] at h ⊢
      exact h
    · rw [if_neg hmem] at h ⊢
      cases hobj : objs[i]? with
      | none => rw [hobj] at h; exact h
      | some obj =>
        rw [hobj] at h
        simp only at h ⊢
        obtain ⟨s1, hs1, hr⟩ := Option.bind_eq_some.mp h
        have := foldlM_option_mono (g := fun acc dep =>
            if objs.findIdx (fun mfo => iCaseCmp mfo.name dep.1) < objs.length then
              topologicalVisit objs f' (objs.findIdx (fun mfo => iCaseCmp mfo.name dep.1)) acc
            else some acc) ?_ obj.dependencies acc s1 hs1
        · rw [this]
          exact hr
        · intro b x r' hx
          beta_reduce at hx ⊢
          by_cases hj : objs.findIdx (fun mfo => iCaseCmp mfo.name x.1) < objs.length
          · rw [if_pos hj] at hx ⊢
            exact ih _ _ _ hx f' (by omega)
          · rw [if_neg hj] at hx ⊢
            exact hx

theorem topologicalModuleFactoryObjectSort_mono (objs : List InviwoModuleFactoryObject)
    (fuel fuel' : Nat) (hle : fuel ≤ fuel') (sorted : List InviwoModuleFactoryObject)
    (h : topologicalModuleFactoryObjectSort fuel objs = some sorted) :
    topologicalModuleFactoryObjectSort fuel' objs = some sorted := by
  unfold topologicalModuleFactoryObjectSort at h ⊢
  obtain ⟨acc, hacc, hr⟩ := Option.bind_eq_some.mp h
  have := foldlM_option_mono (g := fun acc i => topologicalVisit objs fuel' i acc)
    (fun b x r hx => topologicalVisit_mono objs fuel x b r hx fuel' hle)
    (List.range objs.length) [] acc hacc
  rw [this]
  exact hr

theorem Converges.eq_of_mono {α : Type} {c : Nat → Option α} {a b : α} {fuel : Nat}
    (hmono : ∀ f f' x, f ≤ f' → c f = some x → c f' = some x)
    (hc : Converges c a) (h : c fuel = some b) : b = a := by
  obtain ⟨f0, h0⟩ := hc
  have h1 := hmono fuel (max fuel f0) b (le_max_left _ _) h
  rw [h0 _ (le_max_right _ _)] at h1
  exact (Option.some.inj h1).symm

/-! ## Frame of the registration loop -/

theorem ModuleManager.deregisterDependetModules_frame (mm mm' : ModuleManager) (fuel : Nat)
    (toDeregister dereg : List String)
    (h : mm.deregisterDependetModules fuel toDeregister = some (mm', dereg)) :
    mm'.factoryObjects_ = mm.factoryObjects_ ∧ mm'.protected_ = mm.protected_ ∧
      mm'.sharedLibraries_ = mm.sharedLibraries_ := by
  unfold ModuleManager.deregisterDependetModules at h
  obtain ⟨s, -, hs⟩ := Option.bind_eq_some.mp h
  simp only [Option.some.injEq, Prod.mk.injEq] at hs
  obtain ⟨hs, -⟩ := hs
  subst hs
  exact ⟨rfl, rfl, rfl⟩

theorem ModuleManager.registerModulesStep_frame (buildVersion : Version) (fuel : Nat)
    (mm mm' : ModuleManager) (obj : InviwoModuleFactoryObject)
    (h : mm.registerModulesStep buildVersion fuel obj = some mm') :
    mm'.factoryObjects_ = mm.factoryObjects_ ∧ mm'.protected_ = mm.protected_ ∧
      mm'.sharedLibraries_ = mm.sharedLibraries_ := by
  unfold ModuleManager.registerModulesStep at h
  simp only at h
  split at h
  · cases h; exact ⟨rfl, rfl, rfl⟩
  · split at h
    · cases h; exact ⟨rfl, rfl, rfl⟩
    · split at h
      · cases h; exact ⟨rfl, rfl, rfl⟩
      · obtain ⟨r, hr, hmm⟩ := Option.map_eq_some'.mp h
        subst hmm
        exact ModuleManager.deregisterDependetModules_frame
          (((mm.emit (Event.postProgress obj.name)).emit
            (Event.checkDependencies obj.name)).emit (Event.create obj.name))
          r.1 fuel _ r.2 hr
      · cases h; exact ⟨rfl, rfl, rfl⟩

theorem ModuleManager.registerModulesLoop_frame (buildVersion : Version) (fuel : Nat)
    (l : List InviwoModuleFactoryObject) :
    ∀ (mm mm' : ModuleManager),
      l.foldlM (ModuleManager.registerModulesStep buildVersion fuel) mm = some mm' →
      mm'.factoryObjects_ = mm.factoryObjects_ ∧ mm'.protected_ = mm.protected_ ∧
        mm'.sharedLibraries_ = mm.sharedLibraries_ := by
  induction l with
  | nil => intro mm mm' h; cases h; exact ⟨rfl, rfl, rfl⟩
  | cons x xs ih =>
    intro mm mm' h
    rw [List.foldlM_cons] at h
    obtain ⟨m1, h1, h2⟩ := Option.bind_eq_some.mp h
    obtain ⟨a1, a2, a3⟩ := ModuleManager.registerModulesStep_frame _ _ _ _ _ h1
    obtain ⟨b1, b2, b3⟩ := ih m1 mm' h2
    exact ⟨b1.trans a1, b2.trans a2, b3.trans a3⟩

theorem ModuleManager.registerModules_factoryObjects (buildVersion : Version) (fuel : Nat)
    (mm mm' : ModuleManager) (mfo : List InviwoModuleFactoryObject)
    (h : mm.registerModules buildVersion fuel mfo = some mm') :
    topologicalModuleFactoryObjectSort fuel (mm.factoryObjects_ ++ mfo) =
      some mm'.factoryObjects_ := by
  unfold ModuleManager.registerModules at h
  obtain ⟨sorted, hs, h1⟩ := Option.bind_eq_some.mp h
  obtain ⟨m1, hm1, h2⟩ := Option.bind_eq_some.mp h1
  cases h2
  rw [hs]
  have := (ModuleManager.registerModulesLoop_frame _ _ _ _ _ hm1).1
  simp only [ModuleManager.emit]
  rw [this]

/-- In a sorted list of descriptors with pairwise different names, a descriptor comes
after every descriptor it depends on. -/
theorem sortedSpec_lt_of_dependsOn {objs sorted : List InviwoModuleFactoryObject}
    (hs : SortedSpec objs sorted)
    (hd : objs.Pairwise (fun x y => iCaseCmp x.name y.name = false))
    {p q : Nat} {a b : InviwoModuleFactoryObject} (hp : sorted[p]? = some a)
    (hq : sorted[q]? = some b) (hab : a.dependsOn b = true) : q < p := by
  obtain ⟨hperm, htopo⟩ := hs
  have hb : b ∈ objs := hperm.mem_iff.mp (List.getElem?_mem hq)
  unfold InviwoModuleFactoryObject.dependsOn at hab
  rw [List.any_eq_true] at hab
  obtain ⟨dep, hdep, hcmp⟩ := hab
  have hsymm : Symmetric (fun x y : InviwoModuleFactoryObject =>
      iCaseCmp x.name y.name = false) := by
    intro x y hxy
    rw [iCaseCmp_comm]
    exact hxy
  have hfind : objs.find? (fun mfo => iCaseCmp mfo.name dep.1) = some b := by
    apply find?_eq_some_of_unique hb hcmp
    intro x hx hxn
    by_contra hne
    have h1 := hd.forall hsymm hx hb hne
    simp only at h1
    rw [iCaseCmp_trans hxn (iCaseCmp_symm hcmp)] at h1
    cases h1
  obtain ⟨q', hq', hqb⟩ := htopo p a hp dep hdep b hfind
  have hnd : sorted.Nodup := by
    rw [hperm.nodup_iff]
    refine List.Pairwise.imp ?_ hd
    intro x y hxy heq
    rw [heq, iCaseCmp_refl] at hxy
    cases hxy
  have hql : q < sorted.length := by
    by_contra hge
    rw [List.getElem?_eq_none (by omega)] at hq
    cases hq
  have hql' : q' < sorted.length := by
    by_contra hge
    rw [List.getElem?_eq_none (by omega)] at hqb
    cases hqb
  rw [List.getElem?_eq_getElem hql] at hq
  rw [List.getElem?_eq_getElem hql'] at hqb
  have heq : sorted[q] = sorted[q'] := by
    rw [Option.some.inj hq, Option.some.inj hqb]
  rw [hnd.getElem_inj_iff] at heq
  omega

/-! ## Claim C5 -/

/-- C5 (spec-modelled sorter): when the dependency graph of the known descriptors followed
by the batch is acyclic, the Dependency Sorter run by `registerModules` returns, from some
fuel on, a list `sorted` that is a permutation of its input and in which every descriptor
`a` at position `p` comes after the descriptor `b` that each of its dependency entries
resolves to by name lookup in the list (`b` is at some position `q < p`); when the names
in the list are pairwise different, for all positions `p` of `a` and `q` of `b` with `a`
depending on `b`, `q < p`; and whenever `registerModules` returns, its descriptor list is
that sorted list. -/
theorem C5_topological_invariant (mm : ModuleManager) (mfo : List InviwoModuleFactoryObject)
    (hac : Acyclic (mm.factoryObjects_ ++ mfo)) :
    ∃ sorted,
      Converges (fun fuel =>
        topologicalModuleFactoryObjectSort fuel (mm.factoryObjects_ ++ mfo)) sorted ∧
      sorted.Perm (mm.factoryObjects_ ++ mfo) ∧
      (∀ (p : Nat) (a : InviwoModuleFactoryObject), sorted[p]? = some a →
        ∀ dep ∈ a.dependencies, ∀ b,
        (mm.factoryObjects_ ++ mfo).find? (fun d => iCaseCmp d.name dep.1) = some b →
        ∃ q, q < p ∧ sorted[q]? = some b) ∧
      ((mm.factoryObjects_ ++ mfo).Pairwise (fun x y => iCaseCmp x.name y.name = false) →
        ∀ (p q : Nat) (a b : InviwoModuleFactoryObject), sorted[p]? = some a →
        sorted[q]? = some b → a.dependsOn b = true → q < p) ∧
      (∀ buildVersion fuel mm', mm.registerModules buildVersion fuel mfo = some mm' →
        mm'.factoryObjects_ = sorted) := by
  obtain ⟨sorted, hc, hperm, htopo⟩ := topologicalModuleFactoryObjectSort_spec hac
  refine ⟨sorted, hc, hperm, htopo,
    fun hd p q a b hp hq hab => sortedSpec_lt_of_dependsOn ⟨hperm, htopo⟩ hd hp hq hab, ?_⟩
  intro buildVersion fuel mm' h
  have hs := ModuleManager.registerModules_factoryObjects _ _ _ _ _ h
  exact Converges.eq_of_mono
    (fun f f' x hle hx => topologicalModuleFactoryObjectSort_mono _ f f' hle x hx) hc hs

/-- C5 at a concrete input: the batch `viz` (depending on `base`), `base` from an empty
registry. -/
theorem C5_topological_invariant_witness :
    ∃ sorted,
      Converges (fun fuel => topologicalModuleFactoryObjectSort fuel
        (ModuleManager.init.factoryObjects_ ++
          [mkDescriptor "viz" v100 [("base", v100)], mkDescriptor "base" v100 []])) sorted ∧
      sorted.Perm (ModuleManager.init.factoryObjects_ ++
          [mkDescriptor "viz" v100 [("base", v100)], mkDescriptor "base" v100 []]) ∧
      (∀ (p : Nat) (a : InviwoModuleFactoryObject), sorted[p]? = some a →
        ∀ dep ∈ a.dependencies, ∀ b,
        (ModuleManager.init.factoryObjects_ ++
          [mkDescriptor "viz" v100 [("base", v100)], mkDescriptor "base" v100 []]).find?
            (fun d => iCaseCmp d.name dep.1) = some b →
        ∃ q, q < p ∧ sorted[q]? = some b) ∧
      ((ModuleManager.init.factoryObjects_ ++
          [mkDescriptor "viz" v100 [("base", v100)], mkDescriptor "base" v100 []]).Pairwise
            (fun x y => iCaseCmp x.name y.name = false) →
        ∀ (p q : Nat) (a b : InviwoModuleFactoryObject), sorted[p]? = some a →
        sorted[q]? = some b → a.dependsOn b = true → q < p) ∧
      (∀ buildVersion fuel mm', ModuleManager.init.registerModules buildVersion fuel
          [mkDescriptor "viz" v100 [("base", v100)], mkDescriptor "base" v100 []] = some mm' →
        mm'.factoryObjects_ = sorted) :=
  C5_topological_invariant ModuleManager.init
    [mkDescriptor "viz" v100 [("base", v100)], mkDescriptor "base" v100 []]
    (acyclic_of_rank _ (fun d => d.dependencies.length) (by decide))

/-! ## Cascading deregistration at concrete inputs -/

/-- C3 (code evaluated at the failing input): `Base` and `Viz` are live and `Viz` declares
the dependency `"Base"`. Deregistering `["base"]` removes `Base` (the set lookup ignores
case) but keeps `Viz`, because `findDependentModules` compares the dependency entry with
the requested name by exact string equality. With `Gl` depending on `"Viz"` as well,
deregistering `["Base"]` removes `Base` and `Viz` but keeps `Gl`, because the recursion
continues with the lower-cased name `"viz"`. With all names in lower case the whole chain
is removed. -/
theorem C3_deregister_case_sensitive :
    ((mkManager [mkDescriptor "Base" v100 [], mkDescriptor "Viz" v100 [("Base", v100)]]
        [{ identifier := "Base" }, { identifier := "Viz" }]).deregisterDependetModules 3
        ["base"]).map (fun r => (r.1.modules_, r.2)) =
      some ([{ identifier := "Viz" }], ["Base"]) ∧
    ((mkManager [mkDescriptor "Base" v100 [], mkDescriptor "Viz" v100 [("Base", v100)],
          mkDescriptor "Gl" v100 [("Viz", v100)]]
        [{ identifier := "Base" }, { identifier := "Viz" }, { identifier := "Gl" }]
        ).deregisterDependetModules 3 ["Base"]).map (fun r => (r.1.modules_, r.2)) =
      some ([{ identifier := "Gl" }], ["Viz", "Base"]) ∧
    ((mkManager [mkDescriptor "base" v100 [], mkDescriptor "viz" v100 [("base", v100)],
          mkDescriptor "gl" v100 [("viz", v100)]]
        [{ identifier := "base" }, { identifier := "viz" }, { identifier := "gl" }]
        ).deregisterDependetModules 3 ["base"]).map (fun r => (r.1.modules_, r.2)) =
      some ([], ["gl", "viz", "base"]) := by
  decide

/-- C9 (code evaluated at the failing input): from an empty registry the batch `base`
(version 1.0.0, no dependencies) and `viz` (version 2.0.0, depending on `("base", 1.0.0)`)
has distinct names, an acyclic graph, every dependency in the batch, matching core
versions, a dependency entry equal to the version of `base`, and constructors that succeed;
yet only `base` becomes live: `viz` is version-checked and never created. -/
theorem C9_matching_entry_rejected :
    (ModuleManager.init.registerModules v100 2
        [mkDescriptor "base" v100 [], mkDescriptor "viz" v200 [("base", v100)]]).map
      (fun mm => (mm.modules_, mm.events)) =
      some ([{ identifier := "base" }],
        [Event.postProgress "base", Event.checkDependencies "base", Event.create "base",
         Event.postProgress "viz", Event.checkDependencies "viz", Event.modulesDidRegister]) := by
  decide

/-! ## `findDependentModules` -/

theorem Converges.shift {α : Type} {c : Nat → Option α} {a : α}
    (h : Converges (fun fuel => c (fuel + 1)) a) : Converges c a := by
  obtain ⟨f0, h0⟩ := h
  refine ⟨f0 + 1, fun fuel hf => ?_⟩
  obtain ⟨f, rfl⟩ : ∃ f, fuel = f + 1 := ⟨fuel - 1, by omega⟩
  exact h0 f (by omega)

theorem findDependentModules_succ (fo : List InviwoModuleFactoryObject) (fuel : Nat)
    (module : String) :
    findDependentModules fo (fuel + 1) module =
      (fo.foldlM (fun (dependencies : List String) (item : InviwoModuleFactoryObject) =>
        if item.dependencies.any (fun dep => dep.1 == module) then
          (findDependentModules fo fuel (toLower item.name)).bind
            (fun deps => some (dependencies ++ deps ++ [toLower item.name]))
        else some dependencies) []).bind
        (fun dependencies => some (dependencies.foldl push_back_unique [])) := by
  rfl

theorem findDependentModules_fold_mem (fo : List InviwoModuleFactoryObject) (fuel : Nat)
    (module : String) (l : List InviwoModuleFactoryObject) :
    ∀ (acc res : List String),
      l.foldlM (fun (dependencies : List String) (item : InviwoModuleFactoryObject) =>
        if item.dependencies.any (fun dep => dep.1 == module) then
          (findDependentModules fo fuel (toLower item.name)).bind
            (fun deps => some (dependencies ++ deps ++ [toLower item.name]))
        else some dependencies) acc = some res →
      ∀ r, r ∈ res ↔ r ∈ acc ∨ ∃ item ∈ l,
        item.dependencies.any (fun dep => dep.1 == module) = true ∧
        (r = toLower item.name ∨
          ∃ deps, findDependentModules fo fuel (toLower item.name) = some deps ∧ r ∈ deps) := by
  induction l with
  | nil =>
    intro acc res h r
    cases h
    simp
  | cons x xs ih =>
    intro acc res h r
    rw [List.foldlM_cons] at h
    obtain ⟨acc1, h1, h2⟩ := Option.bind_eq_some.mp h
    rw [ih acc1 res h2 r]
    by_cases hx : x.dependencies.any (fun dep => dep.1 == module) = true
    · rw [if_pos hx] at h1
      obtain ⟨deps, hdeps, hacc1⟩ := Option.bind_eq_some.mp h1
      cases hacc1
      simp only [List.mem_append, List.mem_cons, List.not_mem_nil, or_false, exists_eq_or_imp]
      constructor
      · rintro (((h | h) | h) | h)
        · exact Or.inl h
        · exact Or.inr (Or.inl ⟨hx, Or.inr ⟨deps, hdeps, h⟩⟩)
        · exact Or.inr (Or.inl ⟨hx, Or.inl h⟩)
        · exact Or.inr (Or.inr h)
      · rintro (h | ⟨-, h | ⟨deps', hdeps', h⟩⟩ | h)
        · exact Or.inl (Or.inl (Or.inl h))
        · exact Or.inl (Or.inr h)
        · rw [hdeps] at hdeps'
          cases hdeps'
          exact Or.inl (Or.inl (Or.inr h))
        · exact Or.inr h
    · rw [if_neg hx] at h1
      cases h1
      simp only [List.mem_cons, exists_eq_or_imp]
      constructor
      · rintro (h | h)
        · exact Or.inl h
        · exact Or.inr (Or.inr h)
      · rintro (h | ⟨h, -⟩ | h)
        · exact Or.inl h
        · exact absurd h hx
        · exact Or.inr h

/-- One unfolding of `findDependentModules`: the names it returns. -/
theorem findDependentModules_mem (fo : List InviwoModuleFactoryObject) (fuel : Nat)
    (module : String) (res : List String)
    (h : findDependentModules fo (fuel + 1) module = some res) (r : String) :
    r ∈ res ↔ ∃ item ∈ fo, item.dependencies.any (fun dep => dep.1 == module) = true ∧
      (r = toLower item.name ∨
        ∃ deps, findDependentModules fo fuel (toLower item.name) = some deps ∧ r ∈ deps) := by
  rw [findDependentModules_succ] at h
  obtain ⟨deps, hdeps, hres⟩ := Option.bind_eq_some.mp h
  cases hres
  rw [mem_foldl_push_back_unique, findDependentModules_fold_mem fo fuel module fo [] deps hdeps]
  simp

theorem DependsOnName.of_iCaseCmp_left {fo : List InviwoModuleFactoryObject} {n n' m : String}
    (h : DependsOnName fo n m) (hn : iCaseCmp n n' = true) : DependsOnName fo n' m := by
  induction h generalizing n' with
  | direct item dep n m hitem hname hdep hm =>
    exact DependsOnName.direct item dep n' m hitem (iCaseCmp_trans hname hn) hdep hm
  | trans n k m _ h2 ih1 _ =>
    exact DependsOnName.trans n' k m (ih1 hn) h2

theorem DependsOnName.exists_item {fo : List InviwoModuleFactoryObject} {n m : String}
    (h : DependsOnName fo n m) :
    ∃ item ∈ fo, iCaseCmp item.name n = true ∧ item.dependencies ≠ [] := by
  induction h with
  | direct item dep n m hitem hname hdep _ =>
    exact ⟨item, hitem, hname, List.ne_nil_of_mem hdep⟩
  | trans n k m _ _ ih1 _ => exact ih1

/-- Soundness of `findDependentModules`: every returned name depends on the requested
name. -/
theorem findDependentModules_sound (fo : List InviwoModuleFactoryObject) :
    ∀ (fuel : Nat) (module : String) (res : List String),
      findDependentModules fo fuel module = some res →
      ∀ r ∈ res, DependsOnName fo r module := by
  intro fuel
  induction fuel with
  | zero => intro module res h; cases h
  | succ f ih =>
    intro module res h r hr
    rw [findDependentModules_mem fo f module res h] at hr
    obtain ⟨item, hitem, hany, hr⟩ := hr
    rw [List.any_eq_true] at hany
    obtain ⟨dep, hdep, hdm⟩ := hany
    have hdm' : dep.1 = module := by simpa using hdm
    have hdirect : DependsOnName fo (toLower item.name) module :=
      DependsOnName.direct item dep _ _ hitem (iCaseCmp_toLower_right _) hdep
        (by rw [hdm']; exact iCaseCmp_refl _)
    rcases hr with rfl | ⟨deps, hdeps, hrd⟩
    · exact hdirect
    · exact DependsOnName.trans _ _ _ (ih _ deps hdeps r hrd) hdirect

/-- Completeness of `findDependentModules` for direct dependents with the exact spelling. -/
theorem findDependentModules_complete (fo : List InviwoModuleFactoryObject) (fuel : Nat)
    (module : String) (res : List String)
    (h : findDependentModules fo fuel module = some res)
    (item : InviwoModuleFactoryObject) (hitem : item ∈ fo) (dep : String × Version)
    (hdep : dep ∈ item.dependencies) (hdm : dep.1 = module) : toLower item.name ∈ res := by
  cases fuel with
  | zero => cases h
  | succ f =>
    rw [findDependentModules_mem fo f module res h]
    refine ⟨item, hitem, ?_, Or.inl rfl⟩
    rw [List.any_eq_true]
    exact ⟨dep, hdep, by simpa using hdm⟩

theorem findDependentModules_converges_of (fo : List InviwoModuleFactoryObject)
    (module : String)
    (hrec : ∀ item ∈ fo, item.dependencies.any (fun dep => dep.1 == module) = true →
      ∃ r, Converges (fun fuel => findDependentModules fo fuel (toLower item.name)) r) :
    ∃ r, Converges (fun fuel => findDependentModules fo fuel module) r := by
  obtain ⟨deps, hdeps, -⟩ := Converges.foldlM
    (fun fuel (dependencies : List String) (item : InviwoModuleFactoryObject) =>
      if item.dependencies.any (fun dep => dep.1 == module) then
        (findDependentModules fo fuel (toLower item.name)).bind
          (fun deps => some (dependencies ++ deps ++ [toLower item.name]))
      else some dependencies) (fun _ => True) fo
    (by
      intro b _ x hx
      by_cases hany : x.dependencies.any (fun dep => dep.1 == module) = true
      · obtain ⟨r, hr⟩ := hrec x hx hany
        refine ⟨b ++ r ++ [toLower x.name], ?_, trivial⟩
        have := Converges.bind (k := fun _ deps => some (b ++ deps ++ [toLower x.name])) hr
          (Converges.pure _)
        refine Converges.congr (fun fuel => ?_) this
        beta_reduce
        rw [if_pos hany]
      · refine ⟨b, ?_, trivial⟩
        refine Converges.congr (fun fuel => ?_) (Converges.pure b)
        beta_reduce
        rw [if_neg hany]) [] trivial
  refine ⟨deps.foldl push_back_unique [], Converges.shift ?_⟩
  have := Converges.bind (k := fun _ dependencies =>
    some (List.foldl push_back_unique [] dependencies)) hdeps (Converges.pure _)
  refine Converges.congr (fun fuel => ?_) this
  rw [findDependentModules_succ]

/-- Termination of `findDependentModules` on an acyclic descriptor list. -/
theorem findDependentModules_converges {fo : List InviwoModuleFactoryObject}
    (hac : Acyclic fo) (module : String) :
    ∃ r, Converges (fun fuel => findDependentModules fo fuel module) r := by
  have hitems : ∀ a ∈ fo,
      ∃ r, Converges (fun fuel => findDependentModules fo fuel (toLower a.name)) r := by
    refine hac.induction_dependents _ ?_
    intro a _ ih
    apply findDependentModules_converges_of
    intro item hitem hany
    apply ih item hitem
    unfold InviwoModuleFactoryObject.dependsOn
    rw [List.any_eq_true] at hany ⊢
    obtain ⟨dep, hdep, hdm⟩ := hany
    have hdm' : dep.1 = toLower a.name := by simpa using hdm
    exact ⟨dep, hdep, by rw [hdm']; exact iCaseCmp_toLower_right _⟩
  exact findDependentModules_converges_of fo module (fun item hitem _ => hitems item hitem)

theorem findDependentModules_fold_ret (fo : List InviwoModuleFactoryObject) (fuel : Nat)
    (module : String) (l : List InviwoModuleFactoryObject) :
    ∀ (acc res : List String),
      l.foldlM (fun (dependencies : List String) (item : InviwoModuleFactoryObject) =>
        if item.dependencies.any (fun dep => dep.1 == module) then
          (findDependentModules fo fuel (toLower item.name)).bind
            (fun deps => some (dependencies ++ deps ++ [toLower item.name]))
        else some dependencies) acc = some res →
      ∀ item ∈ l, item.dependencies.any (fun dep => dep.1 == module) = true →
        ∃ deps, findDependentModules fo fuel (toLower item.name) = some deps := by
  induction l with
  | nil =>
    intro acc res _ item hitem
    cases hitem
  | cons x xs ih =>
    intro acc res h item hitem hany
    rw [List.foldlM_cons] at h
    obtain ⟨acc1, h1, h2⟩ := Option.bind_eq_some.mp h
    rcases List.mem_cons.mp hitem with rfl | hitem'
    · rw [if_pos hany] at h1
      obtain ⟨deps, hdeps, -⟩ := Option.bind_eq_some.mp h1
      exact ⟨deps, hdeps⟩
    · exact ih acc1 res h2 item hitem' hany

/-- The recursive calls of a returning `findDependentModules` returned. -/
theorem findDependentModules_ret (fo : List InviwoModuleFactoryObject) (fuel : Nat)
    (module : String) (res : List String)
    (h : findDependentModules fo (fuel + 1) module = some res)
    (item : InviwoModuleFactoryObject) (hitem : item ∈ fo)
    (hany : item.dependencies.any (fun dep => dep.1 == module) = true) :
    ∃ deps, findDependentModules fo fuel (toLower item.name) = some deps := by
  rw [findDependentModules_succ] at h
  obtain ⟨deps, hdeps, -⟩ := Option.bind_eq_some.mp h
  exact findDependentModules_fold_ret fo fuel module fo [] deps hdeps item hitem hany

/-- Every name `findDependentModules` returns is in lower case. -/
theorem findDependentModules_lower (fo : List InviwoModuleFactoryObject) :
    ∀ (fuel : Nat) (module : String) (res : List String),
      findDependentModules fo fuel module = some res → ∀ r ∈ res, toLower r = r := by
  intro fuel
  induction fuel with
  | zero => intro module res h; cases h
  | succ f ih =>
    intro module res h r hr
    rw [findDependentModules_mem fo f module res h] at hr
    obtain ⟨item, -, -, hr⟩ := hr
    rcases hr with rfl | ⟨deps, hdeps, hrd⟩
    · exact toLower_idem _
    · exact ih _ deps hdeps r hrd

/-- The names `findDependentModules` returns are closed under dependents: a descriptor
with a dependency entry spelled exactly like a returned name is returned too. -/
theorem findDependentModules_closed (fo : List InviwoModuleFactoryObject) :
    ∀ (fuel : Nat) (module : String) (res : List String),
      findDependentModules fo fuel module = some res → ∀ r ∈ res,
      ∀ item ∈ fo, ∀ dep ∈ item.dependencies, dep.1 = r → toLower item.name ∈ res := by
  intro fuel
  induction fuel with
  | zero => intro module res h; cases h
  | succ f ih =>
    intro module res h r hr item hitem dep hdep hdr
    rw [findDependentModules_mem fo f module res h] at hr ⊢
    obtain ⟨item0, hitem0, hany0, hr⟩ := hr
    rcases hr with rfl | ⟨deps, hdeps, hrd⟩
    · obtain ⟨deps, hdeps⟩ := findDependentModules_ret fo f module res h item0 hitem0 hany0
      exact ⟨item0, hitem0, hany0, Or.inr ⟨deps, hdeps,
        findDependentModules_complete fo f _ deps hdeps item hitem dep hdep hdr⟩⟩
    · exact ⟨item0, hitem0, hany0, Or.inr ⟨deps, hdeps,
        ih _ deps hdeps r hrd item hitem dep hdep hdr⟩⟩

/-! ## `deregisterDependetModules` -/

theorem ModuleManager.deregisterSet_fold_count (mm : ModuleManager) (fuel : Nat)
    (l : List String) :
    ∀ (set0 set : IdSet),
      l.foldlM (fun (deregister : IdSet) (m : String) =>
        (mm.findDependentModules fuel m).bind
          (fun dependents => some ((deregister.insert m).insertAll dependents))) set0 = some set →
      ∀ x, set.count x ≠ 0 ↔ set0.count x ≠ 0 ∨ ∃ n ∈ l, iCaseCmp n x = true ∨
        ∃ deps, inviwo.findDependentModules mm.factoryObjects_ fuel n = some deps ∧
          ∃ r ∈ deps, iCaseCmp r x = true := by
  induction l with
  | nil =>
    intro set0 set h x
    cases h
    simp
  | cons n ns ih =>
    intro set0 set h x
    rw [List.foldlM_cons] at h
    obtain ⟨set1, h1, h2⟩ := Option.bind_eq_some.mp h
    obtain ⟨deps, hdeps, hset1⟩ := Option.bind_eq_some.mp h1
    cases hset1
    rw [ih _ set h2 x, IdSet.count_insertAll_ne_zero, IdSet.count_insert_ne_zero]
    have hdeps' : inviwo.findDependentModules mm.factoryObjects_ fuel n = some deps := hdeps
    simp only [List.mem_cons, exists_eq_or_imp]
    constructor
    · rintro (((h | h) | h) | h)
      · exact Or.inl h
      · exact Or.inr (Or.inl (Or.inl h))
      · exact Or.inr (Or.inl (Or.inr ⟨deps, hdeps', h⟩))
      · exact Or.inr (Or.inr h)
    · rintro (h | (h | ⟨deps', hd', h⟩) | h)
      · exact Or.inl (Or.inl (Or.inl h))
      · exact Or.inl (Or.inl (Or.inr h))
      · rw [hdeps'] at hd'
        cases hd'
        exact Or.inl (Or.inr h)
      · exact Or.inr h

theorem ModuleManager.deregisterSet_spec (mm : ModuleManager) (fuel : Nat)
    (toDeregister : List String) (set : IdSet)
    (h : mm.deregisterSet fuel toDeregister = some set) :
    DeregisterSetSpec mm.factoryObjects_ toDeregister set := by
  have hcount := mm.deregisterSet_fold_count fuel toDeregister IdSet.empty set h
  refine ⟨?_, ?_, ?_, ?_⟩
  · intro x hx
    rw [hcount x] at hx
    rcases hx with hx | ⟨n, hn, hx | ⟨deps, hdeps, r, hr, hrx⟩⟩
    · exact absurd (IdSet.count_empty x) hx
    · exact ⟨n, hn, Or.inl hx⟩
    · exact ⟨n, hn, Or.inr
        ((findDependentModules_sound _ fuel n deps hdeps r hr).of_iCaseCmp_left hrx)⟩
  · intro n hn x hx
    rw [hcount x]
    exact Or.inr ⟨n, hn, Or.inl hx⟩
  · intro n hn item hitem dep hdep hdn
    rw [hcount item.name]
    -- the fold succeeded, so `findDependentModules` returned for `n`
    have hret : ∃ deps, inviwo.findDependentModules mm.factoryObjects_ fuel n = some deps := by
      clear hcount
      unfold ModuleManager.deregisterSet at h
      generalize IdSet.empty = set0 at h
      induction toDeregister generalizing set0 with
      | nil => cases hn
      | cons k ks ih =>
        rw [List.foldlM_cons] at h
        obtain ⟨set1, h1, h2⟩ := Option.bind_eq_some.mp h
        obtain ⟨deps, hdeps, -⟩ := Option.bind_eq_some.mp h1
        rcases List.mem_cons.mp hn with rfl | hn'
        · exact ⟨deps, hdeps⟩
        · exact ih hn' set1 h2
    obtain ⟨deps, hdeps⟩ := hret
    exact Or.inr ⟨n, hn, Or.inr ⟨deps, hdeps, toLower item.name,
      findDependentModules_complete _ fuel n deps hdeps item hitem dep hdep hdn,
      iCaseCmp_toLower_left _⟩⟩
  · intro x hx
    rw [hcount x] at hx
    rcases hx with hx | ⟨n, hn, hx | ⟨deps, hdeps, r, hr, hrx⟩⟩
    · exact absurd (IdSet.count_empty x) hx
    · exact Or.inl ⟨n, hn, hx⟩
    · refine Or.inr (fun item hitem dep hdep hdx => ?_)
      rw [hcount item.name]
      have hr' : r = toLower x := by
        rw [← findDependentModules_lower _ fuel n deps hdeps r hr]
        exact (iCaseCmp_iff _ _).mp hrx
      exact Or.inr ⟨n, hn, Or.inr ⟨deps, hdeps, toLower item.name,
        findDependentModules_closed _ fuel n deps hdeps r hr item hitem dep hdep
          (hdx.trans hr'.symm),
        iCaseCmp_toLower_left _⟩⟩

theorem ModuleManager.deregisterSet_converges (mm : ModuleManager)
    (hac : Acyclic mm.factoryObjects_) (toDeregister : List String) :
    ∃ set, Converges (fun fuel => mm.deregisterSet fuel toDeregister) set := by
  obtain ⟨set, hset, -⟩ := Converges.foldlM
    (fun fuel (deregister : IdSet) (m : String) =>
      (mm.findDependentModules fuel m).bind
        (fun dependents => some ((deregister.insert m).insertAll dependents)))
    (fun _ => True) toDeregister
    (by
      intro b _ m _
      obtain ⟨r, hr⟩ := findDependentModules_converges hac m
      exact ⟨(b.insert m).insertAll r,
        Converges.bind (k := fun _ dependents => some ((b.insert m).insertAll dependents)) hr
          (Converges.pure _), trivial⟩) IdSet.empty trivial
  exact ⟨set, hset⟩

theorem ModuleManager.deregisterDependetModules_converges (mm : ModuleManager)
    (hac : Acyclic mm.factoryObjects_) (toDeregister : List String) :
    ∃ set, DeregisterSetSpec mm.factoryObjects_ toDeregister set ∧
      Converges (fun fuel => mm.deregisterDependetModules fuel toDeregister)
        ({ mm with
            modules_ := mm.modules_.filter (fun m => !(set.count m.identifier != 0)),
            events := mm.events ++ ((mm.modules_.filter
              (fun m => set.count m.identifier != 0)).reverse.map
                (fun m => Event.moduleDestroyed m.identifier)) },
         (mm.modules_.filter (fun m => set.count m.identifier != 0)).reverse.map
           (fun m => m.identifier)) := by
  obtain ⟨set, hset⟩ := mm.deregisterSet_converges hac toDeregister
  refine ⟨set, ?_, ?_⟩
  · obtain ⟨f0, h0⟩ := hset
    exact mm.deregisterSet_spec f0 toDeregister set (h0 f0 (le_refl _))
  · have := Converges.bind (k := fun _ (deregister : IdSet) =>
      some (({ mm with
            modules_ := (reverse_erase_if
              (fun m => deregister.count m.identifier != 0) mm.modules_).1,
            events := mm.events ++ (reverse_erase_if
              (fun m => deregister.count m.identifier != 0) mm.modules_).2.map
                (fun m => Event.moduleDestroyed m.identifier) } : ModuleManager),
         (reverse_erase_if (fun m => deregister.count m.identifier != 0) mm.modules_).2.map
           (fun m => m.identifier))) hset (Converges.pure _)
    rw [reverse_erase_if_eq] at this
    exact this

/-! ## The registration loop -/

/-- The loop body of `registerModules` returns (from some fuel on) on an acyclic descriptor
list, with the effect described by `RegisterStepPost`. -/
theorem ModuleManager.registerModulesStep_spec (buildVersion : Version) (mm : ModuleManager)
    (obj : InviwoModuleFactoryObject) (hac : Acyclic mm.factoryObjects_) :
    ∃ mm', Converges (fun fuel => mm.registerModulesStep buildVersion fuel obj) mm' ∧
      RegisterStepPost buildVersion mm obj mm' := by
  cases hlive : mm.getModuleByIdentifier obj.name with
  | some m0 =>
    refine ⟨mm.emit (Event.postProgress obj.name), ⟨0, fun fuel _ => ?_⟩, rfl, rfl, rfl,
      Or.inl ⟨by rw [hlive]; rfl, rfl, rfl⟩⟩
    unfold ModuleManager.registerModulesStep
    have : ((mm.emit (Event.postProgress obj.name)).getModuleByIdentifier obj.name) =
        some m0 := hlive
    simp [this]
  | none =>
    have hl : ((mm.emit (Event.postProgress obj.name)).getModuleByIdentifier obj.name) =
        none := hlive
    cases hcheck : mm.checkDependencies buildVersion obj with
    | false =>
      refine ⟨(mm.emit (Event.postProgress obj.name)).emit (Event.checkDependencies obj.name),
        ⟨0, fun fuel _ => ?_⟩, rfl, rfl, rfl,
        Or.inr (Or.inl ⟨hlive, hcheck, rfl, by simp [ModuleManager.emit]⟩)⟩
      unfold ModuleManager.registerModulesStep
      have hc : ((mm.emit (Event.postProgress obj.name)).emit
          (Event.checkDependencies obj.name)).checkDependencies buildVersion obj = false := hcheck
      simp [hl, hc]
    | true =>
      have hc : ((mm.emit (Event.postProgress obj.name)).emit
          (Event.checkDependencies obj.name)).checkDependencies buildVersion obj = true := hcheck
      cases hcreate : obj.create with
      | module m =>
        refine ⟨(((mm.emit (Event.postProgress obj.name)).emit
            (Event.checkDependencies obj.name)).emit (Event.create obj.name)).registerModule m,
          ⟨0, fun fuel _ => ?_⟩, rfl, rfl, rfl,
          Or.inr (Or.inr (Or.inl ⟨hlive, hcheck, m, hcreate, rfl,
            by simp [ModuleManager.emit, ModuleManager.registerModule]⟩))⟩
        unfold ModuleManager.registerModulesStep
        simp [hl, hc, hcreate]
      | exception =>
        refine ⟨((mm.emit (Event.postProgress obj.name)).emit
            (Event.checkDependencies obj.name)).emit (Event.create obj.name),
          ⟨0, fun fuel _ => ?_⟩, rfl, rfl, rfl,
          Or.inr (Or.inr (Or.inr (Or.inl ⟨hlive, hcheck, hcreate, rfl,
            by simp [ModuleManager.emit]⟩)))⟩
        unfold ModuleManager.registerModulesStep
        simp [hl, hc, hcreate]
      | moduleInitException toDeregister =>
        obtain ⟨set, hspec, hconv⟩ :=
          ModuleManager.deregisterDependetModules_converges
            (((mm.emit (Event.postProgress obj.name)).emit
              (Event.checkDependencies obj.name)).emit (Event.create obj.name)) hac toDeregister
        refine ⟨_, Converges.congr (fun fuel => ?_) (Converges.map Prod.fst hconv), rfl, rfl, rfl,
          Or.inr (Or.inr (Or.inr (Or.inr ⟨hlive, hcheck, toDeregister, set, hcreate, hspec, rfl,
            by simp [ModuleManager.emit]⟩)))⟩
        unfold ModuleManager.registerModulesStep
        simp [hl, hc, hcreate]

/-- Invariant rule for the registration loop: an invariant of the already processed part
of the list `l` that every loop body preserves holds after the loop over `l`, which
returns from some fuel on when the descriptor list is acyclic. -/
theorem ModuleManager.registerModulesLoop_invariant (buildVersion : Version)
    (fo : List InviwoModuleFactoryObject) (hac : Acyclic fo)
    (l : List InviwoModuleFactoryObject)
    (I : List InviwoModuleFactoryObject → ModuleManager → Prop)
    (hstep : ∀ pre x post mm mm', l = pre ++ x :: post → mm.factoryObjects_ = fo →
      I pre mm → RegisterStepPost buildVersion mm x mm' → I (pre ++ [x]) mm') :
    ∀ (mm : ModuleManager), mm.factoryObjects_ = fo → I [] mm →
      ∃ mm', Converges (fun fuel =>
          l.foldlM (ModuleManager.registerModulesStep buildVersion fuel) mm) mm' ∧
        mm'.factoryObjects_ = fo ∧ I l mm' := by
  have key : ∀ (l' pre : List InviwoModuleFactoryObject) (mm : ModuleManager), l = pre ++ l' →
      mm.factoryObjects_ = fo → I pre mm →
      ∃ mm', Converges (fun fuel =>
          l'.foldlM (ModuleManager.registerModulesStep buildVersion fuel) mm) mm' ∧
        mm'.factoryObjects_ = fo ∧ I l mm' := by
    intro l'
    induction l' with
    | nil =>
      intro pre mm hs hfo hI
      rw [List.append_nil] at hs
      exact ⟨mm, ⟨0, fun _ _ => rfl⟩, hfo, hs ▸ hI⟩
    | cons x xs ih =>
      intro pre mm hs hfo hI
      obtain ⟨mm1, hc1, hpost⟩ := mm.registerModulesStep_spec buildVersion x (hfo ▸ hac)
      have hI1 := hstep pre x xs mm mm1 hs hfo hI hpost
      obtain ⟨mm2, hc2, hfo2, hI2⟩ := ih (pre ++ [x]) mm1 (by rw [hs]; simp)
        (hpost.1.trans hfo) hI1
      refine ⟨mm2, ?_, hfo2, hI2⟩
      have := Converges.bind (k := fun fuel m =>
        xs.foldlM (ModuleManager.registerModulesStep buildVersion fuel) m) hc1 hc2
      refine Converges.congr (fun fuel => ?_) this
      rw [List.foldlM_cons]
      rfl
  intro mm hfo hI
  exact key l [] mm rfl hfo hI

/-- Invariant rule for `registerModules`: the sorter returns a sorted permutation of the
known descriptors followed by the batch, and an invariant of the loop over it holds when
`registerModules` returns, which it does from some fuel on for an acyclic graph. -/
theorem ModuleManager.registerModules_invariant (buildVersion : Version) (mm : ModuleManager)
    (mfo : List InviwoModuleFactoryObject) (hac : Acyclic (mm.factoryObjects_ ++ mfo))
    (I : List InviwoModuleFactoryObject → List InviwoModuleFactoryObject →
      ModuleManager → Prop)
    (h0 : ∀ sorted, SortedSpec (mm.factoryObjects_ ++ mfo) sorted →
      I sorted [] { mm with factoryObjects_ := sorted })
    (hstep : ∀ sorted, SortedSpec (mm.factoryObjects_ ++ mfo) sorted →
      ∀ pre x post m m', sorted = pre ++ x :: post → m.factoryObjects_ = sorted →
      I sorted pre m → RegisterStepPost buildVersion m x m' → I sorted (pre ++ [x]) m') :
    ∃ sorted mm', SortedSpec (mm.factoryObjects_ ++ mfo) sorted ∧
      Converges (fun fuel => mm.registerModules buildVersion fuel mfo)
        (mm'.emit Event.modulesDidRegister) ∧
      mm'.factoryObjects_ = sorted ∧ I sorted sorted mm' := by
  obtain ⟨sorted, hc, hperm, htopo⟩ := topologicalModuleFactoryObjectSort_spec hac
  have hspec : SortedSpec (mm.factoryObjects_ ++ mfo) sorted := ⟨hperm, htopo⟩
  have hac' : Acyclic sorted := hac.of_mem_iff (fun a => hperm.mem_iff)
  obtain ⟨mm', hc', hfo', hI'⟩ := ModuleManager.registerModulesLoop_invariant buildVersion
    sorted hac' sorted (I sorted) (hstep sorted hspec) { mm with factoryObjects_ := sorted } rfl
    (h0 sorted hspec)
  refine ⟨sorted, mm', hspec, ?_, hfo', hI'⟩
  have h1 := Converges.bind (k := fun fuel sorted =>
    (sorted.foldlM (ModuleManager.registerModulesStep buildVersion fuel)
      { mm with factoryObjects_ := sorted }).bind
      (fun mm' => some (mm'.emit Event.modulesDidRegister))) hc
    (Converges.bind (k := fun _ mm' => some (mm'.emit Event.modulesDidRegister)) hc'
      (Converges.pure _))
  exact Converges.congr (fun fuel => rfl) h1

/-! ## Idempotent registration -/

theorem ModuleManager.getModuleByIdentifier_eq_none_iff (mm : ModuleManager) (name : String) :
    mm.getModuleByIdentifier name = none ↔
      ∀ m ∈ mm.modules_, iCaseCmp m.identifier name = false := by
  unfold ModuleManager.getModuleByIdentifier
  rw [List.find?_eq_none]
  simp

theorem ModuleManager.getModuleByIdentifier_isSome_iff (mm : ModuleManager) (name : String) :
    (mm.getModuleByIdentifier name).isSome = true ↔
      ∃ m ∈ mm.modules_, iCaseCmp m.identifier name = true := by
  unfold ModuleManager.getModuleByIdentifier
  rw [List.find?_isSome]

theorem UniqueIdentifiers.filter_length_eq_one {modules : List InviwoModule}
    (hu : UniqueIdentifiers modules) (name : String)
    (hlive : ∃ m ∈ modules, iCaseCmp m.identifier name = true) :
    (modules.filter (fun m => iCaseCmp m.identifier name)).length = 1 := by
  unfold UniqueIdentifiers at hu
  induction modules with
  | nil =>
    obtain ⟨m, hm, -⟩ := hlive
    cases hm
  | cons x xs ih =>
    rw [List.pairwise_cons] at hu
    obtain ⟨hx, hxs⟩ := hu
    by_cases hxn : iCaseCmp x.identifier name = true
    · rw [List.filter_cons, if_pos hxn]
      have : xs.filter (fun m => iCaseCmp m.identifier name) = [] := by
        rw [List.filter_eq_nil_iff]
        intro y hy hyn
        have h1 := hx y hy
        rw [iCaseCmp_trans hxn (iCaseCmp_symm hyn)] at h1
        cases h1
      rw [this]
      rfl
    · rw [List.filter_cons, if_neg hxn]
      apply ih hxs
      obtain ⟨m, hm, hmn⟩ := hlive
      rcases List.mem_cons.mp hm with rfl | hm
      · exact absurd hmn hxn
      · exact ⟨m, hm, hmn⟩

theorem DependsOnName.mono {fo fo' : List InviwoModuleFactoryObject} {n m : String}
    (h : DependsOnName fo n m) (hsub : ∀ a ∈ fo, a ∈ fo') : DependsOnName fo' n m := by
  induction h with
  | direct item dep n m hitem hname hdep hm =>
    exact DependsOnName.direct item dep n m (hsub item hitem) hname hdep hm
  | trans n k m _ _ ih1 ih2 => exact DependsOnName.trans n k m ih1 ih2

/-- While a module named like `D` is live and no construction failure deregisters it, the
loop body never runs the version checker or the constructor for the name of `D`, keeps the
module live and keeps identifiers unique. -/
theorem ModuleManager.registerModulesStep_keeps_live (buildVersion : Version)
    (D x : InviwoModuleFactoryObject) (mm mm' : ModuleManager)
    (hid : ∀ m, x.create = CreateResult.module m → iCaseCmp m.identifier x.name = true)
    (hnodereg : ∀ toDeregister, x.create = CreateResult.moduleInitException toDeregister →
      ∀ n ∈ toDeregister, iCaseCmp n D.name = false ∧
        ¬ DependsOnName mm.factoryObjects_ D.name n)
    (hu : UniqueIdentifiers mm.modules_)
    (hlive : ∃ m ∈ mm.modules_, iCaseCmp m.identifier D.name = true)
    (hpost : RegisterStepPost buildVersion mm x mm') :
    UniqueIdentifiers mm'.modules_ ∧
    (∃ m ∈ mm'.modules_, iCaseCmp m.identifier D.name = true) ∧
    ∃ evs, mm'.events = mm.events ++ evs ∧ Event.checkDependencies D.name ∉ evs ∧
      Event.create D.name ∉ evs := by
  obtain ⟨mD, hmD, hmDn⟩ := hlive
  have hne : mm.getModuleByIdentifier x.name = none → D.name ≠ x.name := by
    intro hnone heq
    rw [mm.getModuleByIdentifier_eq_none_iff] at hnone
    have := hnone mD hmD
    rw [← heq, hmDn] at this
    cases this
  obtain ⟨-, -, -, hcase⟩ := hpost
  rcases hcase with ⟨-, hm, he⟩ | ⟨hnone, -, hm, he⟩ | ⟨hnone, -, m, hcr, hm, he⟩ |
    ⟨hnone, -, -, hm, he⟩ | ⟨hnone, -, names, set, hcr, hspec, hm, he⟩
  · rw [hm]
    exact ⟨hu, ⟨mD, hmD, hmDn⟩, _, he, by simp, by simp⟩
  · rw [hm]
    exact ⟨hu, ⟨mD, hmD, hmDn⟩, _, he, by simpa using hne hnone, by simp⟩
  · rw [hm]
    refine ⟨?_, ⟨mD, List.mem_append_left _ hmD, hmDn⟩, _, he,
      by simpa using hne hnone, by simpa using hne hnone⟩
    unfold UniqueIdentifiers at hu ⊢
    rw [List.pairwise_append]
    refine ⟨hu, List.pairwise_singleton _ _, ?_⟩
    intro a ha b hb
    rw [List.mem_singleton] at hb
    subst hb
    rw [mm.getModuleByIdentifier_eq_none_iff] at hnone
    cases hab : iCaseCmp a.identifier b.identifier
    · rfl
    · have := hnone a ha
      rw [iCaseCmp_trans hab (hid b hcr)] at this
      cases this
  · rw [hm]
    exact ⟨hu, ⟨mD, hmD, hmDn⟩, _, he, by simpa using hne hnone, by simpa using hne hnone⟩
  · rw [hm]
    refine ⟨?_, ⟨mD, ?_, hmDn⟩, _, by rw [he, List.append_assoc], ?_, ?_⟩
    · exact List.Pairwise.sublist (List.filter_sublist _) hu
    · rw [List.mem_filter]
      refine ⟨hmD, ?_⟩
      by_contra hcount
      have hcount' : set.count mD.identifier ≠ 0 := by
        intro h0
        apply hcount
        simp [h0]
      obtain ⟨n, hn, hcmp | hdep⟩ := hspec.1 _ hcount'
      · have := (hnodereg names hcr n hn).1
        rw [iCaseCmp_trans hcmp hmDn] at this
        cases this
      · exact (hnodereg names hcr n hn).2 (hdep.of_iCaseCmp_left hmDn)
    · have := hne hnone
      simp [this]
    · have := hne hnone
      simp [this]

/-- The registration loop run over any stretch `l` of the descriptor list, from a state in
which a module named like `D` is live. -/
theorem ModuleManager.registerModulesLoop_keeps_live (buildVersion : Version)
    (D : InviwoModuleFactoryObject) (fo : List InviwoModuleFactoryObject) (hac : Acyclic fo)
    (l : List InviwoModuleFactoryObject)
    (hid : ∀ x ∈ l, ∀ m, x.create = CreateResult.module m →
      iCaseCmp m.identifier x.name = true)
    (hnodereg : ∀ x ∈ l, ∀ toDeregister,
      x.create = CreateResult.moduleInitException toDeregister →
      ∀ n ∈ toDeregister, iCaseCmp n D.name = false ∧ ¬ DependsOnName fo D.name n)
    (mm : ModuleManager) (hfo : mm.factoryObjects_ = fo)
    (hu : UniqueIdentifiers mm.modules_)
    (hlive : ∃ m ∈ mm.modules_, iCaseCmp m.identifier D.name = true) :
    ∃ mm', Converges (fun fuel =>
        l.foldlM (ModuleManager.registerModulesStep buildVersion fuel) mm) mm' ∧
      mm'.factoryObjects_ = fo ∧
      UniqueIdentifiers mm'.modules_ ∧
      (∃ m ∈ mm'.modules_, iCaseCmp m.identifier D.name = true) ∧
      ∃ evs, mm'.events = mm.events ++ evs ∧ Event.checkDependencies D.name ∉ evs ∧
        Event.create D.name ∉ evs := by
  obtain ⟨mm', hc, hfo', hI⟩ := ModuleManager.registerModulesLoop_invariant buildVersion fo hac l
    (fun _ m => UniqueIdentifiers m.modules_ ∧
      (∃ md ∈ m.modules_, iCaseCmp md.identifier D.name = true) ∧
      ∃ evs, m.events = mm.events ++ evs ∧ Event.checkDependencies D.name ∉ evs ∧
        Event.create D.name ∉ evs)
    (by
      intro pre x post m m' hl hmfo hI hpost
      have hx : x ∈ l := by rw [hl]; simp
      obtain ⟨hu1, hl1, evs, he, h1, h2⟩ := hI
      obtain ⟨hu2, hl2, evs2, he2, h3, h4⟩ :=
        ModuleManager.registerModulesStep_keeps_live buildVersion D x m m' (hid x hx)
          (fun names hcr => by rw [hmfo]; exact hnodereg x hx names hcr) hu1 hl1 hpost
      refine ⟨hu2, hl2, evs ++ evs2, by rw [he2, he, List.append_assoc], ?_, ?_⟩
      · simp [h1, h3]
      · simp [h2, h4])
    mm hfo ⟨hu, hlive, [], by simp, by simp, by simp⟩
  exact ⟨mm', hc, hfo', hI⟩

/-- C8 (counterexample): the known descriptor `a` fails construction naming `d` for
deregistration. `d` is registered by one `registerModules` call and is live; registering
`d` a second time makes `a` fail again, which destroys the live `d`, so the second pass
runs the version checker and the constructor for `d` again. -/
theorem C8_idempotent_registration_counterexample :
    ((ModuleManager.init.registerModules v100 2 [mkFailing "a" [] ["d"]]).bind (fun s0 =>
      (s0.registerModules v100 2 [mkDescriptor "d" v100 []]).bind (fun s1 =>
        (s1.registerModules v100 2 [mkDescriptor "d" v100 []]).map (fun s2 =>
          (s1.modules_, s2.modules_, s2.events.drop s1.events.length))))) =
      some ([{ identifier := "d" }], [{ identifier := "d" }],
        [Event.postProgress "a", Event.checkDependencies "a", Event.create "a",
         Event.moduleDestroyed "d", Event.postProgress "d", Event.checkDependencies "d",
         Event.create "d", Event.postProgress "d", Event.modulesDidRegister]) := by
  decide

/-- C8 (amended): assume the dependency graph of the known descriptors and the batch is
acyclic, every constructor that succeeds returns a module whose identifier is the name of
its descriptor (ignoring case), and no constructor fails with a `ModuleInitException` that
names `D` or a name on which `D` depends. Then, from every state with unique module
identifiers in which a module named like `D` is live (the first registration of `D`
succeeded), `registerModules` with any batch (containing `D` again or not) returns with
exactly one live module whose identifier equals the name of `D` ignoring case, and logs
neither a version check nor a constructor call for the name of `D`. The same holds for the
rest of a pass: the loop run over any stretch of the sorted descriptor list from a state
in which `D` is live (for instance right after the first of two occurrences of `D` in one
batch was constructed). -/
theorem C8_idempotent_registration_amended (buildVersion : Version) (mm : ModuleManager)
    (mfo : List InviwoModuleFactoryObject) (D : InviwoModuleFactoryObject)
    (hac : Acyclic (mm.factoryObjects_ ++ mfo))
    (hid : ∀ x ∈ mm.factoryObjects_ ++ mfo, ∀ m, x.create = CreateResult.module m →
      iCaseCmp m.identifier x.name = true)
    (hnodereg : ∀ x ∈ mm.factoryObjects_ ++ mfo, ∀ toDeregister,
      x.create = CreateResult.moduleInitException toDeregister →
      ∀ n ∈ toDeregister, iCaseCmp n D.name = false ∧
        ¬ DependsOnName (mm.factoryObjects_ ++ mfo) D.name n) :
    (UniqueIdentifiers mm.modules_ →
      (∃ m ∈ mm.modules_, iCaseCmp m.identifier D.name = true) →
      ∃ mm', Converges (fun fuel => mm.registerModules buildVersion fuel mfo) mm' ∧
        (mm'.modules_.filter (fun m => iCaseCmp m.identifier D.name)).length = 1 ∧
        ∃ evs, mm'.events = mm.events ++ evs ∧ Event.checkDependencies D.name ∉ evs ∧
          Event.create D.name ∉ evs) ∧
    (∀ (sorted l : List InviwoModuleFactoryObject) (m : ModuleManager),
      sorted.Perm (mm.factoryObjects_ ++ mfo) → m.factoryObjects_ = sorted →
      (∀ x ∈ l, x ∈ sorted) → UniqueIdentifiers m.modules_ →
      (∃ md ∈ m.modules_, iCaseCmp md.identifier D.name = true) →
      ∃ m', Converges (fun fuel =>
          l.foldlM (ModuleManager.registerModulesStep buildVersion fuel) m) m' ∧
        (m'.modules_.filter (fun md => iCaseCmp md.identifier D.name)).length = 1 ∧
        ∃ evs, m'.events = m.events ++ evs ∧ Event.checkDependencies D.name ∉ evs ∧
          Event.create D.name ∉ evs) := by
  have hloop : ∀ (sorted l : List InviwoModuleFactoryObject) (m : ModuleManager),
      sorted.Perm (mm.factoryObjects_ ++ mfo) → m.factoryObjects_ = sorted →
      (∀ x ∈ l, x ∈ sorted) → UniqueIdentifiers m.modules_ →
      (∃ md ∈ m.modules_, iCaseCmp md.identifier D.name = true) →
      ∃ m', Converges (fun fuel =>
          l.foldlM (ModuleManager.registerModulesStep buildVersion fuel) m) m' ∧
        m'.factoryObjects_ = sorted ∧
        (m'.modules_.filter (fun md => iCaseCmp md.identifier D.name)).length = 1 ∧
        ∃ evs, m'.events = m.events ++ evs ∧ Event.checkDependencies D.name ∉ evs ∧
          Event.create D.name ∉ evs := by
    intro sorted l m hperm hfo hl hu hlive
    obtain ⟨m', hc, hfo', hu', hlive', hev⟩ :=
      ModuleManager.registerModulesLoop_keeps_live buildVersion D sorted
        (hac.of_mem_iff (fun a => hperm.mem_iff)) l
        (fun x hx => hid x (hperm.mem_iff.mp (hl x hx)))
        (fun x hx names hcr n hn =>
          ⟨(hnodereg x (hperm.mem_iff.mp (hl x hx)) names hcr n hn).1,
           fun hdep => (hnodereg x (hperm.mem_iff.mp (hl x hx)) names hcr n hn).2
             (hdep.mono (fun a ha => hperm.mem_iff.mp ha))⟩)
        m hfo hu hlive
    exact ⟨m', hc, hfo', hu'.filter_length_eq_one D.name hlive', hev⟩
  refine ⟨?_, ?_⟩
  · intro hu hlive
    obtain ⟨sorted, hcs, hperm, -⟩ := topologicalModuleFactoryObjectSort_spec hac
    obtain ⟨m', hc, -, hlen, evs, hev, h1, h2⟩ :=
      hloop sorted sorted { mm with factoryObjects_ := sorted } hperm rfl (fun _ h => h) hu hlive
    refine ⟨m'.emit Event.modulesDidRegister, ?_, hlen, evs ++ [Event.modulesDidRegister], ?_,
      by simp [h1], by simp [h2]⟩
    · have h1 := Converges.bind (k := fun fuel sorted =>
        (sorted.foldlM (ModuleManager.registerModulesStep buildVersion fuel)
          { mm with factoryObjects_ := sorted }).bind
          (fun mm' => some (mm'.emit Event.modulesDidRegister))) hcs
        (Converges.bind (k := fun _ mm' => some (mm'.emit Event.modulesDidRegister)) hc
          (Converges.pure _))
      exact Converges.congr (fun fuel => rfl) h1
    · show m'.events ++ [Event.modulesDidRegister] = _
      rw [hev, List.append_assoc]
  · intro sorted l m hperm hfo hl hu hlive
    obtain ⟨m', hc, -, hlen, hev⟩ := hloop sorted l m hperm hfo hl hu hlive
    exact ⟨m', hc, hlen, hev⟩

/-- C8 (amended) at a concrete input: `d` is live and is registered again together with a
new module `e`. -/
theorem C8_idempotent_registration_amended_witness :
    ∃ mm', Converges (fun fuel =>
        (mkManager [mkDescriptor "d" v100 []] [{ identifier := "d" }]).registerModules v100 fuel
          [mkDescriptor "d" v100 [], mkDescriptor "e" v100 [("d", v100)]]) mm' ∧
      (mm'.modules_.filter (fun m => iCaseCmp m.identifier "d")).length = 1 ∧
      ∃ evs, mm'.events =
          (mkManager [mkDescriptor "d" v100 []] [{ identifier := "d" }]).events ++ evs ∧
        Event.checkDependencies "d" ∉ evs ∧ Event.create "d" ∉ evs :=
  (C8_idempotent_registration_amended v100
    (mkManager [mkDescriptor "d" v100 []] [{ identifier := "d" }])
    [mkDescriptor "d" v100 [], mkDescriptor "e" v100 [("d", v100)]] (mkDescriptor "d" v100 [])
    (acyclic_of_rank _ (fun d => d.dependencies.length) (by decide))
    (by
      intro x hx m hm
      have hx' : x = mkDescriptor "d" v100 [] ∨ x = mkDescriptor "e" v100 [("d", v100)] := by
        simpa [mkManager] using hx
      rcases hx' with rfl | rfl <;> cases hm <;> decide)
    (by
      intro x hx names hcr
      have hx' : x = mkDescriptor "d" v100 [] ∨ x = mkDescriptor "e" v100 [("d", v100)] := by
        simpa [mkManager] using hx
      rcases hx' with rfl | rfl <;> cases hcr)).1
    (by unfold UniqueIdentifiers; simp [mkManager])
    ⟨{ identifier := "d" }, by simp [mkManager], by decide⟩

/-! ## Cascading teardown -/

theorem IdSet.count_ne_zero_of_iCaseCmp (s : IdSet) {x y : String} (hx : s.count x ≠ 0)
    (hxy : iCaseCmp x y = true) : s.count y ≠ 0 := by
  rw [IdSet.count_ne_zero_iff] at hx ⊢
  obtain ⟨k, hk, hkx⟩ := hx
  exact ⟨k, hk, iCaseCmp_trans hkx hxy⟩

theorem iCaseCmp_false_symm {a b : String} (h : iCaseCmp a b = false) :
    iCaseCmp b a = false := by
  rw [iCaseCmp_comm]
  exact h

theorem iCaseCmp_false_of_right {a b c : String} (h1 : iCaseCmp b c = true)
    (h2 : iCaseCmp a b = false) : iCaseCmp a c = false := by
  cases h : iCaseCmp a c
  · rfl
  · rw [iCaseCmp_trans h (iCaseCmp_symm h1)] at h2
    cases h2

theorem CascadeScenario.mB_A {buildVersion : Version}
    {A B C D : InviwoModuleFactoryObject} {mB mC mD : InviwoModule} {e : String}
    (h : CascadeScenario buildVersion A B C D mB mC mD e) :
    iCaseCmp mB.identifier A.name = false :=
  iCaseCmp_false_of_left (iCaseCmp_symm h.identB) (iCaseCmp_false_symm h.nameAB)

theorem CascadeScenario.mB_C {buildVersion : Version}
    {A B C D : InviwoModuleFactoryObject} {mB mC mD : InviwoModule} {e : String}
    (h : CascadeScenario buildVersion A B C D mB mC mD e) :
    iCaseCmp mB.identifier C.name = false :=
  iCaseCmp_false_of_left (iCaseCmp_symm h.identB) h.nameBC

theorem CascadeScenario.mB_D {buildVersion : Version}
    {A B C D : InviwoModuleFactoryObject} {mB mC mD : InviwoModule} {e : String}
    (h : CascadeScenario buildVersion A B C D mB mC mD e) :
    iCaseCmp mB.identifier D.name = false :=
  iCaseCmp_false_of_left (iCaseCmp_symm h.identB) h.nameBD

theorem CascadeScenario.mC_A {buildVersion : Version}
    {A B C D : InviwoModuleFactoryObject} {mB mC mD : InviwoModule} {e : String}
    (h : CascadeScenario buildVersion A B C D mB mC mD e) :
    iCaseCmp mC.identifier A.name = false :=
  iCaseCmp_false_of_left (iCaseCmp_symm h.identC) (iCaseCmp_false_symm h.nameAC)

theorem CascadeScenario.mC_B {buildVersion : Version}
    {A B C D : InviwoModuleFactoryObject} {mB mC mD : InviwoModule} {e : String}
    (h : CascadeScenario buildVersion A B C D mB mC mD e) :
    iCaseCmp mC.identifier B.name = false :=
  iCaseCmp_false_of_left (iCaseCmp_symm h.identC) (iCaseCmp_false_symm h.nameBC)

theorem CascadeScenario.mC_D {buildVersion : Version}
    {A B C D : InviwoModuleFactoryObject} {mB mC mD : InviwoModule} {e : String}
    (h : CascadeScenario buildVersion A B C D mB mC mD e) :
    iCaseCmp mC.identifier D.name = false :=
  iCaseCmp_false_of_left (iCaseCmp_symm h.identC) h.nameCD

theorem CascadeScenario.mD_A {buildVersion : Version}
    {A B C D : InviwoModuleFactoryObject} {mB mC mD : InviwoModule} {e : String}
    (h : CascadeScenario buildVersion A B C D mB mC mD e) :
    iCaseCmp mD.identifier A.name = false :=
  iCaseCmp_false_of_left (iCaseCmp_symm h.identD) (iCaseCmp_false_symm h.nameAD)

theorem CascadeScenario.mD_B {buildVersion : Version}
    {A B C D : InviwoModuleFactoryObject} {mB mC mD : InviwoModule} {e : String}
    (h : CascadeScenario buildVersion A B C D mB mC mD e) :
    iCaseCmp mD.identifier B.name = false :=
  iCaseCmp_false_of_left (iCaseCmp_symm h.identD) (iCaseCmp_false_symm h.nameBD)

theorem CascadeScenario.mD_C {buildVersion : Version}
    {A B C D : InviwoModuleFactoryObject} {mB mC mD : InviwoModule} {e : String}
    (h : CascadeScenario buildVersion A B C D mB mC mD e) :
    iCaseCmp mD.identifier C.name = false :=
  iCaseCmp_false_of_left (iCaseCmp_symm h.identD) (iCaseCmp_false_symm h.nameCD)

theorem CascadeScenario.mB_ne_mC {buildVersion : Version}
    {A B C D : InviwoModuleFactoryObject} {mB mC mD : InviwoModule} {e : String}
    (h : CascadeScenario buildVersion A B C D mB mC mD e) :
    mB ≠ mC := by
  intro heq
  have := h.mB_C
  rw [heq, h.identC] at this
  cases this

theorem CascadeScenario.mB_ne_mD {buildVersion : Version}
    {A B C D : InviwoModuleFactoryObject} {mB mC mD : InviwoModule} {e : String}
    (h : CascadeScenario buildVersion A B C D mB mC mD e) :
    mB ≠ mD := by
  intro heq
  have := h.mB_D
  rw [heq, h.identD] at this
  cases this

theorem CascadeScenario.mC_ne_mD {buildVersion : Version}
    {A B C D : InviwoModuleFactoryObject} {mB mC mD : InviwoModule} {e : String}
    (h : CascadeScenario buildVersion A B C D mB mC mD e) :
    mC ≠ mD := by
  intro heq
  have := h.mC_D
  rw [heq, h.identD] at this
  cases this

theorem CascadeScenario.nodup {buildVersion : Version}
    {A B C D : InviwoModuleFactoryObject} {mB mC mD : InviwoModule} {e : String}
    (h : CascadeScenario buildVersion A B C D mB mC mD e) :
    [A, B, C, D].Nodup := by
  have hne : ∀ {X Y : InviwoModuleFactoryObject}, iCaseCmp X.name Y.name = false → X ≠ Y := by
    intro X Y hxy heq
    rw [heq, iCaseCmp_refl] at hxy
    cases hxy
  simp only [List.nodup_cons, List.mem_cons, List.mem_singleton, List.not_mem_nil,
    List.nodup_nil, not_or, or_false, not_false_eq_true, and_true]
  exact ⟨⟨hne h.nameAB, hne h.nameAC, hne h.nameAD⟩, ⟨hne h.nameBC, hne h.nameBD⟩,
    hne h.nameCD⟩

/-- Liveness of each of the four names when only the modules of `B`, `C`, `D` can be
live. -/
theorem CascadeScenario.live {buildVersion : Version}
    {A B C D : InviwoModuleFactoryObject} {mB mC mD : InviwoModule} {e : String}
    (h : CascadeScenario buildVersion A B C D mB mC mD e)
    (mm : ModuleManager) (hsub : ∀ x ∈ mm.modules_, x = mB ∨ x = mC ∨ x = mD) :
    mm.getModuleByIdentifier A.name = none ∧
    (mm.getModuleByIdentifier B.name = none ↔ mB ∉ mm.modules_) ∧
    (mm.getModuleByIdentifier C.name = none ↔ mC ∉ mm.modules_) ∧
    (mm.getModuleByIdentifier D.name = none ↔ mD ∉ mm.modules_) := by
  simp only [ModuleManager.getModuleByIdentifier_eq_none_iff]
  refine ⟨?_, ?_, ?_, ?_⟩
  · intro m hm
    rcases hsub m hm with rfl | rfl | rfl
    · exact h.mB_A
    · exact h.mC_A
    · exact h.mD_A
  · constructor
    · intro hall hmem
      have := hall mB hmem
      rw [h.identB] at this
      cases this
    · intro hmem m hm
      rcases hsub m hm with rfl | rfl | rfl
      · exact absurd hm hmem
      · exact h.mC_B
      · exact h.mD_B
  · constructor
    · intro hall hmem
      have := hall mC hmem
      rw [h.identC] at this
      cases this
    · intro hmem m hm
      rcases hsub m hm with rfl | rfl | rfl
      · exact h.mB_C
      · exact absurd hm hmem
      · exact h.mD_C
  · constructor
    · intro hall hmem
      have := hall mD hmem
      rw [h.identD] at this
      cases this
    · intro hmem m hm
      rcases hsub m hm with rfl | rfl | rfl
      · exact h.mB_D
      · exact h.mC_D
      · exact absurd hm hmem

/-- Name lookup of a spelling of the name of `B` finds `B` in any arrangement of the four
descriptors. -/
theorem CascadeScenario.find_B {buildVersion : Version}
    {A B C D : InviwoModuleFactoryObject} {mB mC mD : InviwoModule} {e : String}
    (h : CascadeScenario buildVersion A B C D mB mC mD e)
    (l : List InviwoModuleFactoryObject) (hl : l.Perm [A, B, C, D]) (n : String)
    (hn : iCaseCmp B.name n = true) :
    l.find? (fun mfo => iCaseCmp mfo.name n) = some B := by
  apply find?_eq_some_of_unique
  · rw [hl.mem_iff]
    simp
  · exact hn
  · intro x hx hxn
    rw [hl.mem_iff] at hx
    have hxB : iCaseCmp x.name B.name = true := iCaseCmp_trans hxn (iCaseCmp_symm hn)
    simp only [List.mem_cons, List.mem_singleton, List.not_mem_nil, or_false] at hx
    rcases hx with rfl | rfl | rfl | rfl
    · rw [h.nameAB] at hxB
      cases hxB
    · rfl
    · rw [iCaseCmp_false_symm h.nameBC] at hxB
      cases hxB
    · rw [iCaseCmp_false_symm h.nameBD] at hxB
      cases hxB

theorem CascadeScenario.check_B {buildVersion : Version}
    {A B C D : InviwoModuleFactoryObject} {mB mC mD : InviwoModule} {e : String}
    (h : CascadeScenario buildVersion A B C D mB mC mD e) (mm : ModuleManager) :
    mm.checkDependencies buildVersion B = true := by
  rw [mm.checkDependencies_iff]
  exact ⟨h.coreB, by simp [h.depsB]⟩

theorem CascadeScenario.check_D {buildVersion : Version}
    {A B C D : InviwoModuleFactoryObject} {mB mC mD : InviwoModule} {e : String}
    (h : CascadeScenario buildVersion A B C D mB mC mD e) (mm : ModuleManager) :
    mm.checkDependencies buildVersion D = true := by
  rw [mm.checkDependencies_iff]
  exact ⟨h.coreD, by simp [h.depsD]⟩

theorem CascadeScenario.check_A {buildVersion : Version}
    {A B C D : InviwoModuleFactoryObject} {mB mC mD : InviwoModule} {e : String}
    (h : CascadeScenario buildVersion A B C D mB mC mD e) (mm : ModuleManager)
    (hfo : mm.factoryObjects_.Perm [A, B, C, D])
    (hsub : ∀ x ∈ mm.modules_, x = mB ∨ x = mC ∨ x = mD) (hB : mB ∈ mm.modules_) :
    mm.checkDependencies buildVersion A = true := by
  rw [mm.checkDependencies_iff]
  refine ⟨h.coreA, ?_⟩
  obtain ⟨eA, vA, hdeps, heA, -⟩ := h.depsA
  intro dep hdep
  rw [hdeps, List.mem_singleton] at hdep
  subst hdep
  unfold ModuleManager.checkDependency
  have hfind : mm.getFactoryObject eA = some B := h.find_B _ hfo eA heA
  have hlive : (mm.getModuleByIdentifier B.name).isNone = false := by
    cases hg : mm.getModuleByIdentifier B.name
    · exact absurd hB (((h.live mm hsub).2.1).mp hg)
    · rfl
  simp [hfind, hlive, h.versionA]

theorem CascadeScenario.check_C {buildVersion : Version}
    {A B C D : InviwoModuleFactoryObject} {mB mC mD : InviwoModule} {e : String}
    (h : CascadeScenario buildVersion A B C D mB mC mD e) (mm : ModuleManager)
    (hfo : mm.factoryObjects_.Perm [A, B, C, D])
    (hsub : ∀ x ∈ mm.modules_, x = mB ∨ x = mC ∨ x = mD) (hB : mB ∉ mm.modules_) :
    mm.checkDependencies buildVersion C = false := by
  cases hc : mm.checkDependencies buildVersion C
  · rfl
  · rw [mm.checkDependencies_iff] at hc
    obtain ⟨vC, hdeps, -⟩ := h.depsC
    have := hc.2 (e, vC) (by rw [hdeps]; exact List.mem_singleton.mpr rfl)
    unfold ModuleManager.checkDependency at this
    have hfind : mm.getFactoryObject e = some B := h.find_B _ hfo e h.spelling
    have hlive : mm.getModuleByIdentifier B.name = none := ((h.live mm hsub).2.1).mpr hB
    simp [hfind, hlive] at this

theorem CascadeScenario.ne {buildVersion : Version}
    {A B C D : InviwoModuleFactoryObject} {mB mC mD : InviwoModule} {e : String}
    (h : CascadeScenario buildVersion A B C D mB mC mD e) :
    A ≠ B ∧ A ≠ C ∧ A ≠ D ∧ B ≠ C ∧ B ≠ D ∧ C ≠ D := by
  have hne : ∀ {X Y : InviwoModuleFactoryObject}, iCaseCmp X.name Y.name = false → X ≠ Y := by
    intro X Y hxy heq
    rw [heq, iCaseCmp_refl] at hxy
    cases hxy
  exact ⟨hne h.nameAB, hne h.nameAC, hne h.nameAD, hne h.nameBC, hne h.nameBD, hne h.nameCD⟩

/-- The deregistration triggered by the failure of `A` erases the modules of `B` and `C`
and keeps the module of `D`. -/
theorem CascadeScenario.deregister {buildVersion : Version}
    {A B C D : InviwoModuleFactoryObject} {mB mC mD : InviwoModule} {e : String}
    (h : CascadeScenario buildVersion A B C D mB mC mD e)
    (fo : List InviwoModuleFactoryObject) (hfo : fo.Perm [A, B, C, D]) (set : IdSet)
    (hspec : DeregisterSetSpec fo [e] set) :
    set.count mB.identifier ≠ 0 ∧ set.count mC.identifier ≠ 0 ∧ set.count mD.identifier = 0 := by
  obtain ⟨hsound, hnames, hdeps, -⟩ := hspec
  refine ⟨?_, ?_, ?_⟩
  · exact hnames e (List.mem_singleton.mpr rfl) _
      (iCaseCmp_trans (iCaseCmp_symm h.spelling) (iCaseCmp_symm h.identB))
  · obtain ⟨vC, hC, -⟩ := h.depsC
    have := hdeps e (List.mem_singleton.mpr rfl) C (hfo.mem_iff.mpr (by simp)) (e, vC)
      (by rw [hC]; exact List.mem_singleton.mpr rfl) rfl
    exact set.count_ne_zero_of_iCaseCmp this (iCaseCmp_symm h.identC)
  · by_contra hcount
    obtain ⟨n, hn, hcmp | hdep⟩ := hsound _ hcount
    · rw [List.mem_singleton] at hn
      subst hn
      have h1 : iCaseCmp B.name D.name = true :=
        iCaseCmp_trans h.spelling (iCaseCmp_trans hcmp h.identD)
      rw [h.nameBD] at h1
      cases h1
    · obtain ⟨item, hitem, hname, hne⟩ := hdep.exists_item
      have hD : iCaseCmp item.name D.name = true := iCaseCmp_trans hname h.identD
      rw [hfo.mem_iff] at hitem
      simp only [List.mem_cons, List.mem_singleton, List.not_mem_nil, or_false] at hitem
      rcases hitem with rfl | rfl | rfl | rfl
      · rw [h.nameAD] at hD
        cases hD
      · rw [h.nameBD] at hD
        cases hD
      · rw [h.nameCD] at hD
        cases hD
      · exact hne h.depsD

/-- Every loop body of the cascading-teardown scenario preserves `CascadeInv`. -/
theorem CascadeScenario.step_inv {buildVersion : Version}
    {A B C D : InviwoModuleFactoryObject} {mB mC mD : InviwoModule} {e : String}
    (h : CascadeScenario buildVersion A B C D mB mC mD e)
    (sorted : List InviwoModuleFactoryObject) (hperm : sorted.Perm [A, B, C, D])
    (horder : ∀ pre post, sorted = pre ++ A :: post → B ∈ pre)
    (pre : List InviwoModuleFactoryObject) (x : InviwoModuleFactoryObject)
    (post : List InviwoModuleFactoryObject) (m m' : ModuleManager)
    (hs : sorted = pre ++ x :: post) (hfo : m.factoryObjects_ = sorted)
    (hI : CascadeInv A B D mB mC mD pre m)
    (hpost : RegisterStepPost buildVersion m x m') :
    CascadeInv A B D mB mC mD (pre ++ [x]) m' := by
  have hnd : sorted.Nodup := hperm.nodup_iff.mpr h.nodup
  have hxpre : x ∉ pre := by
    rw [hs, List.nodup_middle, List.nodup_cons] at hnd
    exact fun hx => hnd.1 (List.mem_append_left _ hx)
  have hxmem : x ∈ [A, B, C, D] := hperm.mem_iff.mp (by rw [hs]; simp)
  have hfoperm : m.factoryObjects_.Perm [A, B, C, D] := hfo ▸ hperm
  obtain ⟨hAB, hAC, hAD, hBC, hBD, hCD⟩ := h.ne
  obtain ⟨hsub, hIB, hIA, hID⟩ := hI
  obtain ⟨hliveA, hliveB, hliveC, hliveD⟩ := h.live m hsub
  obtain ⟨-, -, -, hcase⟩ := hpost
  simp only [List.mem_cons, List.mem_singleton, List.not_mem_nil, or_false] at hxmem
  unfold CascadeInv
  simp only [List.mem_append, List.mem_singleton]
  rcases hxmem with rfl | rfl | rfl | rfl
  · -- the failing module
    have hmB : mB ∈ m.modules_ := hIB hxpre (horder pre post hs)
    rcases hcase with ⟨hl, -, -⟩ | ⟨-, hc, -, -⟩ | ⟨-, -, mx, hcr, -, -⟩ |
      ⟨-, -, hcr, -, -⟩ | ⟨-, -, names, set, hcr, hspec, hm, -⟩
    · rw [hliveA] at hl
      cases hl
    · rw [h.check_A m hfoperm hsub hmB] at hc
      cases hc
    · rw [h.createA] at hcr
      cases hcr
    · rw [h.createA] at hcr
      cases hcr
    · rw [h.createA] at hcr
      cases hcr
      obtain ⟨hcB, hcC, hcD⟩ := h.deregister m.factoryObjects_ hfoperm set hspec
      rw [hm]
      simp only [List.mem_filter]
      refine ⟨fun y hy => hsub y hy.1, fun hA => absurd (Or.inr trivial) hA, fun _ => ⟨?_, ?_⟩, ?_⟩
      · rintro ⟨-, hc⟩
        simp [hcB] at hc
      · rintro ⟨-, hc⟩
        simp [hcC] at hc
      · rintro (hD | hD)
        · exact ⟨hID hD, by simp [hcD]⟩
        · exact absurd hD.symm hAD
  · -- the module named for deregistration
    have hApre : x ∉ pre → A ∉ pre := by
      intro _ hA
      obtain ⟨p1, p2, hp⟩ := List.append_of_mem hA
      have : x ∈ p1 := horder p1 (p2 ++ x :: post) (by rw [hs, hp]; simp)
      exact hxpre (by rw [hp]; exact List.mem_append_left _ this)
    have hA := hApre hxpre
    have hgoal : ∀ mods : List InviwoModule, (∀ y ∈ mods, y = mB ∨ y = mC ∨ y = mD) →
        mB ∈ mods → (∀ y ∈ m.modules_, y ∈ mods) →
        (∀ y ∈ mods, y = mB ∨ y = mC ∨ y = mD) ∧
        (¬(A ∈ pre ∨ A = x) → x ∈ pre ∨ x = x → mB ∈ mods) ∧
        (A ∈ pre ∨ A = x → mB ∉ mods ∧ mC ∉ mods) ∧ (D ∈ pre ∨ D = x → mD ∈ mods) := by
      intro mods h1 h2 h3
      refine ⟨h1, fun _ _ => h2, ?_, ?_⟩
      · rintro (hA' | hA')
        · exact absurd hA' hA
        · exact absurd hA' hAB
      · rintro (hD | hD)
        · exact h3 _ (hID hD)
        · exact absurd hD.symm hBD
    rcases hcase with ⟨hl, hm, -⟩ | ⟨-, hc, -, -⟩ | ⟨-, -, mx, hcr, hm, -⟩ |
      ⟨-, -, hcr, -, -⟩ | ⟨-, -, names, set, hcr, -, -, -⟩
    · rw [hm]
      refine hgoal _ hsub ?_ (fun _ hy => hy)
      by_contra hmem
      rw [hliveB.mpr hmem] at hl
      cases hl
    · rw [h.check_B m] at hc
      cases hc
    · rw [h.createB] at hcr
      cases hcr
      rw [hm]
      refine hgoal _ ?_ (by simp) (fun y hy => List.mem_append_left _ hy)
      intro y hy
      rcases List.mem_append.mp hy with hy | hy
      · exact hsub y hy
      · exact Or.inl (List.mem_singleton.mp hy)
    · rw [h.createB] at hcr
      cases hcr
    · rw [h.createB] at hcr
      cases hcr
  · -- the dependent module
    have hgoal : (A ∈ pre → m'.modules_ = m.modules_) →
        (∀ y ∈ m'.modules_, y = mB ∨ y = mC ∨ y = mD) → (∀ y ∈ m.modules_, y ∈ m'.modules_) →
        (∀ y ∈ m'.modules_, y = mB ∨ y = mC ∨ y = mD) ∧
        (¬(A ∈ pre ∨ A = x) → B ∈ pre ∨ B = x → mB ∈ m'.modules_) ∧
        (A ∈ pre ∨ A = x → mB ∉ m'.modules_ ∧ mC ∉ m'.modules_) ∧
        (D ∈ pre ∨ D = x → mD ∈ m'.modules_) := by
      intro h0 h1 h3
      refine ⟨h1, ?_, ?_, ?_⟩
      · rintro hA (hB | hB)
        · exact h3 _ (hIB (fun hA' => hA (Or.inl hA')) hB)
        · exact absurd hB hBC
      · rintro (hA | hA)
        · rw [h0 hA]
          exact hIA hA
        · exact absurd hA hAC
      · rintro (hD | hD)
        · exact h3 _ (hID hD)
        · exact absurd hD.symm hCD
    rcases hcase with ⟨-, hm, -⟩ | ⟨-, -, hm, -⟩ | ⟨-, hc, mx, hcr, hm, -⟩ |
      ⟨-, -, hcr, -, -⟩ | ⟨-, -, names, set, hcr, -, -, -⟩
    · exact hgoal (fun _ => hm) (by rw [hm]; exact hsub) (by rw [hm]; exact fun _ hy => hy)
    · exact hgoal (fun _ => hm) (by rw [hm]; exact hsub) (by rw [hm]; exact fun _ hy => hy)
    · rw [h.createC] at hcr
      cases hcr
      refine hgoal ?_ ?_ ?_
      · intro hA
        rw [h.check_C m hfoperm hsub (hIA hA).1] at hc
        cases hc
      · rw [hm]
        intro y hy
        rcases List.mem_append.mp hy with hy | hy
        · exact hsub y hy
        · exact Or.inr (Or.inl (List.mem_singleton.mp hy))
      · rw [hm]
        exact fun y hy => List.mem_append_left _ hy
    · rw [h.createC] at hcr
      cases hcr
    · rw [h.createC] at hcr
      cases hcr
  · -- the unrelated module
    have hgoal : ∀ mods : List InviwoModule, (∀ y ∈ mods, y = mB ∨ y = mC ∨ y = mD) →
        mD ∈ mods → (∀ y ∈ m.modules_, y ∈ mods) → (∀ y ∈ mods, y ∈ m.modules_ ∨ y = mD) →
        (∀ y ∈ mods, y = mB ∨ y = mC ∨ y = mD) ∧
        (¬(A ∈ pre ∨ A = x) → B ∈ pre ∨ B = x → mB ∈ mods) ∧
        (A ∈ pre ∨ A = x → mB ∉ mods ∧ mC ∉ mods) ∧ (x ∈ pre ∨ x = x → mD ∈ mods) := by
      intro mods h1 h2 h3 h4
      refine ⟨h1, ?_, ?_, fun _ => h2⟩
      · rintro hA (hB | hB)
        · exact h3 _ (hIB (fun hA' => hA (Or.inl hA')) hB)
        · exact absurd hB hBD
      · rintro (hA | hA)
        · refine ⟨fun hmem => ?_, fun hmem => ?_⟩
          · rcases h4 _ hmem with hy | hy
            · exact (hIA hA).1 hy
            · exact h.mB_ne_mD hy
          · rcases h4 _ hmem with hy | hy
            · exact (hIA hA).2 hy
            · exact h.mC_ne_mD hy
        · exact absurd hA hAD
    rcases hcase with ⟨hl, hm, -⟩ | ⟨-, hc, -, -⟩ | ⟨-, -, mx, hcr, hm, -⟩ |
      ⟨-, -, hcr, -, -⟩ | ⟨-, -, names, set, hcr, -, -, -⟩
    · rw [hm]
      refine hgoal _ hsub ?_ (fun _ hy => hy) (fun _ hy => Or.inl hy)
      by_contra hmem
      rw [hliveD.mpr hmem] at hl
      cases hl
    · rw [h.check_D m] at hc
      cases hc
    · rw [h.createD] at hcr
      cases hcr
      rw [hm]
      refine hgoal _ ?_ (by simp) (fun y hy => List.mem_append_left _ hy) ?_
      · intro y hy
        rcases List.mem_append.mp hy with hy | hy
        · exact hsub y hy
        · exact Or.inr (Or.inr (List.mem_singleton.mp hy))
      · intro y hy
        rcases List.mem_append.mp hy with hy | hy
        · exact Or.inl hy
        · exact Or.inr (List.mem_singleton.mp hy)
    · rw [h.createD] at hcr
      cases hcr
    · rw [h.createD] at hcr
      cases hcr

theorem CascadeScenario.acyclic {buildVersion : Version}
    {A B C D : InviwoModuleFactoryObject} {mB mC mD : InviwoModule} {e : String}
    (h : CascadeScenario buildVersion A B C D mB mC mD e)
    (objs : List InviwoModuleFactoryObject) (hperm : objs.Perm [A, B, C, D]) :
    Acyclic objs := by
  apply acyclic_of_rank objs (fun d => d.dependencies.length)
  intro a ha b hb hab
  have hb' := h.find_B objs hperm
  -- a dependency entry naming `b` must name `B`
  have hB : ∀ n, iCaseCmp B.name n = true → iCaseCmp b.name n = true → b = B := by
    intro n hn hbn
    have := find?_eq_some_of_unique (p := fun mfo => iCaseCmp mfo.name n) hb hbn (by
      intro x hx hxn
      have h1 := hb' n hn
      rw [List.find?_eq_some] at h1
      obtain ⟨-, as, bs, hobjs, has⟩ := h1
      -- both `x` and `b` are named like `B`; all four names differ
      have hname : ∀ y ∈ objs, iCaseCmp y.name n = true → y = B := by
        intro y hy hyn
        have hyB : iCaseCmp y.name B.name = true := iCaseCmp_trans hyn (iCaseCmp_symm hn)
        rw [hperm.mem_iff] at hy
        simp only [List.mem_cons, List.mem_singleton, List.not_mem_nil, or_false] at hy
        rcases hy with rfl | rfl | rfl | rfl
        · rw [h.nameAB] at hyB
          cases hyB
        · rfl
        · rw [iCaseCmp_false_symm h.nameBC] at hyB
          cases hyB
        · rw [iCaseCmp_false_symm h.nameBD] at hyB
          cases hyB
      rw [hname x hx hxn, hname b hb hbn])
    rw [hb' n hn] at this
    exact (Option.some.inj this).symm
  unfold InviwoModuleFactoryObject.dependsOn at hab
  rw [List.any_eq_true] at hab
  obtain ⟨dep, hdep, hcmp⟩ := hab
  rw [hperm.mem_iff] at ha
  simp only [List.mem_cons, List.mem_singleton, List.not_mem_nil, or_false] at ha
  rcases ha with rfl | rfl | rfl | rfl
  · obtain ⟨eA, vA, hdeps, heA, -⟩ := h.depsA
    rw [hdeps, List.mem_singleton] at hdep
    subst hdep
    rw [hB eA heA hcmp]
    simp [h.depsB, hdeps]
  · rw [h.depsB] at hdep
    cases hdep
  · obtain ⟨vC, hdeps, -⟩ := h.depsC
    rw [hdeps, List.mem_singleton] at hdep
    subst hdep
    rw [hB e h.spelling hcmp]
    simp [h.depsB, hdeps]
  · rw [h.depsD] at hdep
    cases hdep

/-- C2 (counterexample): the batch `a`, `b`, `c`, `d` from an empty registry, where `a`
fails construction naming `b` for deregistration, `c` depends on `b` and `d` is unrelated.
`a` is constructed first, when `b` is not yet live, so nothing is deregistered; `b` and `c`
are registered afterwards and are live when `registerModules` returns. -/
theorem C2_cascading_teardown_counterexample :
    (ModuleManager.init.registerModules v100 2
        [mkFailing "a" [] ["b"], mkDescriptor "b" v100 [],
         mkDescriptor "c" v100 [("b", v100)], mkDescriptor "d" v100 []]).map
      (fun mm => mm.modules_) =
      some [{ identifier := "b" }, { identifier := "c" }, { identifier := "d" }] := by
  decide

/-- The four-module case, from hypotheses on the descriptors alone: in the scenario
`CascadeScenario` (`A` depends on `B`, so `B` is constructed before `A`; the construction
of `A` fails naming `B`; `C` depends on `B`; `D` is unrelated), for every arrangement of
the batch `A`, `B`, `C`, `D` registered from an empty registry, `registerModules` returns
and afterwards neither `B` nor `C` is a live module and `D` is. -/
theorem CascadeScenario.teardown_of_batch (buildVersion : Version) (mm : ModuleManager)
    (mfo : List InviwoModuleFactoryObject) (A B C D : InviwoModuleFactoryObject)
    (mB mC mD : InviwoModule) (e : String)
    (h : CascadeScenario buildVersion A B C D mB mC mD e)
    (hfo : mm.factoryObjects_ = []) (hmod : mm.modules_ = [])
    (hbatch : mfo.Perm [A, B, C, D]) :
    ∃ mm', Converges (fun fuel => mm.registerModules buildVersion fuel mfo) mm' ∧
      mm'.getModuleByIdentifier B.name = none ∧
      mm'.getModuleByIdentifier C.name = none ∧
      mm'.getModuleByIdentifier D.name = some mD := by
  have hobjs : (mm.factoryObjects_ ++ mfo).Perm [A, B, C, D] := by
    rw [hfo, List.nil_append]
    exact hbatch
  obtain ⟨sorted, mm', hspec, hc, -, hI⟩ :=
    ModuleManager.registerModules_invariant buildVersion mm mfo (h.acyclic _ hobjs)
      (fun _ pre m => CascadeInv A B D mB mC mD pre m)
      (by
        intro sorted _
        unfold CascadeInv
        simp [hmod])
      (by
        intro sorted hspec pre x post m m' hs hmfo hI hpost
        refine h.step_inv sorted (hspec.1.trans hobjs) ?_ pre x post m m' hs hmfo hI hpost
        intro pre' post' hs'
        obtain ⟨eA, vA, hdeps, heA, -⟩ := h.depsA
        have hA : sorted[pre'.length]? = some A := by
          rw [hs', List.getElem?_append_right (le_refl _)]
          simp
        obtain ⟨q, hq, hqB⟩ := hspec.2 pre'.length A hA (eA, vA)
          (by rw [hdeps]; exact List.mem_singleton.mpr rfl) B (h.find_B _ hobjs eA heA)
        rw [hs', List.getElem?_append_left hq] at hqB
        exact List.getElem?_mem hqB)
  have hperm : sorted.Perm [A, B, C, D] := hspec.1.trans hobjs
  obtain ⟨hsub, -, hIA, hID⟩ := hI
  have hA : A ∈ sorted := hperm.mem_iff.mpr (by simp)
  have hD : D ∈ sorted := hperm.mem_iff.mpr (by simp)
  obtain ⟨-, hliveB, hliveC, -⟩ := h.live mm' hsub
  refine ⟨mm'.emit Event.modulesDidRegister, hc, hliveB.mpr (hIA hA).1, hliveC.mpr (hIA hA).2, ?_⟩
  show mm'.modules_.find? (fun m => iCaseCmp m.identifier D.name) = some mD
  apply find?_eq_some_of_unique (hID hD) h.identD
  intro x hx hxD
  rcases hsub x hx with rfl | rfl | rfl
  · rw [h.mB_D] at hxD
    cases hxD
  · rw [h.mC_D] at hxD
    cases hxD
  · rfl

/-- The four-module case at a concrete input: the batch `c`, `d`, `a`, `b` where `a`
depends on `b` and fails naming `b`, and `c` depends on `b`. -/
theorem CascadeScenario.teardown_of_batch_example :
    ∃ mm', Converges (fun fuel => ModuleManager.init.registerModules v100 fuel
        [mkDescriptor "c" v100 [("b", v100)], mkDescriptor "d" v100 [],
         mkFailing "a" [("b", v100)] ["b"], mkDescriptor "b" v100 []]) mm' ∧
      mm'.getModuleByIdentifier "b" = none ∧
      mm'.getModuleByIdentifier "c" = none ∧
      mm'.getModuleByIdentifier "d" = some { identifier := "d" } :=
  CascadeScenario.teardown_of_batch v100 ModuleManager.init
    [mkDescriptor "c" v100 [("b", v100)], mkDescriptor "d" v100 [],
     mkFailing "a" [("b", v100)] ["b"], mkDescriptor "b" v100 []]
    (mkFailing "a" [("b", v100)] ["b"]) (mkDescriptor "b" v100 [])
    (mkDescriptor "c" v100 [("b", v100)]) (mkDescriptor "d" v100 [])
    { identifier := "b" } { identifier := "c" } { identifier := "d" } "b"
    { nameAB := by decide, nameAC := by decide, nameAD := by decide, nameBC := by decide,
      nameBD := by decide, nameCD := by decide, coreA := by decide, coreB := by decide,
      coreC := by decide, coreD := by decide,
      depsA := ⟨"b", v100, rfl, by decide, by decide⟩, versionA := by decide,
      createA := rfl, spelling := by decide, depsB := rfl, createB := rfl,
      identB := by decide, depsC := ⟨v100, rfl, by decide⟩, versionC := by decide,
      createC := rfl, identC := by decide, depsD := rfl, createD := rfl,
      identD := by decide }
    rfl rfl
    (by decide)

/-! ## Teardown order -/

theorem ModuleManager.unregisterModules_events (strip : String → String) (mm : ModuleManager) :
    (mm.unregisterModules strip).events =
      mm.events ++ [Event.modulesWillUnregister, Event.networkCleared] ++
        ((mm.modules_.filter (fun m => !mm.isProtected m.identifier)).reverse.map
          (fun m => Event.moduleDestroyed m.identifier)) ++
        ((mm.factoryObjects_.filter (fun mfo => !mm.isProtected mfo.name)).reverse.map
          (fun mfo => Event.factoryObjectDestroyed mfo.name)) ++
        ((mm.sharedLibraries_.filter (fun lib => !mm.isProtected (strip lib.filePath))).reverse.map
          (fun lib => Event.libraryReleased lib.filePath)) := by
  simp [ModuleManager.unregisterModules, reverse_erase_if_eq]

/-- C11: `unregisterModules` logs, after the notification and the network clear, the
destruction of the unprotected live modules in the reverse of their order in `modules_`,
then the removal of the unprotected descriptors, then the release of the unprotected
libraries (each in reverse order); so when `B` precedes `A` in the live list and both are
unprotected, the destruction of `A` is logged before the destruction of `B`. -/
theorem C11_reverse_teardown_order (strip : String → String) (mm : ModuleManager) :
    (mm.unregisterModules strip).events =
      mm.events ++ [Event.modulesWillUnregister, Event.networkCleared] ++
        ((mm.modules_.filter (fun m => !mm.isProtected m.identifier)).reverse.map
          (fun m => Event.moduleDestroyed m.identifier)) ++
        ((mm.factoryObjects_.filter (fun mfo => !mm.isProtected mfo.name)).reverse.map
          (fun mfo => Event.factoryObjectDestroyed mfo.name)) ++
        ((mm.sharedLibraries_.filter (fun lib => !mm.isProtected (strip lib.filePath))).reverse.map
          (fun lib => Event.libraryReleased lib.filePath)) ∧
    (∀ (A B : InviwoModule) (l1 l2 l3 : List InviwoModule),
      mm.modules_ = l1 ++ B :: l2 ++ A :: l3 →
      mm.isProtected A.identifier = false → mm.isProtected B.identifier = false →
      ∃ e1 e2 e3,
        (mm.modules_.filter (fun m => !mm.isProtected m.identifier)).reverse.map
          (fun m => Event.moduleDestroyed m.identifier) =
        e1 ++ Event.moduleDestroyed A.identifier :: e2 ++
          Event.moduleDestroyed B.identifier :: e3) := by
  refine ⟨mm.unregisterModules_events strip, ?_⟩
  intro A B l1 l2 l3 hm hA hB
  refine ⟨(l3.filter (fun m => !mm.isProtected m.identifier)).reverse.map
      (fun m => Event.moduleDestroyed m.identifier),
    (l2.filter (fun m => !mm.isProtected m.identifier)).reverse.map
      (fun m => Event.moduleDestroyed m.identifier),
    (l1.filter (fun m => !mm.isProtected m.identifier)).reverse.map
      (fun m => Event.moduleDestroyed m.identifier), ?_⟩
  rw [hm]
  simp [List.filter_append, List.filter_cons, hA, hB]

/-- C11 at a concrete input: `base` then `viz` (depending on `base`) are live and
unprotected; the destruction of `viz` is logged before the destruction of `base`. -/
theorem C11_reverse_teardown_order_witness :
    ∃ e1 e2 e3,
      ((mkManager [mkDescriptor "base" v100 [], mkDescriptor "viz" v100 [("base", v100)]]
          [{ identifier := "base" }, { identifier := "viz" }]).modules_.filter
        (fun m => !(mkManager [mkDescriptor "base" v100 [],
          mkDescriptor "viz" v100 [("base", v100)]]
          [{ identifier := "base" }, { identifier := "viz" }]).isProtected
            m.identifier)).reverse.map (fun m => Event.moduleDestroyed m.identifier) =
      e1 ++ Event.moduleDestroyed "viz" :: e2 ++ Event.moduleDestroyed "base" :: e3 :=
  (C11_reverse_teardown_order id
    (mkManager [mkDescriptor "base" v100 [], mkDescriptor "viz" v100 [("base", v100)]]
      [{ identifier := "base" }, { identifier := "viz" }])).2
    { identifier := "viz" } { identifier := "base" } [] [] [] rfl (by decide) (by decide)

/-! ## Descriptors are only added -/

/-- C20: when the dependency graph of the known descriptors followed by the batch is
acyclic, `registerModules` returns (from some fuel on) and its descriptor list is a
permutation of the previous list followed by the batch, which holds for every result it
returns at any fuel; every loop body and every cascading deregistration leaves the
descriptor list exactly as it was, whatever the fate of the descriptor being processed. -/
theorem C20_descriptors_added_only (buildVersion : Version) (mm : ModuleManager)
    (mfo : List InviwoModuleFactoryObject) (hac : Acyclic (mm.factoryObjects_ ++ mfo)) :
    (∃ mm', Converges (fun fuel => mm.registerModules buildVersion fuel mfo) mm' ∧
      mm'.factoryObjects_.Perm (mm.factoryObjects_ ++ mfo)) ∧
    (∀ fuel mm', mm.registerModules buildVersion fuel mfo = some mm' →
      mm'.factoryObjects_.Perm (mm.factoryObjects_ ++ mfo)) ∧
    (∀ fuel (m m' : ModuleManager) (obj : InviwoModuleFactoryObject),
      m.registerModulesStep buildVersion fuel obj = some m' →
      m'.factoryObjects_ = m.factoryObjects_) ∧
    (∀ fuel (m m' : ModuleManager) (toDeregister deregistered : List String),
      m.deregisterDependetModules fuel toDeregister = some (m', deregistered) →
      m'.factoryObjects_ = m.factoryObjects_) := by
  obtain ⟨sorted, hcs, hperm, -⟩ := topologicalModuleFactoryObjectSort_spec hac
  have hret : ∀ fuel mm', mm.registerModules buildVersion fuel mfo = some mm' →
      mm'.factoryObjects_.Perm (mm.factoryObjects_ ++ mfo) := by
    intro fuel mm' h
    have hs := ModuleManager.registerModules_factoryObjects _ _ _ _ _ h
    have := Converges.eq_of_mono
      (fun f f' x hle hx => topologicalModuleFactoryObjectSort_mono _ f f' hle x hx) hcs hs
    rw [this]
    exact hperm
  refine ⟨?_, hret, ?_, ?_⟩
  · obtain ⟨sorted', mm', -, hc, -, -⟩ :=
      ModuleManager.registerModules_invariant buildVersion mm mfo hac (fun _ _ _ => True)
        (fun _ _ => trivial) (fun _ _ _ _ _ _ _ _ _ _ _ => trivial)
    obtain ⟨f0, h0⟩ := hc
    exact ⟨_, ⟨f0, h0⟩, hret f0 _ (h0 f0 (le_refl _))⟩
  · intro fuel m m' obj h
    exact (ModuleManager.registerModulesStep_frame buildVersion fuel m m' obj h).1
  · intro fuel m m' toDeregister deregistered h
    exact (ModuleManager.deregisterDependetModules_frame m m' fuel toDeregister deregistered h).1

/-- C20 at a concrete input: a batch with a rejected descriptor and a failing one. -/
theorem C20_descriptors_added_only_witness :
    ∃ mm', Converges (fun fuel => (mkManager [mkDescriptor "base" v100 []]
        [{ identifier := "base" }]).registerModules v100 fuel
        [mkDescriptor "viz" v200 [("base", v100)], mkFailing "a" [] ["base"]]) mm' ∧
      mm'.factoryObjects_.Perm ((mkManager [mkDescriptor "base" v100 []]
        [{ identifier := "base" }]).factoryObjects_ ++
        [mkDescriptor "viz" v200 [("base", v100)], mkFailing "a" [] ["base"]]) :=
  (C20_descriptors_added_only v100 (mkManager [mkDescriptor "base" v100 []]
    [{ identifier := "base" }])
    [mkDescriptor "viz" v200 [("base", v100)], mkFailing "a" [] ["base"]]
    (acyclic_of_rank _ (fun d => d.dependencies.length) (by decide))).1

/-! ## Protected modules -/

/-- A loop body keeps a live module unless its construction failure names the module or a
name the module depends on. -/
theorem ModuleManager.registerModulesStep_keeps_module (buildVersion : Version)
    (x : InviwoModuleFactoryObject) (mm mm' : ModuleManager) (m : InviwoModule)
    (hnodereg : ∀ toDeregister, x.create = CreateResult.moduleInitException toDeregister →
      ∀ n ∈ toDeregister, iCaseCmp n m.identifier = false ∧
        ¬ DependsOnName mm.factoryObjects_ m.identifier n)
    (hm : m ∈ mm.modules_) (hpost : RegisterStepPost buildVersion mm x mm') :
    m ∈ mm'.modules_ := by
  obtain ⟨-, -, -, hcase⟩ := hpost
  rcases hcase with ⟨-, he, -⟩ | ⟨-, -, he, -⟩ | ⟨-, -, mx, -, he, -⟩ |
    ⟨-, -, -, he, -⟩ | ⟨-, -, names, set, hcr, hspec, he, -⟩
  · rw [he]; exact hm
  · rw [he]; exact hm
  · rw [he]; exact List.mem_append_left _ hm
  · rw [he]; exact hm
  · rw [he, List.mem_filter]
    refine ⟨hm, ?_⟩
    by_contra hcount
    have hcount' : set.count m.identifier ≠ 0 := by
      intro h0
      apply hcount
      simp [h0]
    obtain ⟨n, hn, hcmp | hdep⟩ := hspec.1 _ hcount'
    · have := (hnodereg names hcr n hn).1
      rw [hcmp] at this
      cases this
    · exact (hnodereg names hcr n hn).2 hdep

/-- C12 (counterexample): `b` is protected and live; `a` depends on `b` and its
construction fails naming `b`. The `registerModules` pass removes the protected `b` from
the live module list. -/
theorem C12_protected_never_unloaded_counterexample :
    ((ModuleManager.init.addProtectedIdentifier "b").registerModules v100 2
        [mkDescriptor "b" v100 []]).map
      (fun mm => (mm.modules_, mm.isProtected "b")) =
      some ([{ identifier := "b" }], true) ∧
    (((ModuleManager.init.addProtectedIdentifier "b").registerModules v100 2
        [mkDescriptor "b" v100 []]).bind (fun mm =>
      (mm.registerModules v100 2 [mkFailing "a" [("b", v100)] ["b"]]).map
        (fun mm' => (mm'.modules_, mm'.isProtected "b")))) = some ([], true) := by
  decide

/-- C12 (amended): `unregisterModules` never removes a live module whose identifier is in
the protected set; a `registerModules` pass (on an acyclic graph) keeps every live module,
protected or not, unless a construction failure names it, or a name it depends on, for
deregistration; and the protected set is the same after either operation. -/
theorem C12_protected_never_unloaded_amended (buildVersion : Version)
    (strip : String → String) (mm : ModuleManager) (mfo : List InviwoModuleFactoryObject)
    (m : InviwoModule) (hm : m ∈ mm.modules_)
    (hac : Acyclic (mm.factoryObjects_ ++ mfo))
    (hnodereg : ∀ x ∈ mm.factoryObjects_ ++ mfo, ∀ toDeregister,
      x.create = CreateResult.moduleInitException toDeregister →
      ∀ n ∈ toDeregister, iCaseCmp n m.identifier = false ∧
        ¬ DependsOnName (mm.factoryObjects_ ++ mfo) m.identifier n) :
    (mm.isProtected m.identifier = true → m ∈ (mm.unregisterModules strip).modules_) ∧
    (mm.unregisterModules strip).protected_ = mm.protected_ ∧
    ∃ mm', Converges (fun fuel => mm.registerModules buildVersion fuel mfo) mm' ∧
      m ∈ mm'.modules_ ∧ mm'.protected_ = mm.protected_ := by
  refine ⟨?_, rfl, ?_⟩
  · intro hp
    rw [mm.unregisterModules_modules strip]
    exact List.mem_filter.mpr ⟨hm, hp⟩
  · obtain ⟨sorted, mm', hspec, hc, -, hI⟩ :=
      ModuleManager.registerModules_invariant buildVersion mm mfo hac
        (fun _ _ s => m ∈ s.modules_ ∧ s.protected_ = mm.protected_)
        (fun _ _ => ⟨hm, rfl⟩)
        (by
          intro sorted hspec pre x post s s' hs hfo hI hpost
          have hx : x ∈ mm.factoryObjects_ ++ mfo :=
            hspec.1.mem_iff.mp (by rw [hs]; simp)
          refine ⟨ModuleManager.registerModulesStep_keeps_module buildVersion x s s' m ?_ hI.1
            hpost, hpost.2.1.trans hI.2⟩
          intro names hcr n hn
          refine ⟨(hnodereg x hx names hcr n hn).1, fun hdep => ?_⟩
          exact (hnodereg x hx names hcr n hn).2
            (hdep.mono (fun a ha => hspec.1.mem_iff.mp (hfo ▸ ha))))
    exact ⟨_, hc, hI.1, hI.2⟩

/-- C12 (amended) at a concrete input: the protected `b` survives a pass in which `a`
fails naming another module. -/
theorem C12_protected_never_unloaded_amended_witness :
    ∃ mm', Converges (fun fuel =>
        ((mkManager [mkDescriptor "b" v100 []] [{ identifier := "b" }]).addProtectedIdentifier
          "b").registerModules v100 fuel [mkFailing "a" [("b", v100)] ["c"]]) mm' ∧
      ({ identifier := "b" } : InviwoModule) ∈ mm'.modules_ ∧
      mm'.protected_ = ((mkManager [mkDescriptor "b" v100 []]
        [{ identifier := "b" }]).addProtectedIdentifier "b").protected_ :=
  (C12_protected_never_unloaded_amended v100 id
    ((mkManager [mkDescriptor "b" v100 []] [{ identifier := "b" }]).addProtectedIdentifier "b")
    [mkFailing "a" [("b", v100)] ["c"]] { identifier := "b" } (by decide)
    (acyclic_of_rank _ (fun d => d.dependencies.length) (by decide))
    (by
      intro x hx names hcr n hn
      have hx' : x = mkDescriptor "b" v100 [] ∨ x = mkFailing "a" [("b", v100)] ["c"] := by
        simpa [mkManager, ModuleManager.addProtectedIdentifier] using hx
      rcases hx' with rfl | rfl
      · cases hcr
      · cases hcr
        rw [List.mem_singleton] at hn
        subst hn
        refine ⟨by decide, fun hdep => ?_⟩
        obtain ⟨item, hitem, hname, hne⟩ := hdep.exists_item
        have hitem' : item = mkDescriptor "b" v100 [] ∨
            item = mkFailing "a" [("b", v100)] ["c"] := by
          simpa [mkManager, ModuleManager.addProtectedIdentifier] using hitem
        rcases hitem' with rfl | rfl
        · exact hne rfl
        · revert hname
          decide)).2.2

/-! ## Late arrivals -/

/-- C14 (code evaluated at the failing input): `d` (version 2.0.0, depending on
`("b", 1.0.0)`) is registered first and rejected because `b` is not known. A later
`registerModules` call with the batch `b` (version 1.0.0) sorts `b` before `d` and
constructs `b`, but rejects `d` again with a version mismatch, because the loaded version
of `b` is compared with the version of `d` itself: only `b` is live. When `d` has version
1.0.0 as well, the same two calls leave `b` and `d` live in this order. -/
theorem C14_late_arrival_rejected :
    ((ModuleManager.init.registerModules v100 2 [mkDescriptor "d" v200 [("b", v100)]]).bind
      (fun m1 => (m1.registerModules v100 2 [mkDescriptor "b" v100 []]).map (fun m2 =>
        (m1.modules_, m2.factoryObjects_.map (fun mfo => mfo.name), m2.modules_,
          m2.checkDependenciesErr v100 (mkDescriptor "d" v200 [("b", v100)]))))) =
      some ([], ["b", "d"], [{ identifier := "b" }],
        [DependencyError.versionMismatch "b" v100 v100]) ∧
    ((ModuleManager.init.registerModules v100 2 [mkDescriptor "d" v100 [("b", v100)]]).bind
      (fun m1 => (m1.registerModules v100 2 [mkDescriptor "b" v100 []]).map (fun m2 =>
        (m1.modules_, m2.modules_)))) =
      some ([], [{ identifier := "b" }, { identifier := "d" }]) := by
  decide

/-! ## Enabled-modules filter and discovery filter -/

theorem getEnabledFilter_some (words : List String) (name : String) :
    getEnabledFilter (some words) name = words.contains name := rfl

/-- C19 (code evaluated at the failing input): without the file every name is accepted;
with the file, the entries are compared with the name by exact string equality, because
`std::for_each` discards the lower-cased copies and the name itself is never lower-cased:
the entry `basegl` does not enable the name `BaseGL`, the entry `BaseGL` does not enable
the name `basegl`, and only the identically spelled name is accepted. -/
theorem C19_enabled_filter_case_sensitive :
    (∀ name, getEnabledFilter none name = true) ∧
    (∀ words name, getEnabledFilter (some words) name = true ↔ name ∈ words) ∧
    getEnabledFilter (some ["basegl"]) "BaseGL" = false ∧
    getEnabledFilter (some ["BaseGL"]) "basegl" = false ∧
    getEnabledFilter (some ["BaseGL"]) "BaseGL" = true := by
  refine ⟨fun _ => rfl, ?_, by decide, by decide, by decide⟩
  intro words name
  rw [getEnabledFilter_some]
  simp

theorem libraryFilter_mem (libraryTypes : List String) (equivalent : String → String → Bool)
    (strip : String → String) (isEnabled : String → Bool)
    (sharedLibraries_ : List SharedLibrary) (libraryFiles : List String) (file : String) :
    file ∈ libraryFilter libraryTypes equivalent strip isEnabled sharedLibraries_ libraryFiles ↔
      file ∈ libraryFiles ∧ pathExtension file ∈ libraryTypes ∧
      (stringFind file "inviwo-module" = true ∨ stringFind file "inviwo-core" = true) ∧
      (∀ lib ∈ sharedLibraries_, equivalent lib.filePath file = false) ∧
      isEnabled (strip file) = true := by
  unfold libraryFilter
  simp only [List.mem_filter]
  constructor
  · rintro ⟨hf, h⟩
    simp at h
    exact ⟨hf, h.1.1.1, by tauto, h.1.2, h.2⟩
  · rintro ⟨hf, h1, h2, h3, h4⟩
    refine ⟨hf, ?_⟩
    simp
    exact ⟨⟨⟨h1, by tauto⟩, h3⟩, h4⟩

/-- C18 (code evaluated at the failing input): a file is kept exactly when its extension
is a library type, its whole path string contains one of the two markers, it is equivalent
to no loaded library and the enable predicate accepts its stripped name. The file
`/opt/inviwo-module-sdk/libz.so`, whose filename `libz.so` contains neither marker, is
kept because its directory name contains `inviwo-module`. -/
theorem C18_filter_tests_whole_path :
    (∀ (libraryTypes : List String) (equivalent : String → String → Bool)
      (strip : String → String) (isEnabled : String → Bool)
      (sharedLibraries_ : List SharedLibrary) (libraryFiles : List String) (file : String),
      file ∈ libraryFilter libraryTypes equivalent strip isEnabled sharedLibraries_
          libraryFiles ↔
        file ∈ libraryFiles ∧ pathExtension file ∈ libraryTypes ∧
        (stringFind file "inviwo-module" = true ∨ stringFind file "inviwo-core" = true) ∧
        (∀ lib ∈ sharedLibraries_, equivalent lib.filePath file = false) ∧
        isEnabled (strip file) = true) ∧
    libraryFilter [".so", ".dll"] (fun a b => a == b) pathFilename (fun _ => true)
        [{ filePath := "/opt/lib/libinviwo-module-base.so" }]
        ["/opt/inviwo-module-sdk/libz.so", "/opt/lib/libinviwo-module-base.so",
         "/opt/lib/libinviwo-module-gl.so", "/opt/lib/libz.so", "/opt/lib/inviwo-core.txt"] =
      ["/opt/inviwo-module-sdk/libz.so", "/opt/lib/libinviwo-module-gl.so"] ∧
    pathFilename "/opt/inviwo-module-sdk/libz.so" = "libz.so" ∧
    stringFind (pathFilename "/opt/inviwo-module-sdk/libz.so") "inviwo-module" = false ∧
    stringFind (pathFilename "/opt/inviwo-module-sdk/libz.so") "inviwo-core" = false := by
  refine ⟨libraryFilter_mem, by decide, by decide, by decide, by decide⟩

/-! ## `getProtectedDependencies` -/

theorem Acyclic.of_subset {objs objs' : List InviwoModuleFactoryObject} (hac : Acyclic objs)
    (h : ∀ a ∈ objs', a ∈ objs) : Acyclic objs' := by
  intro a ha
  apply hac a
  refine Relation.TransGen.mono ?_ ha
  intro x y hxy
  exact ⟨h x hxy.1, h y hxy.2.1, hxy.2.2⟩

theorem getDeps_succ (modules : List InviwoModuleFactoryObject) (fuel : Nat) (module : String)
    (dependencies : IdSet) :
    getDeps modules (fuel + 1) module dependencies =
      match modules.find? (fun m => iCaseCmp m.name module) with
      | some m =>
        m.dependencies.foldlM (fun (deps : IdSet) (dep : String × Version) =>
          getDeps modules fuel dep.1 (deps.insert dep.1)) dependencies
      | none => some dependencies := by
  rfl

theorem iCaseCmp_congr_right {a b : String} (h : iCaseCmp a b = true) (c : String) :
    iCaseCmp c a = iCaseCmp c b := by
  rw [iCaseCmp_iff] at h
  unfold iCaseCmp
  rw [h]

theorem BatchEdge.congr_left {modules : List InviwoModuleFactoryObject} {n n' k : String}
    (h : BatchEdge modules n k) (hn : iCaseCmp n n' = true) : BatchEdge modules n' k := by
  obtain ⟨m, hm, dep, hdep, hk⟩ := h
  refine ⟨m, ?_, dep, hdep, hk⟩
  have : (fun d : InviwoModuleFactoryObject => iCaseCmp d.name n') =
      (fun d => iCaseCmp d.name n) := by
    funext d
    exact (iCaseCmp_congr_right hn d.name).symm
  rw [this]
  exact hm

theorem BatchEdge.transGen_congr_left {modules : List InviwoModuleFactoryObject}
    {n n' k : String} (h : Relation.TransGen (BatchEdge modules) n k)
    (hn : iCaseCmp n n' = true) : Relation.TransGen (BatchEdge modules) n' k := by
  induction h using Relation.TransGen.head_induction_on with
  | base h => exact Relation.TransGen.single (h.congr_left hn)
  | ih h1 h2 _ => exact Relation.TransGen.head (h1.congr_left hn) h2

/-- A name that finds no descriptor in the batch: `getDeps` returns its argument. -/
theorem getDepsSpec_of_find_none (modules : List InviwoModuleFactoryObject) (n : String)
    (h : modules.find? (fun d => iCaseCmp d.name n) = none) : GetDepsSpec modules n := by
  intro deps
  refine ⟨deps, Converges.shift ⟨0, fun fuel _ => ?_⟩, ?_⟩
  · show getDeps modules (fuel + 1) n deps = some deps
    rw [getDeps_succ, h]
  · intro x
    constructor
    · exact Or.inl
    · rintro (hx | ⟨k, hk, -⟩)
      · exact hx
      · exfalso
        induction hk using Relation.TransGen.head_induction_on with
        | base hb =>
          obtain ⟨m, hm, -⟩ := hb
          rw [h] at hm
          cases hm
        | ih hb _ _ =>
          obtain ⟨m, hm, -⟩ := hb
          rw [h] at hm
          cases hm

/-- The loop of `getDeps` over dependency entries whose names all satisfy the
specification. -/
theorem getDeps_fold_spec (modules : List InviwoModuleFactoryObject)
    (ds : List (String × Version)) (hds : ∀ dep ∈ ds, GetDepsSpec modules dep.1) :
    ∀ deps : IdSet, ∃ r,
      Converges (fun fuel => ds.foldlM (fun (deps : IdSet) (dep : String × Version) =>
        getDeps modules fuel dep.1 (deps.insert dep.1)) deps) r ∧
      ∀ x, r.count x ≠ 0 ↔ deps.count x ≠ 0 ∨ ∃ dep ∈ ds, iCaseCmp dep.1 x = true ∨
        ∃ k, Relation.TransGen (BatchEdge modules) dep.1 k ∧ iCaseCmp k x = true := by
  induction ds with
  | nil =>
    intro deps
    exact ⟨deps, ⟨0, fun _ _ => rfl⟩, by simp⟩
  | cons d ds ih =>
    intro deps
    obtain ⟨r1, hc1, hr1⟩ := hds d (List.mem_cons_self _ _) (deps.insert d.1)
    obtain ⟨r2, hc2, hr2⟩ := ih (fun dep hdep => hds dep (List.mem_cons_of_mem _ hdep)) r1
    refine ⟨r2, ?_, ?_⟩
    · have := Converges.bind (k := fun fuel acc =>
        ds.foldlM (fun (deps : IdSet) (dep : String × Version) =>
          getDeps modules fuel dep.1 (deps.insert dep.1)) acc) hc1 hc2
      refine Converges.congr (fun fuel => ?_) this
      rw [List.foldlM_cons]
      rfl
    · intro x
      rw [hr2 x, hr1 x, IdSet.count_insert_ne_zero]
      simp only [List.mem_cons, exists_eq_or_imp]
      constructor
      · rintro (((h | h) | h) | h)
        · exact Or.inl h
        · exact Or.inr (Or.inl (Or.inl h))
        · exact Or.inr (Or.inl (Or.inr h))
        · exact Or.inr (Or.inr h)
      · rintro (h | (h | h) | h)
        · exact Or.inl (Or.inl (Or.inl h))
        · exact Or.inl (Or.inl (Or.inr h))
        · exact Or.inl (Or.inr h)
        · exact Or.inr h

/-- On an acyclic batch `getDeps` satisfies its specification for every name. -/
theorem getDepsSpec_of_acyclic {modules : List InviwoModuleFactoryObject}
    (hac : Acyclic modules) (n : String) : GetDepsSpec modules n := by
  have hitems : ∀ a ∈ modules, ∀ n,
      modules.find? (fun d => iCaseCmp d.name n) = some a → GetDepsSpec modules n := by
    refine hac.induction_dependencies _ ?_
    intro a ha ih n hn
    have hdeps : ∀ dep ∈ a.dependencies, GetDepsSpec modules dep.1 := by
      intro dep hdep
      cases hfind : modules.find? (fun d => iCaseCmp d.name dep.1) with
      | none => exact getDepsSpec_of_find_none modules dep.1 hfind
      | some b =>
        refine ih b (List.mem_of_find?_eq_some hfind) ?_ dep.1 hfind
        unfold InviwoModuleFactoryObject.dependsOn
        rw [List.any_eq_true]
        have hb : (fun d : InviwoModuleFactoryObject => iCaseCmp d.name dep.1) b = true :=
          List.find?_some (p := fun d : InviwoModuleFactoryObject => iCaseCmp d.name dep.1) hfind
        exact ⟨dep, hdep, hb⟩
    intro deps
    obtain ⟨r, hc, hr⟩ := getDeps_fold_spec modules a.dependencies hdeps deps
    refine ⟨r, Converges.shift (Converges.congr (fun fuel => ?_) hc), ?_⟩
    · rw [getDeps_succ, hn]
    · intro x
      rw [hr x]
      constructor
      · rintro (hx | ⟨dep, hdep, hx | ⟨k, hk, hx⟩⟩)
        · exact Or.inl hx
        · exact Or.inr ⟨dep.1, Relation.TransGen.single ⟨a, hn, dep, hdep, rfl⟩, hx⟩
        · exact Or.inr ⟨k, Relation.TransGen.head ⟨a, hn, dep, hdep, rfl⟩ hk, hx⟩
      · rintro (hx | ⟨k, hk, hx⟩)
        · exact Or.inl hx
        · right
          rcases Relation.TransGen.head'_iff.mp hk with ⟨j, ⟨m, hm, dep, hdep, hj⟩, hjk⟩
          rw [hn] at hm
          cases hm
          subst hj
          rcases Relation.reflTransGen_iff_eq_or_transGen.mp hjk with heq | htrans
          · exact ⟨dep, hdep, Or.inl (by rw [← heq]; exact hx)⟩
          · exact ⟨dep, hdep, Or.inr ⟨k, htrans, hx⟩⟩
  cases hfind : modules.find? (fun d => iCaseCmp d.name n) with
  | none => exact getDepsSpec_of_find_none modules n hfind
  | some a => exact hitems a (List.mem_of_find?_eq_some hfind) n hfind

/-- On an acyclic batch `getProtectedDependencies` returns (from some fuel on) the set of
the names reachable from a protected key along `BatchEdge`, up to case. -/
theorem getProtectedDependencies_spec {modules : List InviwoModuleFactoryObject}
    (hac : Acyclic modules) (ptotectedIds : IdSet) :
    ∃ r, Converges (fun fuel => getProtectedDependencies fuel ptotectedIds modules) r ∧
      ∀ x, r.count x ≠ 0 ↔ ∃ p ∈ ptotectedIds.ids, ∃ k,
        Relation.TransGen (BatchEdge modules) p k ∧ iCaseCmp k x = true := by
  have hfold : ∀ (ps : List String) (deps : IdSet), ∃ r,
      Converges (fun fuel => ps.foldlM (fun (deps : IdSet) (module : String) =>
        getDeps modules fuel module deps) deps) r ∧
      ∀ x, r.count x ≠ 0 ↔ deps.count x ≠ 0 ∨ ∃ p ∈ ps, ∃ k,
        Relation.TransGen (BatchEdge modules) p k ∧ iCaseCmp k x = true := by
    intro ps
    induction ps with
    | nil =>
      intro deps
      exact ⟨deps, ⟨0, fun _ _ => rfl⟩, by simp⟩
    | cons p ps ih =>
      intro deps
      obtain ⟨r1, hc1, hr1⟩ := getDepsSpec_of_acyclic hac p deps
      obtain ⟨r2, hc2, hr2⟩ := ih r1
      refine ⟨r2, ?_, ?_⟩
      · have := Converges.bind (k := fun fuel acc =>
          ps.foldlM (fun (deps : IdSet) (module : String) =>
            getDeps modules fuel module deps) acc) hc1 hc2
        refine Converges.congr (fun fuel => ?_) this
        rw [List.foldlM_cons]
        rfl
      · intro x
        rw [hr2 x, hr1 x]
        simp only [List.mem_cons, exists_eq_or_imp]
        constructor
        · rintro ((h | h) | h)
          · exact Or.inl h
          · exact Or.inr (Or.inl h)
          · exact Or.inr (Or.inr h)
        · rintro (h | h | h)
          · exact Or.inl (Or.inl h)
          · exact Or.inl (Or.inr h)
          · exact Or.inr h
  obtain ⟨r, hc, hr⟩ := hfold ptotectedIds.ids IdSet.empty
  refine ⟨r, hc, fun x => ?_⟩
  rw [hr x]
  constructor
  · rintro (h | h)
    · exact absurd (IdSet.count_empty x) h
    · exact h
  · exact Or.inr

/-! ## The library loading loop -/

theorem ModuleManager.loadLibrary_fold (files : List LibraryFile) :
    ∀ (mm : ModuleManager) (acc : List InviwoModuleFactoryObject),
      (files.foldl ModuleManager.loadLibrary (mm, acc)).2 = acc ++ discoveredModules files ∧
      (files.foldl ModuleManager.loadLibrary (mm, acc)).1.modules_ = mm.modules_ ∧
      (files.foldl ModuleManager.loadLibrary (mm, acc)).1.factoryObjects_ =
        mm.factoryObjects_ ∧
      (files.foldl ModuleManager.loadLibrary (mm, acc)).1.events = mm.events ∧
      (files.foldl ModuleManager.loadLibrary (mm, acc)).1.sharedLibraries_ =
        mm.sharedLibraries_ ++ discoveredLibraries files ∧
      ∀ x, (files.foldl ModuleManager.loadLibrary (mm, acc)).1.protected_.count x ≠ 0 ↔
        mm.protected_.count x ≠ 0 ∨ ∃ f ∈ files, ∃ mfo,
          f.moduleFunc = ModuleFunc.factoryObject mfo ∧
          (mfo.protectedModule = true ∨ f.loaded = true) ∧ iCaseCmp mfo.name x = true := by
  induction files with
  | nil =>
    intro mm acc
    simp [discoveredModules, discoveredLibraries]
  | cons f fs ih =>
    intro mm acc
    rw [List.foldl_cons]
    cases hf : f.moduleFunc with
    | loadException =>
      have hstep : ModuleManager.loadLibrary (mm, acc) f = (mm, acc) := by
        simp [ModuleManager.loadLibrary, hf]
      rw [hstep]
      obtain ⟨h1, h2, h3, h4, h5, h6⟩ := ih mm acc
      refine ⟨?_, h2, h3, h4, ?_, ?_⟩
      · rw [h1]; simp [discoveredModules, hf]
      · rw [h5]; simp [discoveredLibraries, hf]
      · intro x
        rw [h6 x]
        simp [hf]
    | noCreateModule =>
      have hstep : ModuleManager.loadLibrary (mm, acc) f = (mm, acc) := by
        simp [ModuleManager.loadLibrary, hf]
      rw [hstep]
      obtain ⟨h1, h2, h3, h4, h5, h6⟩ := ih mm acc
      refine ⟨?_, h2, h3, h4, ?_, ?_⟩
      · rw [h1]; simp [discoveredModules, hf]
      · rw [h5]; simp [discoveredLibraries, hf]
      · intro x
        rw [h6 x]
        simp [hf]
    | factoryObject mfo =>
      have hstep : ModuleManager.loadLibrary (mm, acc) f =
          ({ mm with
              protected_ :=
                if mfo.protectedModule || f.loaded then mm.protected_.insert mfo.name
                else mm.protected_
              sharedLibraries_ := mm.sharedLibraries_ ++
                [{ filePath := if f.loaded then f.filePath else f.tmpPath }] },
           acc ++ [mfo]) := by
        simp [ModuleManager.loadLibrary, hf]
      rw [hstep]
      obtain ⟨h1, h2, h3, h4, h5, h6⟩ := ih _ (acc ++ [mfo])
      refine ⟨?_, h2, h3, h4, ?_, ?_⟩
      · rw [h1]; simp [discoveredModules, hf]
      · rw [h5]; simp [discoveredLibraries, hf]
      · intro x
        rw [h6 x]
        simp only [List.mem_cons, exists_eq_or_imp, hf, ModuleFunc.factoryObject.injEq,
          exists_eq_left']
        by_cases hp : (mfo.protectedModule || f.loaded) = true
        · have hp' : mfo.protectedModule = true ∨ f.loaded = true := by simpa using hp
          simp only [hp, if_true, IdSet.count_insert_ne_zero]
          constructor
          · rintro ((h | h) | h)
            · exact Or.inl h
            · exact Or.inr (Or.inl ⟨hp', h⟩)
            · exact Or.inr (Or.inr h)
          · rintro (h | ⟨-, h⟩ | h)
            · exact Or.inl (Or.inl h)
            · exact Or.inl (Or.inr h)
            · exact Or.inr h
        · have hp' : ¬(mfo.protectedModule = true ∨ f.loaded = true) := by simpa using hp
          simp only [hp]
          constructor
          · rintro (h | h)
            · exact Or.inl h
            · exact Or.inr (Or.inr h)
          · rintro (h | ⟨h, -⟩ | h)
            · exact Or.inl h
            · exact absurd h hp'
            · exact Or.inr h

/-! ## Discovery and the protected set -/

theorem ModuleManager.registerModules_frame (buildVersion : Version) (fuel : Nat)
    (mm mm' : ModuleManager) (mfo : List InviwoModuleFactoryObject)
    (h : mm.registerModules buildVersion fuel mfo = some mm') :
    mm'.protected_ = mm.protected_ ∧ mm'.sharedLibraries_ = mm.sharedLibraries_ := by
  unfold ModuleManager.registerModules at h
  obtain ⟨sorted, -, h1⟩ := Option.bind_eq_some.mp h
  obtain ⟨m1, hm1, h2⟩ := Option.bind_eq_some.mp h1
  cases h2
  obtain ⟨-, a2, a3⟩ := ModuleManager.registerModulesLoop_frame _ _ _ _ _ hm1
  exact ⟨a2, a3⟩

theorem ModuleManager.registerModules_converges (buildVersion : Version) (mm : ModuleManager)
    (mfo : List InviwoModuleFactoryObject) (hac : Acyclic (mm.factoryObjects_ ++ mfo)) :
    ∃ mm', Converges (fun fuel => mm.registerModules buildVersion fuel mfo) mm' := by
  obtain ⟨-, mm', -, hc, -, -⟩ :=
    ModuleManager.registerModules_invariant buildVersion mm mfo hac (fun _ _ _ => True)
      (fun _ _ => trivial) (fun _ _ _ _ _ _ _ _ _ _ _ => trivial)
  exact ⟨_, hc⟩

/-- A discovery pass on an acyclic graph returns from some fuel on; it leaves the live
modules to `registerModules`, appends the opened libraries, and protects exactly the names
protected before, the flagged or resident descriptors of the batch, and what
`getProtectedDependencies` reaches from those through descriptors of the batch. -/
theorem ModuleManager.registerModulesRuntimeModuleLoading_spec (buildVersion : Version)
    (mm : ModuleManager) (files : List LibraryFile)
    (hac : Acyclic (mm.factoryObjects_ ++ discoveredModules files)) :
    ∃ mm', Converges
        (fun fuel => mm.registerModulesRuntimeModuleLoading buildVersion fuel files) mm' ∧
      mm'.sharedLibraries_ = mm.sharedLibraries_ ++ discoveredLibraries files ∧
      ∀ x, mm'.protected_.count x ≠ 0 ↔
        (mm.protected_.count x ≠ 0 ∨ ∃ f ∈ files, ∃ mfo,
          f.moduleFunc = ModuleFunc.factoryObject mfo ∧
          (mfo.protectedModule = true ∨ f.loaded = true) ∧ iCaseCmp mfo.name x = true) ∨
        ∃ p, (mm.protected_.count p ≠ 0 ∨ ∃ f ∈ files, ∃ mfo,
          f.moduleFunc = ModuleFunc.factoryObject mfo ∧
          (mfo.protectedModule = true ∨ f.loaded = true) ∧ iCaseCmp mfo.name p = true) ∧
          ∃ k, Relation.TransGen (BatchEdge (discoveredModules files)) p k ∧
            iCaseCmp k x = true := by
  obtain ⟨h1, h2, h3, h4, h5, h6⟩ := ModuleManager.loadLibrary_fold files mm []
  rw [List.nil_append] at h1
  have hacb : Acyclic (discoveredModules files) :=
    hac.of_subset (fun a ha => List.mem_append_right _ ha)
  obtain ⟨deps, hcd, hdeps⟩ := getProtectedDependencies_spec hacb
    (files.foldl ModuleManager.loadLibrary (mm, [])).1.protected_
  obtain ⟨mm', hc⟩ := ModuleManager.registerModules_converges buildVersion
    ({ (files.foldl ModuleManager.loadLibrary (mm, [])).1 with
        protected_ := (files.foldl ModuleManager.loadLibrary (mm, [])).1.protected_.insertAll
          deps.ids } : ModuleManager) (discoveredModules files)
    (by rw [show ({ (files.foldl ModuleManager.loadLibrary (mm, [])).1 with
        protected_ := (files.foldl ModuleManager.loadLibrary (mm, [])).1.protected_.insertAll
          deps.ids } : ModuleManager).factoryObjects_ = mm.factoryObjects_ from h3]
        exact hac)
  have hconv : Converges
      (fun fuel => mm.registerModulesRuntimeModuleLoading buildVersion fuel files) mm' := by
    have hcd' : Converges (fun fuel => getProtectedDependencies fuel
        (files.foldl ModuleManager.loadLibrary (mm, [])).1.protected_
        (files.foldl ModuleManager.loadLibrary (mm, [])).2) deps := by
      rw [h1]; exact hcd
    have hb := Converges.bind (k := fun fuel (dependencies : IdSet) =>
      ({ (files.foldl ModuleManager.loadLibrary (mm, [])).1 with
        protected_ := (files.foldl ModuleManager.loadLibrary (mm, [])).1.protected_.insertAll
          dependencies.ids } : ModuleManager).registerModules buildVersion fuel
        (files.foldl ModuleManager.loadLibrary (mm, [])).2) hcd'
      (by rw [h1]; exact hc)
    exact Converges.congr (fun fuel => rfl) hb
  obtain ⟨f0, hf0⟩ := hc
  obtain ⟨e1, e2⟩ := ModuleManager.registerModules_frame _ _ _ _ _ (hf0 f0 (le_refl _))
  refine ⟨mm', hconv, ?_, ?_⟩
  · rw [e2]; exact h5
  · intro x
    rw [e1]
    show ((files.foldl ModuleManager.loadLibrary (mm, [])).1.protected_.insertAll
      deps.ids).count x ≠ 0 ↔ _
    rw [IdSet.count_insertAll_ne_zero, h6 x]
    refine or_congr Iff.rfl ?_
    constructor
    · rintro ⟨key, hkey, hkx⟩
      have hcount : deps.count x ≠ 0 := (IdSet.count_ne_zero_iff _ _).mpr ⟨key, hkey, hkx⟩
      obtain ⟨p, hp, k, hpk, hkx'⟩ := (hdeps x).mp hcount
      refine ⟨p, (h6 p).mp ((IdSet.count_ne_zero_iff _ _).mpr ⟨p, hp, iCaseCmp_refl p⟩), k,
        hpk, hkx'⟩
    · rintro ⟨p, hp, k, hpk, hkx⟩
      obtain ⟨q, hq, hqp⟩ := (IdSet.count_ne_zero_iff _ _).mp ((h6 p).mpr hp)
      have hcount : deps.count x ≠ 0 :=
        (hdeps x).mpr ⟨q, hq, k, BatchEdge.transGen_congr_left hpk (iCaseCmp_symm hqp), hkx⟩
      exact (IdSet.count_ne_zero_iff _ _).mp hcount

/-! ## Closure of the protected set -/

/-- C13 (counterexample): a first discovery batch brings `y` (which depends on `z`) and
`z`, neither flagged; a second batch brings the protected `x`, which depends on `y`.
Afterwards `x` and `y` are protected and have known descriptors, `z` is a dependency of
`y`, and `z` is not protected. -/
theorem C13_protected_closure_counterexample :
    ((ModuleManager.init.registerModulesRuntimeModuleLoading v100 4
        [mkLibraryFile "y" false (mkDescriptor "y" v100 [("z", v100)]),
         mkLibraryFile "z" false (mkDescriptor "z" v100 [])]).bind (fun mm =>
      (mm.registerModulesRuntimeModuleLoading v100 4
        [mkLibraryFile "x" false (mkProtectedDescriptor "x" v100 [("y", v100)])]).map
        (fun mm' => (mm'.isProtected "x",
          (mm'.getFactoryObject "x").map (fun d => d.dependencies.map (fun dep => dep.1)),
          mm'.isProtected "y",
          (mm'.getFactoryObject "y").map (fun d => d.dependencies.map (fun dep => dep.1)),
          mm'.isProtected "z")))) =
      some (true, some ["y"], true, some ["z"], false) := by
  decide

/-- C13 (amended): a discovery pass on an acyclic graph returns from some fuel on; it
keeps every protected name protected, protects every flagged or already-resident
descriptor of the batch, and closes the protected set under the dependencies declared by
descriptors of that batch: when `X` is protected afterwards and `Y` is reached from `X`
through one or more dependency entries of descriptors discovered in this batch, `Y` is
protected afterwards. -/
theorem C13_protected_closure_amended (buildVersion : Version) (mm : ModuleManager)
    (files : List LibraryFile)
    (hac : Acyclic (mm.factoryObjects_ ++ discoveredModules files)) :
    ∃ mm', Converges
        (fun fuel => mm.registerModulesRuntimeModuleLoading buildVersion fuel files) mm' ∧
      (∀ x, mm.isProtected x = true → mm'.isProtected x = true) ∧
      (∀ f ∈ files, ∀ mfo, f.moduleFunc = ModuleFunc.factoryObject mfo →
        (mfo.protectedModule = true ∨ f.loaded = true) → mm'.isProtected mfo.name = true) ∧
      (∀ X Y, mm'.isProtected X = true →
        Relation.TransGen (BatchEdge (discoveredModules files)) X Y →
        mm'.isProtected Y = true) := by
  obtain ⟨mm', hc, -, hp⟩ :=
    ModuleManager.registerModulesRuntimeModuleLoading_spec buildVersion mm files hac
  have hiff : ∀ (s : ModuleManager) (x : String),
      s.isProtected x = true ↔ s.protected_.count x ≠ 0 := by
    intro s x
    simp [ModuleManager.isProtected]
  refine ⟨mm', hc, ?_, ?_, ?_⟩
  · intro x hx
    rw [hiff] at hx ⊢
    exact (hp x).mpr (Or.inl (Or.inl hx))
  · intro f hf mfo hmfo hflag
    rw [hiff]
    exact (hp _).mpr (Or.inl (Or.inr ⟨f, hf, mfo, hmfo, hflag, iCaseCmp_refl _⟩))
  · intro X Y hX hXY
    rw [hiff] at hX ⊢
    rcases (hp X).mp hX with hbase | ⟨p, hbase, k, hpk, hkX⟩
    · exact (hp Y).mpr (Or.inr ⟨X, hbase, Y, hXY, iCaseCmp_refl _⟩)
    · exact (hp Y).mpr (Or.inr ⟨p, hbase, Y,
        hpk.trans (BatchEdge.transGen_congr_left hXY (iCaseCmp_symm hkX)), iCaseCmp_refl _⟩)

/-- C13 (amended) at a concrete input: one batch brings the protected `x`, its dependency
`y` and the dependency `z` of `y`; afterwards `z` is protected. -/
theorem C13_protected_closure_amended_witness :
    ∃ mm', Converges (fun fuel => ModuleManager.init.registerModulesRuntimeModuleLoading v100
        fuel [mkLibraryFile "x" false (mkProtectedDescriptor "x" v100 [("y", v100)]),
          mkLibraryFile "y" false (mkDescriptor "y" v100 [("z", v100)]),
          mkLibraryFile "z" false (mkDescriptor "z" v100 [])]) mm' ∧
      mm'.isProtected "z" = true := by
  obtain ⟨mm', hc, -, hflag, hclosed⟩ := C13_protected_closure_amended v100 ModuleManager.init
    [mkLibraryFile "x" false (mkProtectedDescriptor "x" v100 [("y", v100)]),
      mkLibraryFile "y" false (mkDescriptor "y" v100 [("z", v100)]),
      mkLibraryFile "z" false (mkDescriptor "z" v100 [])]
    (acyclic_of_rank _
      (fun d => if d.name = "x" then 2 else if d.name = "y" then 1 else 0) (by decide))
  refine ⟨mm', hc, hclosed "x" "z" (hflag _ (List.mem_cons_self _ _) _ rfl (Or.inl rfl)) ?_⟩
  refine Relation.TransGen.tail (Relation.TransGen.single (b := "y") ?_) ?_
  · exact ⟨mkProtectedDescriptor "x" v100 [("y", v100)], by decide, ("y", v100),
      List.mem_cons_self _ _, rfl⟩
  · exact ⟨mkDescriptor "y" v100 [("z", v100)], by decide, ("z", v100),
      List.mem_cons_self _ _, rfl⟩

/-! ## Libraries and the modules they back -/

theorem ModuleManager.unregisterModules_sharedLibraries (strip : String → String)
    (mm : ModuleManager) :
    (mm.unregisterModules strip).sharedLibraries_ =
      mm.sharedLibraries_.filter (fun lib => mm.isProtected (strip lib.filePath)) := by
  simp [ModuleManager.unregisterModules, reverse_erase_if_eq]

/-- C17 (counterexample): discovery opens the library `foo`, whose descriptor is the
protected `bar`; the module `bar` is constructed. `unregisterModules` keeps the module
(its identifier is protected) and releases the library (its stripped file name is not). -/
theorem C17_library_outlives_modules_counterexample :
    (ModuleManager.init.registerModulesRuntimeModuleLoading v100 3
        [mkLibraryFile "foo" false (mkProtectedDescriptor "bar" v100 [])]).map
      (fun mm => (mm.modules_, mm.sharedLibraries_, (mm.unregisterModules id).modules_,
        (mm.unregisterModules id).sharedLibraries_,
        ((mm.unregisterModules id).events.drop mm.events.length))) =
      some ([{ identifier := "bar" }], [{ filePath := "foo" }], [{ identifier := "bar" }], [],
        [Event.modulesWillUnregister, Event.networkCleared, Event.libraryReleased "foo"]) := by
  decide

/-- C17 (amended): `unregisterModules` never releases a library whose stripped file name
equals, ignoring case, the identifier of a module that remains live; `registerModules`
leaves the library list as it was; and a discovery pass (on an acyclic graph, where it
returns from some fuel on) only appends the libraries it opened. -/
theorem C17_library_outlives_modules_amended (buildVersion : Version)
    (strip : String → String) (mm : ModuleManager) (files : List LibraryFile)
    (hac : Acyclic (mm.factoryObjects_ ++ discoveredModules files)) :
    (∀ lib ∈ mm.sharedLibraries_, ∀ m ∈ (mm.unregisterModules strip).modules_,
      iCaseCmp (strip lib.filePath) m.identifier = true →
      lib ∈ (mm.unregisterModules strip).sharedLibraries_) ∧
    (∀ fuel mfo mm', mm.registerModules buildVersion fuel mfo = some mm' →
      mm'.sharedLibraries_ = mm.sharedLibraries_) ∧
    (∃ mm', Converges
        (fun fuel => mm.registerModulesRuntimeModuleLoading buildVersion fuel files) mm' ∧
      mm'.sharedLibraries_ = mm.sharedLibraries_ ++ discoveredLibraries files) := by
  refine ⟨?_, ?_, ?_⟩
  · intro lib hlib m hm hcmp
    rw [ModuleManager.unregisterModules_modules] at hm
    rw [ModuleManager.unregisterModules_sharedLibraries]
    refine List.mem_filter.mpr ⟨hlib, ?_⟩
    have hp : mm.isProtected m.identifier = true := (List.mem_filter.mp hm).2
    have hp' : mm.protected_.count m.identifier ≠ 0 := by
      simpa [ModuleManager.isProtected] using hp
    have := IdSet.count_ne_zero_of_iCaseCmp _ hp' (iCaseCmp_symm hcmp)
    simpa [ModuleManager.isProtected] using this
  · intro fuel mfo mm' h
    exact (ModuleManager.registerModules_frame _ _ _ _ _ h).2
  · obtain ⟨mm', hc, hlibs, -⟩ :=
      ModuleManager.registerModulesRuntimeModuleLoading_spec buildVersion mm files hac
    exact ⟨mm', hc, hlibs⟩

/-- C17 (amended) at a concrete input: the library `bar` backs the protected module
`bar` and stays held across `unregisterModules`. -/
theorem C17_library_outlives_modules_amended_witness :
    ({ filePath := "bar" } : SharedLibrary) ∈
      (({ mkManager [mkProtectedDescriptor "bar" v100 []] [{ identifier := "bar" }] with
          protected_ := { ids := ["bar"] }, sharedLibraries_ := [{ filePath := "bar" }] } :
        ModuleManager).unregisterModules id).sharedLibraries_ :=
  (C17_library_outlives_modules_amended v100 id
    ({ mkManager [mkProtectedDescriptor "bar" v100 []] [{ identifier := "bar" }] with
        protected_ := { ids := ["bar"] }, sharedLibraries_ := [{ filePath := "bar" }] } :
      ModuleManager) []
    (acyclic_of_rank _ (fun d => d.dependencies.length) (by decide))).1
    { filePath := "bar" } (by decide) { identifier := "bar" } (by decide) (by decide)

/-! ## Batch isolation -/

theorem ModuleManager.registerModulesLoop_converges (buildVersion : Version)
    (fo : List InviwoModuleFactoryObject) (hac : Acyclic fo)
    (l : List InviwoModuleFactoryObject) (mm : ModuleManager) (hfo : mm.factoryObjects_ = fo) :
    ∃ mm', Converges (fun fuel =>
        l.foldlM (ModuleManager.registerModulesStep buildVersion fuel) mm) mm' ∧
      mm'.factoryObjects_ = fo := by
  obtain ⟨mm', hc, hfo', -⟩ := ModuleManager.registerModulesLoop_invariant buildVersion fo hac l
    (fun _ _ => True) (fun _ _ _ _ _ _ _ _ _ => trivial) mm hfo trivial
  exact ⟨mm', hc, hfo'⟩

theorem ModuleManager.registerModulesLoop_append (buildVersion : Version)
    (pre post : List InviwoModuleFactoryObject) (mm s last : ModuleManager)
    (h1 : Converges (fun fuel =>
      pre.foldlM (ModuleManager.registerModulesStep buildVersion fuel) mm) s)
    (h2 : Converges (fun fuel =>
      post.foldlM (ModuleManager.registerModulesStep buildVersion fuel) s) last) :
    Converges (fun fuel =>
      (pre ++ post).foldlM (ModuleManager.registerModulesStep buildVersion fuel) mm) last := by
  have := Converges.bind (k := fun fuel m =>
    post.foldlM (ModuleManager.registerModulesStep buildVersion fuel) m) h1 h2
  refine Converges.congr (fun fuel => ?_) this
  rw [List.foldlM_append]
  rfl

theorem ModuleManager.registerModulesLoop_cons (buildVersion : Version)
    (x : InviwoModuleFactoryObject) (post : List InviwoModuleFactoryObject)
    (s s' last : ModuleManager)
    (h1 : Converges (fun fuel => s.registerModulesStep buildVersion fuel x) s')
    (h2 : Converges (fun fuel =>
      post.foldlM (ModuleManager.registerModulesStep buildVersion fuel) s') last) :
    Converges (fun fuel =>
      (x :: post).foldlM (ModuleManager.registerModulesStep buildVersion fuel) s) last := by
  have := Converges.bind (k := fun fuel m =>
    post.foldlM (ModuleManager.registerModulesStep buildVersion fuel) m) h1 h2
  refine Converges.congr (fun fuel => ?_) this
  rw [List.foldlM_cons]
  rfl

/-- The run of `registerModules` on an acyclic graph, cut at any position of the sorted
list: the loop over the part before returns a state `s`, the loop body on the descriptor
at the position takes `s` to `s'` as `RegisterStepPost` describes, the loop over the part
after takes `s'` to the state in which the loop ends, and an invariant of the loop over
the part after holds there. -/
theorem ModuleManager.registerModules_split (buildVersion : Version) (mm : ModuleManager)
    (mfo : List InviwoModuleFactoryObject) (hac : Acyclic (mm.factoryObjects_ ++ mfo)) :
    ∃ sorted last,
      Converges (fun fuel =>
        topologicalModuleFactoryObjectSort fuel (mm.factoryObjects_ ++ mfo)) sorted ∧
      SortedSpec (mm.factoryObjects_ ++ mfo) sorted ∧
      Converges (fun fuel => mm.registerModules buildVersion fuel mfo)
        (last.emit Event.modulesDidRegister) ∧
      ∀ pre x post, sorted = pre ++ x :: post →
        ∃ s s', Converges (fun fuel =>
            pre.foldlM (ModuleManager.registerModulesStep buildVersion fuel)
              { mm with factoryObjects_ := sorted }) s ∧
          s.factoryObjects_ = sorted ∧
          Converges (fun fuel => s.registerModulesStep buildVersion fuel x) s' ∧
          RegisterStepPost buildVersion s x s' ∧
          Converges (fun fuel =>
            post.foldlM (ModuleManager.registerModulesStep buildVersion fuel) s') last ∧
          ∀ (I : List InviwoModuleFactoryObject → ModuleManager → Prop),
            (∀ pre' y post' m m', post = pre' ++ y :: post' → m.factoryObjects_ = sorted →
              I pre' m → RegisterStepPost buildVersion m y m' → I (pre' ++ [y]) m') →
            I [] s' → I post last := by
  obtain ⟨sorted, hcs, hperm, htopo⟩ := topologicalModuleFactoryObjectSort_spec hac
  have hspec : SortedSpec (mm.factoryObjects_ ++ mfo) sorted := ⟨hperm, htopo⟩
  have hac' : Acyclic sorted := hac.of_mem_iff (fun a => hperm.mem_iff)
  obtain ⟨last, hl, -⟩ := ModuleManager.registerModulesLoop_converges buildVersion sorted
    hac' sorted { mm with factoryObjects_ := sorted } rfl
  refine ⟨sorted, last, hcs, hspec, ?_, ?_⟩
  · have h1 := Converges.bind (k := fun fuel sorted =>
      (sorted.foldlM (ModuleManager.registerModulesStep buildVersion fuel)
        { mm with factoryObjects_ := sorted }).bind
        (fun mm' => some (mm'.emit Event.modulesDidRegister))) hcs
      (Converges.bind (k := fun _ mm' => some (mm'.emit Event.modulesDidRegister)) hl
        (Converges.pure _))
    exact Converges.congr (fun fuel => rfl) h1
  · intro pre x post hsplit
    obtain ⟨s, hs, hsfo⟩ := ModuleManager.registerModulesLoop_converges buildVersion sorted
      hac' pre { mm with factoryObjects_ := sorted } rfl
    obtain ⟨s', hs', hpost⟩ := s.registerModulesStep_spec buildVersion x (hsfo ▸ hac')
    have hs'fo : s'.factoryObjects_ = sorted := hpost.1.trans hsfo
    have hlast : ∀ last', Converges (fun fuel =>
        post.foldlM (ModuleManager.registerModulesStep buildVersion fuel) s') last' →
        last' = last := by
      intro last' h
      have h2 := ModuleManager.registerModulesLoop_append buildVersion pre (x :: post) _ s
        last' hs (ModuleManager.registerModulesLoop_cons buildVersion x post s s' last' hs' h)
      rw [← hsplit] at h2
      exact Converges.unique h2 hl
    obtain ⟨last1, hl1, -⟩ := ModuleManager.registerModulesLoop_converges buildVersion sorted
      hac' post s' hs'fo
    refine ⟨s, s', hs, hsfo, hs', hpost, hlast last1 hl1 ▸ hl1, ?_⟩
    intro I hstep h0
    obtain ⟨last2, hl2, -, hI⟩ := ModuleManager.registerModulesLoop_invariant buildVersion
      sorted hac' post I hstep s' hs'fo h0
    exact hlast last2 hl2 ▸ hI

/-- C15 (counterexample): the batch holds `b`, then `x` whose constructor throws a generic
exception, then `a` whose constructor throws a `ModuleInitException` naming `b`. The
descriptor `b` passes the version checker and is constructed, and it is not a live module
when `registerModules` returns. -/
theorem C15_batch_isolation_counterexample :
    ModuleManager.init.checkDependencies v100 (mkDescriptor "b" v100 []) = true ∧
    (mkDescriptor "b" v100 []).create = CreateResult.module { identifier := "b" } ∧
    (mkThrowing "x" []).create = CreateResult.exception ∧
    (ModuleManager.init.registerModules v100 3
        [mkDescriptor "b" v100 [], mkThrowing "x" [], mkFailing "a" [("b", v100)] ["b"]]).map
      (fun mm => (mm.modules_, mm.events)) =
      some ([],
        [Event.postProgress "b", Event.checkDependencies "b", Event.create "b",
         Event.postProgress "x", Event.checkDependencies "x", Event.create "x",
         Event.postProgress "a", Event.checkDependencies "a", Event.create "a",
         Event.moduleDestroyed "b", Event.modulesDidRegister]) := by
  decide

/-- C15 (amended): on an acyclic graph the sorter and `registerModules` return from some
fuel on, and at every position of the sorted list the loop body runs on the descriptor `x` found there
in the state `s` left by the descriptors before it, and the loop goes on over the
descriptors after it up to the state `last` in which it ends. When the constructor of `x`
fails with a generic exception, that loop body leaves the live module list as it was.
When `x` is not live in `s`, passes the version checker and its constructor returns the
module `m`, then `m` is a live module when `registerModules` returns, unless a
`ModuleInitException` of a later descriptor names the identifier of `m`, or a name that
identifier depends on, for deregistration. -/
theorem C15_batch_isolation_amended (buildVersion : Version) (mm : ModuleManager)
    (mfo : List InviwoModuleFactoryObject) (hac : Acyclic (mm.factoryObjects_ ++ mfo)) :
    ∃ sorted last,
      Converges (fun fuel =>
        topologicalModuleFactoryObjectSort fuel (mm.factoryObjects_ ++ mfo)) sorted ∧
      Converges (fun fuel => mm.registerModules buildVersion fuel mfo)
        (last.emit Event.modulesDidRegister) ∧
      ∀ pre x post, sorted = pre ++ x :: post →
        ∃ s s', Converges (fun fuel =>
            pre.foldlM (ModuleManager.registerModulesStep buildVersion fuel)
              { mm with factoryObjects_ := sorted }) s ∧
          Converges (fun fuel => s.registerModulesStep buildVersion fuel x) s' ∧
          Converges (fun fuel =>
            post.foldlM (ModuleManager.registerModulesStep buildVersion fuel) s') last ∧
          (x.create = CreateResult.exception → s'.modules_ = s.modules_) ∧
          ∀ m, s.getModuleByIdentifier x.name = none →
            s.checkDependencies buildVersion x = true → x.create = CreateResult.module m →
            (∀ y ∈ post, ∀ toDeregister,
              y.create = CreateResult.moduleInitException toDeregister →
              ∀ n ∈ toDeregister, iCaseCmp n m.identifier = false ∧
                ¬ DependsOnName sorted m.identifier n) →
            m ∈ (last.emit Event.modulesDidRegister).modules_ := by
  obtain ⟨sorted, last, hcs, -, hc, hsplit⟩ :=
    ModuleManager.registerModules_split buildVersion mm mfo hac
  refine ⟨sorted, last, hcs, hc, ?_⟩
  intro pre x post hs
  obtain ⟨s, s', h1, hsfo, h2, hpost, h3, hinv⟩ := hsplit pre x post hs
  refine ⟨s, s', h1, h2, h3, ?_, ?_⟩
  · intro hx
    obtain ⟨-, -, -, hcase⟩ := hpost
    rcases hcase with ⟨-, he, -⟩ | ⟨-, -, he, -⟩ | ⟨-, -, mx, hcr, -⟩ |
      ⟨-, -, -, he, -⟩ | ⟨-, -, names, set, hcr, -⟩
    · exact he
    · exact he
    · rw [hx] at hcr; cases hcr
    · exact he
    · rw [hx] at hcr; cases hcr
  · intro m hnone hcheck hcreate hnodereg
    have hm' : m ∈ s'.modules_ := by
      obtain ⟨-, -, -, hcase⟩ := hpost
      rcases hcase with ⟨hsome, -⟩ | ⟨-, hck, -⟩ | ⟨-, -, mx, hcr, he, -⟩ |
        ⟨-, -, hcr, -⟩ | ⟨-, -, names, set, hcr, -⟩
      · rw [hnone] at hsome; cases hsome
      · rw [hcheck] at hck; cases hck
      · rw [hcreate] at hcr
        cases hcr
        rw [he]
        exact List.mem_append_right _ (List.mem_singleton.mpr rfl)
      · rw [hcreate] at hcr; cases hcr
      · rw [hcreate] at hcr; cases hcr
    refine hinv (fun _ t => m ∈ t.modules_) ?_ hm'
    intro pre' y post' t t' hpost' htfo hI hstep
    refine ModuleManager.registerModulesStep_keeps_module buildVersion y t t' m ?_ hI hstep
    intro names hcr n hn
    rw [htfo]
    exact hnodereg y (by rw [hpost']; simp) names hcr n hn

/-- C15 (amended) at a concrete input: `b`, then the throwing `x`, then `a` failing with
a `ModuleInitException` that names `c`; the module `b` is live when `registerModules`
returns. -/
theorem C15_batch_isolation_amended_witness :
    ∃ last : ModuleManager, Converges (fun fuel => (mkManager [] []).registerModules v100 fuel
        [mkDescriptor "b" v100 [], mkThrowing "x" [], mkFailing "a" [("b", v100)] ["c"]])
        (last.emit Event.modulesDidRegister) ∧
      ({ identifier := "b" } : InviwoModule) ∈
        (last.emit Event.modulesDidRegister).modules_ := by
  obtain ⟨sorted, last, hcs, hc, hsplit⟩ := C15_batch_isolation_amended v100 (mkManager [] [])
    [mkDescriptor "b" v100 [], mkThrowing "x" [], mkFailing "a" [("b", v100)] ["c"]]
    (acyclic_of_rank _ (fun d => d.dependencies.length) (by decide))
  have hsorted : [mkDescriptor "b" v100 [], mkThrowing "x" [],
      mkFailing "a" [("b", v100)] ["c"]] = sorted :=
    Converges.eq_of_mono
      (fun f f' x hle hx => topologicalModuleFactoryObjectSort_mono _ f f' hle x hx) hcs
      (by decide : topologicalModuleFactoryObjectSort 3 ((mkManager [] []).factoryObjects_ ++
        [mkDescriptor "b" v100 [], mkThrowing "x" [], mkFailing "a" [("b", v100)] ["c"]]) =
        some [mkDescriptor "b" v100 [], mkThrowing "x" [],
          mkFailing "a" [("b", v100)] ["c"]])
  subst hsorted
  obtain ⟨s, s', h1, -, -, -, hlive⟩ := hsplit [] (mkDescriptor "b" v100 [])
    [mkThrowing "x" [], mkFailing "a" [("b", v100)] ["c"]] rfl
  have hs := Converges.unique h1 ⟨0, fun _ _ => rfl⟩
  subst hs
  refine ⟨last, hc, hlive { identifier := "b" } (by decide) (by decide) rfl ?_⟩
  intro y hy names hcr n hn
  have hy' : y = mkThrowing "x" [] ∨ y = mkFailing "a" [("b", v100)] ["c"] := by
    simpa using hy
  rcases hy' with rfl | rfl
  · cases hcr
  · cases hcr
    rw [List.mem_singleton] at hn
    subst hn
    refine ⟨by decide, fun hdep => ?_⟩
    obtain ⟨item, hitem, hname, hne⟩ := hdep.exists_item
    have hitem' : item = mkDescriptor "b" v100 [] ∨ item = mkThrowing "x" [] ∨
        item = mkFailing "a" [("b", v100)] ["c"] := by
      simpa using hitem
    rcases hitem' with rfl | rfl | rfl
    · exact hne rfl
    · exact hne rfl
    · revert hname
      decide

/-! ## Live module order -/

theorem NamesDistinct.eq_of_iCaseCmp {fo : List InviwoModuleFactoryObject}
    (h : NamesDistinct fo) {a b : InviwoModuleFactoryObject} (ha : a ∈ fo) (hb : b ∈ fo)
    (hab : iCaseCmp a.name b.name = true) : a = b := by
  by_contra hne
  have := List.Pairwise.forall (fun x y hxy => iCaseCmp_false_symm hxy) h ha hb hne
  rw [hab] at this
  cases this

theorem NamesDistinct.perm {fo fo' : List InviwoModuleFactoryObject} (h : NamesDistinct fo)
    (hp : fo'.Perm fo) : NamesDistinct fo' :=
  (hp.pairwise_iff (fun hxy => iCaseCmp_false_symm hxy)).mpr h

/-- A dependency entry the version checker accepts names a live module. -/
theorem ModuleManager.checkDependency_nil_live (mm : ModuleManager)
    (obj : InviwoModuleFactoryObject) (dep : String × Version)
    (h : mm.checkDependency obj dep = []) :
    ∃ B ∈ mm.modules_, iCaseCmp B.identifier dep.1 = true := by
  unfold ModuleManager.checkDependency at h
  cases hfo : mm.getFactoryObject dep.1 with
  | none => rw [hfo] at h; cases h
  | some depObj =>
    rw [hfo] at h
    simp only at h
    cases hm : mm.getModuleByIdentifier depObj.name with
    | none => rw [hm] at h; simp at h
    | some B =>
      have hB := List.find?_some (p := fun m : InviwoModule => iCaseCmp m.identifier depObj.name) hm
      have hBmem := List.mem_of_find?_eq_some hm
      have hd := List.find?_some
        (p := fun d : InviwoModuleFactoryObject => iCaseCmp d.name dep.1) hfo
      exact ⟨B, hBmem, iCaseCmp_trans hB hd⟩

theorem Declares.mono_descriptors {fo fo' : List InviwoModuleFactoryObject} {A B : InviwoModule}
    (h : Declares fo A B) (hsub : ∀ d ∈ fo, d ∈ fo') : Declares fo' A B := by
  obtain ⟨d, hd, h1, h2⟩ := h
  exact ⟨d, hsub d hd, h1, h2⟩

/-- The order invariant gives the live module order. -/
theorem ModuleManager.OrderInv.liveOrder {mm : ModuleManager} (h : mm.OrderInv) :
    mm.LiveOrder := by
  intro i j A B hA hB hdecl
  by_contra hji
  have hij : i ≤ j := Nat.le_of_not_lt hji
  rcases Nat.lt_or_eq_of_le hij with hlt | heq
  · have hp := List.pairwise_iff_getElem.mp h.2.2.2
    obtain ⟨hi, hAe⟩ := List.getElem?_eq_some_iff.mp hA
    obtain ⟨hj, hBe⟩ := List.getElem?_eq_some_iff.mp hB
    exact hp i j hi hj hlt (hAe ▸ hBe ▸ hdecl)
  · subst heq
    rw [hA] at hB
    cases hB
    exact h.2.2.1 A (List.getElem?_mem hA) hdecl

/-! ## Protected closure across `unregisterModules` -/

theorem ModuleManager.isProtected_congr (mm : ModuleManager) {a b : String}
    (hab : iCaseCmp a b = true) (ha : mm.isProtected a = true) : mm.isProtected b = true := by
  have ha' : mm.protected_.count a ≠ 0 := by simpa [ModuleManager.isProtected] using ha
  have := IdSet.count_ne_zero_of_iCaseCmp _ ha' hab
  simpa [ModuleManager.isProtected] using this

/-- C4 (amended): a discovery batch (on an acyclic graph, where the pass returns) is
loaded in which the name `p` is protected, because it was protected before or because its
descriptor in the batch is flagged protected or already resident, the descriptor of `p` in
the batch depends on `q`, and the descriptor of `q` in the batch depends on `r`. In the
state the pass returns, `unregisterModules` keeps every live module named `p`, `q` or `r`,
keeps every live module whose name is reached from a protected name along dependency
entries of the batch, and removes every live module whose identifier is not protected. -/
theorem C4_protected_closure_amended (buildVersion : Version) (strip : String → String)
    (mm : ModuleManager) (files : List LibraryFile)
    (hac : Acyclic (mm.factoryObjects_ ++ discoveredModules files)) (p q r : String)
    (hp : mm.isProtected p = true ∨ ∃ f ∈ files, ∃ mfo,
      f.moduleFunc = ModuleFunc.factoryObject mfo ∧
      (mfo.protectedModule = true ∨ f.loaded = true) ∧ iCaseCmp mfo.name p = true)
    (hpq : BatchEdge (discoveredModules files) p q)
    (hqr : BatchEdge (discoveredModules files) q r) :
    ∃ mm', Converges
        (fun fuel => mm.registerModulesRuntimeModuleLoading buildVersion fuel files) mm' ∧
      (∀ m ∈ mm'.modules_,
        (iCaseCmp p m.identifier = true ∨ iCaseCmp q m.identifier = true ∨
          iCaseCmp r m.identifier = true) →
        m ∈ (mm'.unregisterModules strip).modules_) ∧
      (∀ x y, mm'.isProtected x = true →
        Relation.TransGen (BatchEdge (discoveredModules files)) x y →
        ∀ m ∈ mm'.modules_, iCaseCmp y m.identifier = true →
          m ∈ (mm'.unregisterModules strip).modules_) ∧
      (∀ S ∈ mm'.modules_, mm'.isProtected S.identifier = false →
        (mm'.unregisterModules strip).getModuleByIdentifier S.identifier = none) := by
  obtain ⟨mm', hc, -, hprot⟩ :=
    ModuleManager.registerModulesRuntimeModuleLoading_spec buildVersion mm files hac
  have hiff : ∀ (s : ModuleManager) (x : String),
      s.isProtected x = true ↔ s.protected_.count x ≠ 0 := by
    intro s x
    simp [ModuleManager.isProtected]
  have hbase : mm.protected_.count p ≠ 0 ∨ ∃ f ∈ files, ∃ mfo,
      f.moduleFunc = ModuleFunc.factoryObject mfo ∧
      (mfo.protectedModule = true ∨ f.loaded = true) ∧ iCaseCmp mfo.name p = true := by
    rcases hp with hp | hp
    · exact Or.inl ((hiff mm p).mp hp)
    · exact Or.inr hp
  have hpp : mm'.isProtected p = true := (hiff mm' p).mpr ((hprot p).mpr (Or.inl hbase))
  have hclosed : ∀ x y, mm'.isProtected x = true →
      Relation.TransGen (BatchEdge (discoveredModules files)) x y →
      mm'.isProtected y = true := by
    intro x y hx hxy
    rw [hiff] at hx ⊢
    rcases (hprot x).mp hx with hb | ⟨p0, hb, k, hpk, hkx⟩
    · exact (hprot y).mpr (Or.inr ⟨x, hb, y, hxy, iCaseCmp_refl _⟩)
    · exact (hprot y).mpr (Or.inr ⟨p0, hb, y,
        hpk.trans (BatchEdge.transGen_congr_left hxy (iCaseCmp_symm hkx)), iCaseCmp_refl _⟩)
  have hqp : mm'.isProtected q = true := hclosed p q hpp (Relation.TransGen.single hpq)
  have hrp : mm'.isProtected r = true := hclosed q r hqp (Relation.TransGen.single hqr)
  have hkeep : ∀ (x : String) (m : InviwoModule), mm'.isProtected x = true →
      m ∈ mm'.modules_ → iCaseCmp x m.identifier = true →
      m ∈ (mm'.unregisterModules strip).modules_ := by
    intro x m hx hm hxm
    rw [ModuleManager.unregisterModules_modules]
    exact List.mem_filter.mpr ⟨hm, mm'.isProtected_congr hxm hx⟩
  refine ⟨mm', hc, ?_, ?_, ?_⟩
  · rintro m hm (h | h | h)
    · exact hkeep p m hpp hm h
    · exact hkeep q m hqp hm h
    · exact hkeep r m hrp hm h
  · intro x y hx hxy m hm hym
    exact hkeep y m (hclosed x y hx hxy) hm hym
  · intro S _ hS
    rw [ModuleManager.getModuleByIdentifier, ModuleManager.unregisterModules_modules,
      List.find?_eq_none]
    intro m hm hcmp
    have h2 := mm'.isProtected_congr (by simpa using hcmp) (List.mem_filter.mp hm).2
    rw [hS] at h2
    cases h2

/-- C4 (amended) at a concrete input: one batch brings the flagged `p`, which depends on
`q`, `q`, which depends on `r`, `r` and the unrelated `s`; all four are constructed, and
`unregisterModules` keeps `r`, `q` and `p` and removes `s`. -/
theorem C4_protected_closure_amended_witness :
    (∃ mm', Converges (fun fuel => ModuleManager.init.registerModulesRuntimeModuleLoading
        v100 fuel [mkLibraryFile "p" false (mkProtectedDescriptor "p" v100 [("q", v100)]),
          mkLibraryFile "q" false (mkDescriptor "q" v100 [("r", v100)]),
          mkLibraryFile "r" false (mkDescriptor "r" v100 []),
          mkLibraryFile "s" false (mkDescriptor "s" v100 [])]) mm' ∧
      ∀ m ∈ mm'.modules_,
        (iCaseCmp "p" m.identifier = true ∨ iCaseCmp "q" m.identifier = true ∨
          iCaseCmp "r" m.identifier = true) →
        m ∈ (mm'.unregisterModules id).modules_) ∧
    (ModuleManager.init.registerModulesRuntimeModuleLoading v100 4
        [mkLibraryFile "p" false (mkProtectedDescriptor "p" v100 [("q", v100)]),
          mkLibraryFile "q" false (mkDescriptor "q" v100 [("r", v100)]),
          mkLibraryFile "r" false (mkDescriptor "r" v100 []),
          mkLibraryFile "s" false (mkDescriptor "s" v100 [])]).map
      (fun mm' => (mm'.modules_, (mm'.unregisterModules id).modules_)) =
      some ([{ identifier := "r" }, { identifier := "q" }, { identifier := "p" },
          { identifier := "s" }],
        [{ identifier := "r" }, { identifier := "q" }, { identifier := "p" }]) := by
  refine ⟨?_, by decide⟩
  obtain ⟨mm', hc, hkeep, -, -⟩ := C4_protected_closure_amended v100 id ModuleManager.init
    [mkLibraryFile "p" false (mkProtectedDescriptor "p" v100 [("q", v100)]),
      mkLibraryFile "q" false (mkDescriptor "q" v100 [("r", v100)]),
      mkLibraryFile "r" false (mkDescriptor "r" v100 []),
      mkLibraryFile "s" false (mkDescriptor "s" v100 [])]
    (acyclic_of_rank _
      (fun d => if d.name = "p" then 2 else if d.name = "q" then 1 else 0) (by decide))
    "p" "q" "r"
    (Or.inr ⟨_, List.mem_cons_self _ _, _, rfl, Or.inl rfl, by decide⟩)
    ⟨mkProtectedDescriptor "p" v100 [("q", v100)], by decide, ("q", v100),
      List.mem_cons_self _ _, rfl⟩
    ⟨mkDescriptor "q" v100 [("r", v100)], by decide, ("r", v100),
      List.mem_cons_self _ _, rfl⟩
  exact ⟨mm', hc, hkeep⟩

/-- Every loop body of `registerModules` preserves the order invariant when descriptor
names are pairwise different, a constructed module is named like its descriptor, and the
dependency entries are spelled so that a cascading deregistration reaches every
dependent. -/
theorem ModuleManager.registerModulesStep_orderInv (buildVersion : Version)
    (x : InviwoModuleFactoryObject) (mm mm' : ModuleManager)
    (hx : x ∈ mm.factoryObjects_) (hdist : NamesDistinct mm.factoryObjects_)
    (hid : ∀ m, x.create = CreateResult.module m → iCaseCmp m.identifier x.name = true)
    (hspell : CascadeSpelling mm.factoryObjects_)
    (hinv : mm.OrderInv) (hpost : RegisterStepPost buildVersion mm x mm') : mm'.OrderInv := by
  obtain ⟨hfo, -, -, hcase⟩ := hpost
  obtain ⟨hdesc, hlive, hself, hord⟩ := hinv
  unfold ModuleManager.OrderInv
  rw [hfo]
  rcases hcase with ⟨-, he, -⟩ | ⟨-, -, he, -⟩ | ⟨hnone, hcheck, m, hcr, he, -⟩ |
    ⟨-, -, -, he, -⟩ | ⟨-, -, names, set, hcr, hspec, he, -⟩
  · rw [he]; exact ⟨hdesc, hlive, hself, hord⟩
  · rw [he]; exact ⟨hdesc, hlive, hself, hord⟩
  · rw [he]
    have hmx := hid m hcr
    have hnotlive := (mm.getModuleByIdentifier_eq_none_iff x.name).mp hnone
    have hdeps := ((mm.checkDependencies_iff buildVersion x).mp hcheck).2
    have hnew : ∀ X ∈ mm.modules_, ¬ Declares mm.factoryObjects_ X m := by
      intro X hX hdecl
      obtain ⟨d, hd, hname, dep, hdep, hdepn⟩ := hdecl
      obtain ⟨B, hB, hBn⟩ := hlive X hX d hd hname dep hdep
      have := hnotlive B hB
      rw [iCaseCmp_trans hBn (iCaseCmp_trans hdepn hmx)] at this
      cases this
    refine ⟨?_, ?_, ?_, ?_⟩
    · intro a ha
      rcases List.mem_append.mp ha with ha | ha
      · exact hdesc a ha
      · rw [List.mem_singleton] at ha
        subst ha
        exact ⟨x, hx, iCaseCmp_symm hmx⟩
    · intro A hA d hd hname dep hdep
      rcases List.mem_append.mp hA with hA | hA
      · obtain ⟨B, hB, hBn⟩ := hlive A hA d hd hname dep hdep
        exact ⟨B, List.mem_append_left _ hB, hBn⟩
      · rw [List.mem_singleton] at hA
        subst hA
        have hdx : d = x := hdist.eq_of_iCaseCmp hd hx (iCaseCmp_trans hname hmx)
        subst hdx
        obtain ⟨B, hB, hBn⟩ := mm.checkDependency_nil_live d dep (hdeps dep hdep)
        exact ⟨B, List.mem_append_left _ hB, hBn⟩
    · intro A hA hdecl
      rcases List.mem_append.mp hA with hA | hA
      · exact hself A hA hdecl
      · rw [List.mem_singleton] at hA
        subst hA
        obtain ⟨d, hd, hname, dep, hdep, hdepn⟩ := hdecl
        have hdx : d = x := hdist.eq_of_iCaseCmp hd hx (iCaseCmp_trans hname hmx)
        subst hdx
        obtain ⟨B, hB, hBn⟩ := mm.checkDependency_nil_live d dep (hdeps dep hdep)
        have := hnotlive B hB
        rw [iCaseCmp_trans hBn (iCaseCmp_trans hdepn hmx)] at this
        cases this
    · rw [List.pairwise_append]
      refine ⟨hord, List.pairwise_singleton _ _, ?_⟩
      intro X hX Y hY hdecl
      rw [List.mem_singleton] at hY
      subst hY
      exact hnew X hX hdecl
  · rw [he]; exact ⟨hdesc, hlive, hself, hord⟩
  · rw [he]
    refine ⟨?_, ?_, ?_, ?_⟩
    · intro a ha
      exact hdesc a (List.mem_filter.mp ha).1
    · intro A hA d hd hname dep hdep
      obtain ⟨hA1, hA2⟩ := List.mem_filter.mp hA
      obtain ⟨B, hB, hBn⟩ := hlive A hA1 d hd hname dep hdep
      refine ⟨B, List.mem_filter.mpr ⟨hB, ?_⟩, hBn⟩
      by_contra hcount
      have hcountB : set.count B.identifier ≠ 0 := by
        intro h0
        apply hcount
        simp [h0]
      have hnamed : ∀ n ∈ names, iCaseCmp n B.identifier = true → set.count d.name ≠ 0 := by
        intro n hn hnB
        have hdn : dep.1 = n :=
          ((hspell x hx names hcr n hn d hd dep hdep).1
            (iCaseCmp_symm (iCaseCmp_trans hnB hBn)))
        exact hspec.2.2.1 n hn d hd dep hdep hdn
      have hcountd : set.count d.name ≠ 0 := by
        obtain ⟨n, hn, hnB | hdepB⟩ := hspec.1 _ hcountB
        · exact hnamed n hn hnB
        · rcases hspec.2.2.2 _ hcountB with ⟨n', hn', hnB'⟩ | hclosed
          · exact hnamed n' hn' hnB'
          · obtain ⟨dB, hdB, hdBn⟩ := hdesc B hB
            have hdepdB : DependsOnName mm.factoryObjects_ dB.name n :=
              hdepB.of_iCaseCmp_left (iCaseCmp_symm hdBn)
            have hspelled : dep.1 = toLower dB.name :=
              (hspell x hx names hcr n hn d hd dep hdep).2 dB hdB hdepdB
                (iCaseCmp_trans (iCaseCmp_symm hBn) (iCaseCmp_symm hdBn))
            refine hclosed d hd dep hdep ?_
            rw [hspelled]
            exact (iCaseCmp_iff _ _).mp hdBn
      have hcountA := set.count_ne_zero_of_iCaseCmp hcountd hname
      simp [hcountA] at hA2
    · intro A hA
      exact hself A (List.mem_filter.mp hA).1
    · exact hord.sublist (List.filter_sublist _)

/-- The order invariant survives the arrival of descriptors with new names. -/
theorem OrderInvOn.of_descriptors_subset {fo fo' : List InviwoModuleFactoryObject}
    {modules : List InviwoModule} (h : OrderInvOn fo modules) (hdist : NamesDistinct fo')
    (hsub : ∀ d ∈ fo, d ∈ fo') : OrderInvOn fo' modules := by
  obtain ⟨hdesc, hlive, hself, hord⟩ := h
  have hsame : ∀ A ∈ modules, ∀ d ∈ fo', iCaseCmp d.name A.identifier = true → d ∈ fo := by
    intro A hA d hd hname
    obtain ⟨d0, hd0, hname0⟩ := hdesc A hA
    have : d = d0 := hdist.eq_of_iCaseCmp hd (hsub d0 hd0)
      (iCaseCmp_trans hname (iCaseCmp_symm hname0))
    rw [this]
    exact hd0
  have hall : ∀ X ∈ modules, ∀ Y : InviwoModule, ¬ Declares fo X Y → ¬ Declares fo' X Y := by
    intro X hX Y hnot hdecl
    obtain ⟨d, hd, hname, hrest⟩ := hdecl
    exact hnot ⟨d, hsame X hX d hd hname, hname, hrest⟩
  refine ⟨?_, ?_, ?_, ?_⟩
  · intro m hm
    obtain ⟨d, hd, hname⟩ := hdesc m hm
    exact ⟨d, hsub d hd, hname⟩
  · intro A hA d hd hname dep hdep
    exact hlive A hA d (hsame A hA d hd hname) hname dep hdep
  · intro A hA
    exact hall A hA A (hself A hA)
  · exact hord.imp_of_mem (fun hX _ hnot => hall _ hX _ hnot)

theorem CascadeSpelling.of_perm {fo fo' : List InviwoModuleFactoryObject}
    (h : CascadeSpelling fo) (hp : fo'.Perm fo) : CascadeSpelling fo' := by
  intro x hx names hcr n hn d hd dep hdep
  obtain ⟨h1, h2⟩ := h x (hp.mem_iff.mp hx) names hcr n hn d (hp.mem_iff.mp hd) dep hdep
  refine ⟨h1, fun d' hd' hdepn hcmp => ?_⟩
  exact h2 d' (hp.mem_iff.mp hd') (hdepn.mono (fun a ha => hp.mem_iff.mp ha)) hcmp

/-- On an acyclic graph with pairwise different descriptor names, `registerModules`
returns from some fuel on and preserves the order invariant, when constructed modules are
named like their descriptors and the dependency entries are spelled so that a cascading
deregistration reaches every dependent. -/
theorem ModuleManager.registerModules_orderInv (buildVersion : Version) (mm : ModuleManager)
    (mfo : List InviwoModuleFactoryObject) (hinv : mm.OrderInv)
    (hac : Acyclic (mm.factoryObjects_ ++ mfo))
    (hdist : NamesDistinct (mm.factoryObjects_ ++ mfo))
    (hid : ∀ x ∈ mm.factoryObjects_ ++ mfo, ∀ m, x.create = CreateResult.module m →
      iCaseCmp m.identifier x.name = true)
    (hspell : CascadeSpelling (mm.factoryObjects_ ++ mfo)) :
    ∃ mm', Converges (fun fuel => mm.registerModules buildVersion fuel mfo) mm' ∧
      mm'.OrderInv ∧ mm'.factoryObjects_.Perm (mm.factoryObjects_ ++ mfo) := by
  obtain ⟨sorted, mm', hspec, hc, hfo, hI⟩ :=
    ModuleManager.registerModules_invariant buildVersion mm mfo hac
      (fun _ _ s => s.OrderInv)
      (by
        intro sorted hspec
        exact OrderInvOn.of_descriptors_subset hinv (hdist.perm hspec.1)
          (fun d hd => hspec.1.mem_iff.mpr (List.mem_append_left _ hd)))
      (by
        intro sorted hspec pre x post s s' hs hfo hI hpost
        have hmem : ∀ d, d ∈ s.factoryObjects_ → d ∈ mm.factoryObjects_ ++ mfo := by
          intro d hd
          rw [hfo] at hd
          exact hspec.1.mem_iff.mp hd
        have hx : x ∈ s.factoryObjects_ := by rw [hfo, hs]; simp
        exact ModuleManager.registerModulesStep_orderInv buildVersion x s s' hx
          (hfo ▸ hdist.perm hspec.1) (hid x (hmem x hx))
          (hfo ▸ hspell.of_perm hspec.1) hI hpost)
  exact ⟨_, hc, hI, hfo ▸ hspec.1⟩

/-- The teardown `unregisterModules` preserves the order invariant when the protected set
holds every dependency entry of the descriptor of every protected live module. -/
theorem ModuleManager.unregisterModules_orderInv (strip : String → String)
    (mm : ModuleManager) (hinv : mm.OrderInv)
    (hclosed : ∀ A ∈ mm.modules_, mm.isProtected A.identifier = true →
      ∀ d ∈ mm.factoryObjects_, iCaseCmp d.name A.identifier = true →
      ∀ dep ∈ d.dependencies, mm.isProtected dep.1 = true) :
    (mm.unregisterModules strip).OrderInv := by
  obtain ⟨hdesc, hlive, hself, hord⟩ := hinv
  have hfo : (mm.unregisterModules strip).factoryObjects_ =
      mm.factoryObjects_.filter (fun mfo => mm.isProtected mfo.name) := by
    simp [ModuleManager.unregisterModules, reverse_erase_if_eq]
  unfold ModuleManager.OrderInv
  rw [hfo, ModuleManager.unregisterModules_modules]
  refine ⟨?_, ?_, ?_, ?_⟩
  · intro m hm
    obtain ⟨hm1, hm2⟩ := List.mem_filter.mp hm
    obtain ⟨d, hd, hname⟩ := hdesc m hm1
    exact ⟨d, List.mem_filter.mpr ⟨hd, mm.isProtected_congr (iCaseCmp_symm hname) hm2⟩, hname⟩
  · intro A hA d hd hname dep hdep
    obtain ⟨hA1, hA2⟩ := List.mem_filter.mp hA
    obtain ⟨hd1, -⟩ := List.mem_filter.mp hd
    obtain ⟨B, hB, hBn⟩ := hlive A hA1 d hd1 hname dep hdep
    exact ⟨B, List.mem_filter.mpr ⟨hB,
      mm.isProtected_congr (iCaseCmp_symm hBn) (hclosed A hA1 hA2 d hd1 hname dep hdep)⟩, hBn⟩
  · intro A hA hdecl
    exact hself A (List.mem_filter.mp hA).1
      (hdecl.mono_descriptors (fun d hd => (List.mem_filter.mp hd).1))
  · refine (hord.sublist (List.filter_sublist _)).imp ?_
    intro X Y hnot hdecl
    exact hnot (hdecl.mono_descriptors (fun d hd => (List.mem_filter.mp hd).1))

/-- C16 (counterexample): `b` and `a`, which depends on `b`, are registered; `a` is
protected; `unregisterModules` removes `b` and keeps `a` with its descriptor; `b` is
registered again and lands after `a` in the live module list. -/
theorem C16_live_order_counterexample :
    ((ModuleManager.init.registerModules v100 3
        [mkDescriptor "b" v100 [], mkDescriptor "a" v100 [("b", v100)]]).bind (fun mm =>
      (((mm.addProtectedIdentifier "a").unregisterModules id).registerModules v100 3
        [mkDescriptor "b" v100 []]).map
        (fun mm' => (mm.modules_, ((mm.addProtectedIdentifier "a").unregisterModules id).modules_,
          mm'.modules_,
          (mm'.getFactoryObject "a").map (fun d => d.dependencies.map (fun dep => dep.1)))))) =
      some ([{ identifier := "b" }, { identifier := "a" }], [{ identifier := "a" }],
        [{ identifier := "a" }, { identifier := "b" }], some ["b"]) := by
  decide

/-- C16 (amended): the initial state satisfies the order invariant `OrderInv` (each live
module has a descriptor named like it, every dependency entry of that descriptor names a
live module, and no live module declares a dependency on itself or on a module standing
after it), and in every state that satisfies it: the live module order is consistent with
the dependency direction; `addProtectedIdentifier` preserves the invariant;
`unregisterModules` preserves it when the protected set holds every dependency entry of
the descriptor of every protected live module; and `registerModules`, cascading
deregistration included, returns from some fuel on and preserves it when the dependency
graph is acyclic, descriptor names are pairwise different, each constructed module is
named like its descriptor, and the dependency entries are spelled as `CascadeSpelling`
asks wherever a construction fails with a `ModuleInitException`. -/
theorem C16_live_order_amended (buildVersion : Version) (strip : String → String) :
    ModuleManager.init.OrderInv ∧
    ∀ mm : ModuleManager, mm.OrderInv →
      mm.LiveOrder ∧
      (∀ id, (mm.addProtectedIdentifier id).OrderInv) ∧
      ((∀ A ∈ mm.modules_, mm.isProtected A.identifier = true →
          ∀ d ∈ mm.factoryObjects_, iCaseCmp d.name A.identifier = true →
          ∀ dep ∈ d.dependencies, mm.isProtected dep.1 = true) →
        (mm.unregisterModules strip).OrderInv) ∧
      (∀ mfo : List InviwoModuleFactoryObject,
        Acyclic (mm.factoryObjects_ ++ mfo) →
        NamesDistinct (mm.factoryObjects_ ++ mfo) →
        (∀ x ∈ mm.factoryObjects_ ++ mfo, ∀ m, x.create = CreateResult.module m →
          iCaseCmp m.identifier x.name = true) →
        CascadeSpelling (mm.factoryObjects_ ++ mfo) →
        ∃ mm', Converges (fun fuel => mm.registerModules buildVersion fuel mfo) mm' ∧
          mm'.OrderInv) := by
  refine ⟨⟨?_, ?_, ?_, List.Pairwise.nil⟩, ?_⟩
  · intro m hm; cases hm
  · intro A hA; cases hA
  · intro A hA; cases hA
  · intro mm hinv
    refine ⟨hinv.liveOrder, fun _ => hinv,
      ModuleManager.unregisterModules_orderInv strip mm hinv, ?_⟩
    intro mfo hac hdist hid hspell
    obtain ⟨mm', hc, hI, -⟩ := ModuleManager.registerModules_orderInv buildVersion mm mfo
      hinv hac hdist hid hspell
    exact ⟨mm', hc, hI⟩

/-- C16 (amended) at two concrete inputs, from the initial state: the batch of `Viz`,
which depends on `Base`, and `Base`; and the batch of `base`, `viz` depending on `base`,
and `a` depending on `base`, whose construction fails naming `base`. -/
theorem C16_live_order_amended_witness :
    (∃ mm', Converges (fun fuel => ModuleManager.init.registerModules v100 fuel
        [mkDescriptor "Viz" v100 [("Base", v100)], mkDescriptor "Base" v100 []]) mm' ∧
      mm'.OrderInv ∧ mm'.LiveOrder) ∧
    (∃ mm', Converges (fun fuel => ModuleManager.init.registerModules v100 fuel
        [mkDescriptor "base" v100 [], mkDescriptor "viz" v100 [("base", v100)],
          mkFailing "a" [("base", v100)] ["base"]]) mm' ∧
      mm'.OrderInv ∧ mm'.LiveOrder) := by
  have h := C16_live_order_amended v100 id
  constructor
  · obtain ⟨mm', hc, hI⟩ := (h.2 ModuleManager.init h.1).2.2.2
      [mkDescriptor "Viz" v100 [("Base", v100)], mkDescriptor "Base" v100 []]
      (acyclic_of_rank _ (fun d => d.dependencies.length) (by decide))
      (by unfold NamesDistinct; decide)
      (by
        intro x hx m hcr
        have hx' : x = mkDescriptor "Viz" v100 [("Base", v100)] ∨
            x = mkDescriptor "Base" v100 [] := by
          simpa [ModuleManager.init] using hx
        rcases hx' with rfl | rfl
        · cases hcr; decide
        · cases hcr; decide)
      (by
        intro x hx names hcr
        have hx' : x = mkDescriptor "Viz" v100 [("Base", v100)] ∨
            x = mkDescriptor "Base" v100 [] := by
          simpa [ModuleManager.init] using hx
        rcases hx' with rfl | rfl
        · cases hcr
        · cases hcr)
    exact ⟨mm', hc, hI, (h.2 mm' hI).1⟩
  · obtain ⟨mm', hc, hI⟩ := (h.2 ModuleManager.init h.1).2.2.2
      [mkDescriptor "base" v100 [], mkDescriptor "viz" v100 [("base", v100)],
        mkFailing "a" [("base", v100)] ["base"]]
      (acyclic_of_rank _ (fun d => d.dependencies.length) (by decide))
      (by unfold NamesDistinct; decide)
      (by
        intro x hx m hcr
        have hx' : x = mkDescriptor "base" v100 [] ∨
            x = mkDescriptor "viz" v100 [("base", v100)] ∨
            x = mkFailing "a" [("base", v100)] ["base"] := by
          simpa [ModuleManager.init] using hx
        rcases hx' with rfl | rfl | rfl
        · cases hcr; decide
        · cases hcr; decide
        · cases hcr)
      (by
        intro x hx names hcr n hn d hd dep hdep
        have hx' : x = mkDescriptor "base" v100 [] ∨
            x = mkDescriptor "viz" v100 [("base", v100)] ∨
            x = mkFailing "a" [("base", v100)] ["base"] := by
          simpa [ModuleManager.init] using hx
        have h1 : ∀ d ∈ ModuleManager.init.factoryObjects_ ++
            [mkDescriptor "base" v100 [], mkDescriptor "viz" v100 [("base", v100)],
              mkFailing "a" [("base", v100)] ["base"]],
            ∀ dep ∈ d.dependencies, iCaseCmp dep.1 "base" = true → dep.1 = "base" := by
          decide
        have h2 : ∀ d ∈ ModuleManager.init.factoryObjects_ ++
            [mkDescriptor "base" v100 [], mkDescriptor "viz" v100 [("base", v100)],
              mkFailing "a" [("base", v100)] ["base"]],
            ∀ dep ∈ d.dependencies, ∀ d' ∈ ModuleManager.init.factoryObjects_ ++
              [mkDescriptor "base" v100 [], mkDescriptor "viz" v100 [("base", v100)],
                mkFailing "a" [("base", v100)] ["base"]],
            iCaseCmp dep.1 d'.name = true → dep.1 = toLower d'.name := by
          decide
        rcases hx' with rfl | rfl | rfl
        · cases hcr
        · cases hcr
        · cases hcr
          rw [List.mem_singleton] at hn
          subst hn
          exact ⟨h1 d hd dep hdep, fun d' hd' _ hcmp => h2 d hd dep hdep d' hd' hcmp⟩)
    exact ⟨mm', hc, hI, (h.2 mm' hI).1⟩

/-- Why the order needs the data model: with two descriptors named `a`, of which only the
second can be constructed, or with a descriptor `x` whose module is named `foo` like
another descriptor, a module ends up live before a dependency that the descriptor found
under its name declares. -/
theorem liveOrder_data_model_needed :
    ((ModuleManager.init.registerModules v100 3
        [mkDescriptor "a" v100 [("c", v100)], mkDescriptor "a" v100 []]).bind (fun mm =>
      (mm.registerModules v100 3 [mkDescriptor "c" v100 []]).map
        (fun mm' => (mm'.modules_,
          (mm'.getFactoryObject "a").map (fun d => d.dependencies.map (fun dep => dep.1)))))) =
      some ([{ identifier := "a" }, { identifier := "c" }], some ["c"]) ∧
    (ModuleManager.init.registerModules v100 3
        [{ mkDescriptor "x" v100 [] with create := CreateResult.module { identifier := "foo" } },
          mkDescriptor "foo" v100 [("c", v100)], mkDescriptor "c" v100 []]).map
      (fun mm' => (mm'.modules_,
        (mm'.getFactoryObject "foo").map (fun d => d.dependencies.map (fun dep => dep.1)))) =
      some ([{ identifier := "foo" }, { identifier := "c" }], some ["c"]) := by
  decide

/-! ## `addProtectedIdentifier` -/

theorem IdSet.insert_of_count_ne_zero (s : IdSet) (key : String) (h : s.count key ≠ 0) :
    s.insert key = s := by
  unfold IdSet.insert
  have h' : (s.count key != 0) = true := by simpa using h
  rw [if_pos h']

/-- C21: after `addProtectedIdentifier(id)` every name equal to `id` ignoring case is
protected, every name protected before is still protected, a name is protected only if it
was protected before or equals `id` ignoring case, and the module, descriptor and library
lists (and the event log) are as before; a second call with `id`, or with any spelling of
it, changes nothing. -/
theorem C21_addProtectedIdentifier (mm : ModuleManager) (id : String) :
    (∀ x, iCaseCmp id x = true → (mm.addProtectedIdentifier id).isProtected x = true) ∧
    (∀ x, mm.isProtected x = true → (mm.addProtectedIdentifier id).isProtected x = true) ∧
    (∀ x, (mm.addProtectedIdentifier id).isProtected x = true →
      mm.isProtected x = true ∨ iCaseCmp id x = true) ∧
    (mm.addProtectedIdentifier id).modules_ = mm.modules_ ∧
    (mm.addProtectedIdentifier id).factoryObjects_ = mm.factoryObjects_ ∧
    (mm.addProtectedIdentifier id).sharedLibraries_ = mm.sharedLibraries_ ∧
    (mm.addProtectedIdentifier id).events = mm.events ∧
    (mm.addProtectedIdentifier id).addProtectedIdentifier id = mm.addProtectedIdentifier id ∧
    (∀ x, iCaseCmp id x = true →
      (mm.addProtectedIdentifier id).addProtectedIdentifier x =
        mm.addProtectedIdentifier id) := by
  have hiff : ∀ (s : ModuleManager) (x : String),
      s.isProtected x = true ↔ s.protected_.count x ≠ 0 := by
    intro s x
    simp [ModuleManager.isProtected]
  have hins : ∀ x, (mm.addProtectedIdentifier id).protected_.count x ≠ 0 ↔
      mm.protected_.count x ≠ 0 ∨ iCaseCmp id x = true := fun x =>
    IdSet.count_insert_ne_zero mm.protected_ id x
  have hagain : ∀ x, iCaseCmp id x = true →
      (mm.addProtectedIdentifier id).addProtectedIdentifier x =
        mm.addProtectedIdentifier id := by
    intro x hx
    show ({ mm.addProtectedIdentifier id with
      protected_ := (mm.addProtectedIdentifier id).protected_.insert x } : ModuleManager) = _
    rw [IdSet.insert_of_count_ne_zero _ x ((hins x).mpr (Or.inr hx))]
  refine ⟨?_, ?_, ?_, rfl, rfl, rfl, rfl, hagain id (iCaseCmp_refl id), hagain⟩
  · intro x hx
    rw [hiff]
    exact (hins x).mpr (Or.inr hx)
  · intro x hx
    rw [hiff] at hx ⊢
    exact (hins x).mpr (Or.inl hx)
  · intro x hx
    rw [hiff] at hx
    rw [hiff]
    exact (hins x).mp hx

/-- C21 at a concrete input: after protecting `BaseGL` the spelling `basegl` is
protected. -/
theorem C21_addProtectedIdentifier_witness :
    (ModuleManager.init.addProtectedIdentifier "BaseGL").isProtected "basegl" = true :=
  (C21_addProtectedIdentifier ModuleManager.init "BaseGL").1 "basegl" (by decide)

/-! ## The closure computed by `getProtectedDependencies` -/

theorem BatchEdge.declaredEdge {modules : List InviwoModuleFactoryObject} {n k : String}
    (h : BatchEdge modules n k) : DeclaredEdge modules n k := by
  obtain ⟨m, hm, hdep⟩ := h
  exact ⟨m, List.mem_of_find?_eq_some hm,
    List.find?_some (p := fun d : InviwoModuleFactoryObject => iCaseCmp d.name n) hm, hdep⟩

theorem DeclaredEdge.batchEdge {modules : List InviwoModuleFactoryObject}
    (hdist : NamesDistinct modules) {n k : String} (h : DeclaredEdge modules n k) :
    BatchEdge modules n k := by
  obtain ⟨m, hm, hname, hdep⟩ := h
  cases hfind : modules.find? (fun d => iCaseCmp d.name n) with
  | none =>
    have := List.find?_eq_none.mp hfind m hm
    simp [hname] at this
  | some m' =>
    have hm' := List.mem_of_find?_eq_some hfind
    have hname' := List.find?_some
      (p := fun d : InviwoModuleFactoryObject => iCaseCmp d.name n) hfind
    have : m' = m := hdist.eq_of_iCaseCmp hm' hm (iCaseCmp_trans hname' (iCaseCmp_symm hname))
    rw [this] at hfind
    exact ⟨m, hfind, hdep⟩

theorem transGen_iff_of_iff {α : Type} {r s : α → α → Prop} (h : ∀ a b, r a b ↔ s a b)
    (a b : α) : Relation.TransGen r a b ↔ Relation.TransGen s a b :=
  ⟨fun hab => hab.mono (fun x y hxy => (h x y).mp hxy),
   fun hab => hab.mono (fun x y hxy => (h x y).mpr hxy)⟩

/-- C22: on a list of descriptors with an acyclic dependency graph,
`getProtectedDependencies` returns from some fuel on, and a name is in the returned set
(up to case) exactly when it is reached from a protected name by one or more dependency
edges, where the edges out of a name are the dependency entries of the descriptor that
the name lookup (ignoring case) finds in the list, and none when it finds no descriptor.
When the descriptor names are pairwise different, these are the dependency entries of
any descriptor of the list with that name. -/
theorem C22_protected_dependencies_closure (modules : List InviwoModuleFactoryObject)
    (hac : Acyclic modules) (ptotectedIds : IdSet) :
    ∃ r, Converges (fun fuel => getProtectedDependencies fuel ptotectedIds modules) r ∧
      (∀ x, r.count x ≠ 0 ↔ ∃ p, ptotectedIds.count p ≠ 0 ∧ ∃ k,
        Relation.TransGen (BatchEdge modules) p k ∧ iCaseCmp k x = true) ∧
      (∀ n k, BatchEdge modules n k ↔
        ∃ m, modules.find? (fun d => iCaseCmp d.name n) = some m ∧
          ∃ dep ∈ m.dependencies, dep.1 = k) ∧
      (∀ n, modules.find? (fun d => iCaseCmp d.name n) = none → ∀ k, ¬ BatchEdge modules n k) ∧
      (NamesDistinct modules → ∀ x, r.count x ≠ 0 ↔ ∃ p, ptotectedIds.count p ≠ 0 ∧ ∃ k,
        Relation.TransGen (DeclaredEdge modules) p k ∧ iCaseCmp k x = true) := by
  obtain ⟨r, hc, hr⟩ := getProtectedDependencies_spec hac ptotectedIds
  have hmain : ∀ x, r.count x ≠ 0 ↔ ∃ p, ptotectedIds.count p ≠ 0 ∧ ∃ k,
      Relation.TransGen (BatchEdge modules) p k ∧ iCaseCmp k x = true := by
    intro x
    rw [hr x]
    constructor
    · rintro ⟨p, hp, k, hpk, hkx⟩
      exact ⟨p, (IdSet.count_ne_zero_iff _ _).mpr ⟨p, hp, iCaseCmp_refl p⟩, k, hpk, hkx⟩
    · rintro ⟨p, hp, k, hpk, hkx⟩
      obtain ⟨q, hq, hqp⟩ := (IdSet.count_ne_zero_iff _ _).mp hp
      exact ⟨q, hq, k, BatchEdge.transGen_congr_left hpk (iCaseCmp_symm hqp), hkx⟩
  refine ⟨r, hc, hmain, fun _ _ => Iff.rfl, ?_, ?_⟩
  · rintro n hnone k ⟨m, hm, -⟩
    rw [hnone] at hm
    cases hm
  · intro hdist x
    rw [hmain x]
    have hedge : ∀ a b, BatchEdge modules a b ↔ DeclaredEdge modules a b :=
      fun a b => ⟨BatchEdge.declaredEdge, DeclaredEdge.batchEdge hdist⟩
    constructor
    · rintro ⟨p, hp, k, hpk, hkx⟩
      exact ⟨p, hp, k, (transGen_iff_of_iff hedge p k).mp hpk, hkx⟩
    · rintro ⟨p, hp, k, hpk, hkx⟩
      exact ⟨p, hp, k, (transGen_iff_of_iff hedge p k).mpr hpk, hkx⟩

/-- C22 at a concrete input: with `x` protected and the batch `x → y → z`, the names `y`
and `z` are in the returned set and `x` is not. -/
theorem C22_protected_dependencies_closure_witness :
    ∃ r, Converges (fun fuel => getProtectedDependencies fuel { ids := ["X"] }
        [mkDescriptor "x" v100 [("y", v100)], mkDescriptor "y" v100 [("z", v100)],
          mkDescriptor "z" v100 []]) r ∧
      r.count "Y" ≠ 0 ∧ r.count "z" ≠ 0 ∧ r.count "x" = 0 := by
  obtain ⟨r, hc, hr, -, -, -⟩ := C22_protected_dependencies_closure
    [mkDescriptor "x" v100 [("y", v100)], mkDescriptor "y" v100 [("z", v100)],
      mkDescriptor "z" v100 []]
    (acyclic_of_rank _
      (fun d => if d.name = "x" then 2 else if d.name = "y" then 1 else 0) (by decide))
    { ids := ["X"] }
  have hval := Converges.unique hc
    (⟨3, fun fuel hf => by
      obtain ⟨f, rfl⟩ : ∃ f, fuel = f + 3 := ⟨fuel - 3, by omega⟩
      rfl⟩ : Converges (fun fuel => getProtectedDependencies fuel { ids := ["X"] }
        [mkDescriptor "x" v100 [("y", v100)], mkDescriptor "y" v100 [("z", v100)],
          mkDescriptor "z" v100 []]) { ids := ["y", "z"] })
  subst hval
  exact ⟨_, hc, by decide, by decide, by decide⟩

/-! ## Termination of the recursive walks -/

/-- On a cycle the walk of `findDependentModules` never returns: with `a` depending on `b`
and `b` on `a`, no amount of fuel gives a result. -/
theorem findDependentModules_cycle_none (fuel : Nat) :
    findDependentModules [mkDescriptor "a" v100 [("b", v100)],
      mkDescriptor "b" v100 [("a", v100)]] fuel "a" = none ∧
    findDependentModules [mkDescriptor "a" v100 [("b", v100)],
      mkDescriptor "b" v100 [("a", v100)]] fuel "b" = none := by
  induction fuel with
  | zero => exact ⟨rfl, rfl⟩
  | succ f ih =>
    have ha : toLower (mkDescriptor "a" v100 [("b", v100)]).name = "a" := by decide
    have hb : toLower (mkDescriptor "b" v100 [("a", v100)]).name = "b" := by decide
    constructor
    · rw [findDependentModules_succ]
      simp only [List.foldlM_cons, List.foldlM_nil]
      have h1 : (mkDescriptor "a" v100 [("b", v100)]).dependencies.any
          (fun dep => dep.1 == "a") = false := by decide
      have h2 : (mkDescriptor "b" v100 [("a", v100)]).dependencies.any
          (fun dep => dep.1 == "a") = true := by decide
      simp [h1, h2, hb, ih.2]
    · rw [findDependentModules_succ]
      simp only [List.foldlM_cons, List.foldlM_nil]
      have h1 : (mkDescriptor "a" v100 [("b", v100)]).dependencies.any
          (fun dep => dep.1 == "b") = true := by decide
      simp [h1, ha, ih.1]

/-- C24: on a descriptor list whose dependency graph is acyclic, `findDependentModules`
returns for every module name, and `getProtectedDependencies` and its recursive lambda
`getDeps` return for every protected set and every name, each from some amount of fuel
(recursion depth) on. -/
theorem C24_dependency_walks_terminate (fo : List InviwoModuleFactoryObject)
    (hac : Acyclic fo) :
    (∀ module, ∃ r, Converges (fun fuel => findDependentModules fo fuel module) r) ∧
    (∀ ptotectedIds, ∃ r,
      Converges (fun fuel => getProtectedDependencies fuel ptotectedIds fo) r) ∧
    (∀ module dependencies, ∃ r,
      Converges (fun fuel => getDeps fo fuel module dependencies) r) := by
  refine ⟨fun module => findDependentModules_converges hac module, ?_, ?_⟩
  · intro ptotectedIds
    obtain ⟨r, hc, -⟩ := getProtectedDependencies_spec hac ptotectedIds
    exact ⟨r, hc⟩
  · intro module dependencies
    obtain ⟨r, hc, -⟩ := getDepsSpec_of_acyclic hac module dependencies
    exact ⟨r, hc⟩

/-- C24 at a concrete input: in the chain `x → y → z` the dependents of `z` are found. -/
theorem C24_dependency_walks_terminate_witness :
    ∃ r, Converges (fun fuel => findDependentModules
        [mkDescriptor "x" v100 [("y", v100)], mkDescriptor "y" v100 [("z", v100)],
          mkDescriptor "z" v100 []] fuel "z") r ∧ r = ["x", "y"] := by
  obtain ⟨r, hc⟩ := (C24_dependency_walks_terminate
    [mkDescriptor "x" v100 [("y", v100)], mkDescriptor "y" v100 [("z", v100)],
      mkDescriptor "z" v100 []]
    (acyclic_of_rank _
      (fun d => if d.name = "x" then 2 else if d.name = "y" then 1 else 0) (by decide))).1 "z"
  have hval := Converges.unique hc
    (⟨3, fun fuel hf => by
      obtain ⟨f, rfl⟩ : ∃ f, fuel = f + 3 := ⟨fuel - 3, by omega⟩
      rfl⟩ : Converges (fun fuel => findDependentModules
        [mkDescriptor "x" v100 [("y", v100)], mkDescriptor "y" v100 [("z", v100)],
          mkDescriptor "z" v100 []] fuel "z") ["x", "y"])
  exact ⟨r, hc, hval⟩

/-! ## Reload staging -/

/-- C23 (code evaluated at the failing input): the first component of the pair is always
the original path; with hot reload disabled the load path is the original path; with hot
reload enabled and a destination whose modification time equals the source, no copy is
made and the load path is the destination; when the times differ the source is copied,
the load path is the destination when the copy succeeds and the original path when it
fails. When the destination is missing, `last_write_time(dstPath)` throws: no copy is
made and no pair is produced, as for the candidate `/opt/lib/libinviwo-module-base.so`
with an empty scratch directory; with a staged copy of another age the copy onto it
reports an error and the original path is loaded, and with a staged copy of the same age
the copy is loaded. -/
theorem C23_staging_throws_on_missing_destination :
    (∀ (tmpDir : String) (fs : FileSystem) (filePath : String),
      stageLibraryFile false tmpDir fs filePath = Except.ok ((filePath, filePath), [])) ∧
    (∀ (reloading : Bool) (tmpDir : String) (fs : FileSystem) (filePath : String) r,
      stageLibraryFile reloading tmpDir fs filePath = Except.ok r → r.1.1 = filePath) ∧
    (∀ (tmpDir : String) (fs : FileSystem) (filePath : String) (t : Nat),
      fs.last_write_time filePath = some t →
      fs.last_write_time (pathAppend tmpDir (pathStem filePath)) = some t →
      stageLibraryFile true tmpDir fs filePath =
        Except.ok ((filePath, pathAppend tmpDir (pathStem filePath)), [])) ∧
    (∀ (tmpDir : String) (fs : FileSystem) (filePath : String) (t1 t2 : Nat),
      fs.last_write_time filePath = some t1 →
      fs.last_write_time (pathAppend tmpDir (pathStem filePath)) = some t2 → t1 ≠ t2 →
      fs.copy_file filePath (pathAppend tmpDir (pathStem filePath)) = true →
      stageLibraryFile true tmpDir fs filePath =
        Except.ok ((filePath, pathAppend tmpDir (pathStem filePath)),
          [StagingEvent.copy_file filePath (pathAppend tmpDir (pathStem filePath))])) ∧
    (∀ (tmpDir : String) (fs : FileSystem) (filePath : String) (t1 t2 : Nat),
      fs.last_write_time filePath = some t1 →
      fs.last_write_time (pathAppend tmpDir (pathStem filePath)) = some t2 → t1 ≠ t2 →
      fs.copy_file filePath (pathAppend tmpDir (pathStem filePath)) = false →
      stageLibraryFile true tmpDir fs filePath =
        Except.ok ((filePath, filePath),
          [StagingEvent.copy_file filePath (pathAppend tmpDir (pathStem filePath)),
           StagingEvent.logWarn (pathAppend tmpDir (pathStem filePath))])) ∧
    (∀ (tmpDir : String) (fs : FileSystem) (filePath : String),
      fs.last_write_time (pathAppend tmpDir (pathStem filePath)) = none →
      stageLibraryFile true tmpDir fs filePath =
        Except.error FilesystemError.filesystem_error) ∧
    (mkFileSystem [("/opt/lib/libinviwo-module-base.so", 7)]).last_write_time
      (pathAppend "/home/u/temporary-module-libraries"
        (pathStem "/opt/lib/libinviwo-module-base.so")) = none ∧
    stageLibraryFile true "/home/u/temporary-module-libraries"
      (mkFileSystem [("/opt/lib/libinviwo-module-base.so", 7)])
      "/opt/lib/libinviwo-module-base.so" = Except.error FilesystemError.filesystem_error ∧
    stageLibraryFiles true "/home/u/temporary-module-libraries"
      (mkFileSystem [("/opt/lib/libinviwo-module-base.so", 7)])
      ["/opt/lib/libinviwo-module-base.so"] = Except.error FilesystemError.filesystem_error ∧
    stageLibraryFile true "/home/u/temporary-module-libraries"
      (mkFileSystem [("/opt/lib/libinviwo-module-base.so", 7),
        ("/home/u/temporary-module-libraries/libinviwo-module-base", 5)])
      "/opt/lib/libinviwo-module-base.so" =
      Except.ok (("/opt/lib/libinviwo-module-base.so", "/opt/lib/libinviwo-module-base.so"),
        [StagingEvent.copy_file "/opt/lib/libinviwo-module-base.so"
          "/home/u/temporary-module-libraries/libinviwo-module-base",
         StagingEvent.logWarn
          "/home/u/temporary-module-libraries/libinviwo-module-base"]) ∧
    stageLibraryFile true "/home/u/temporary-module-libraries"
      (mkFileSystem [("/opt/lib/libinviwo-module-base.so", 7),
        ("/home/u/temporary-module-libraries/libinviwo-module-base", 7)])
      "/opt/lib/libinviwo-module-base.so" =
      Except.ok (("/opt/lib/libinviwo-module-base.so",
          "/home/u/temporary-module-libraries/libinviwo-module-base"), []) := by
  refine ⟨fun _ _ _ => rfl, ?_, ?_, ?_, ?_, ?_, by rfl, by rfl, by rfl, by rfl, by rfl⟩
  · intro reloading tmpDir fs filePath r h
    unfold stageLibraryFile at h
    cases reloading
    · simp at h
      rw [← h]
    · simp only [if_true] at h
      split at h
      · split at h
        · split at h
          · cases h; rfl
          · cases h; rfl
        · cases h; rfl
      · cases h
  · intro tmpDir fs filePath t h1 h2
    simp [stageLibraryFile, h1, h2]
  · intro tmpDir fs filePath t1 t2 h1 h2 hne hcopy
    simp [stageLibraryFile, h1, h2, hne, hcopy]
  · intro tmpDir fs filePath t1 t2 h1 h2 hne hcopy
    simp [stageLibraryFile, h1, h2, hne, hcopy]
  · intro tmpDir fs filePath h
    unfold stageLibraryFile
    simp only [if_true]
    rw [h]
    cases fs.last_write_time filePath <;> rfl

/-! ## Cascading teardown in any batch -/

theorem NamesDistinct.nodup_descriptors {fo : List InviwoModuleFactoryObject} (h : NamesDistinct fo) :
    fo.Nodup := by
  unfold NamesDistinct at h
  refine List.Pairwise.imp ?_ h
  intro a b hab heq
  rw [heq, iCaseCmp_refl] at hab
  cases hab

/-- A loop body leaves a name without live module when the module it constructs, if any,
is not named so. -/
theorem ModuleManager.registerModulesStep_keeps_not_live (buildVersion : Version)
    (y : InviwoModuleFactoryObject) (t t' : ModuleManager) (name : String)
    (hnot : ∀ m ∈ t.modules_, iCaseCmp m.identifier name = false)
    (hcreate : ∀ m, t.getModuleByIdentifier y.name = none →
      t.checkDependencies buildVersion y = true → y.create = CreateResult.module m →
      iCaseCmp m.identifier name = false)
    (hpost : RegisterStepPost buildVersion t y t') :
    ∀ m ∈ t'.modules_, iCaseCmp m.identifier name = false := by
  obtain ⟨-, -, -, hcase⟩ := hpost
  rcases hcase with ⟨-, he, -⟩ | ⟨-, -, he, -⟩ | ⟨hnone, hcheck, mx, hcr, he, -⟩ |
    ⟨-, -, -, he, -⟩ | ⟨-, -, names, set, -, -, he, -⟩
  · rw [he]; exact hnot
  · rw [he]; exact hnot
  · rw [he]
    intro m hm
    rcases List.mem_append.mp hm with hm | hm
    · exact hnot m hm
    · rw [List.mem_singleton] at hm
      subst hm
      exact hcreate m hnone hcheck hcr
  · rw [he]; exact hnot
  · rw [he]
    intro m hm
    exact hnot m (List.mem_filter.mp hm).1

/-- C2 (amended): for every registry state and batch with an acyclic dependency graph,
pairwise different descriptor names and constructed modules named like their descriptors,
`registerModules` returns, and at every position of the sorted list, with `s` the state
in which the descriptor `x` found there is processed: a descriptor that `x` depends on
comes before `x`. When `x` is not live, passes the version checker and its construction
fails with a `ModuleInitException` that names `e`, then for every descriptor `B` before
`x` named like `e`, no module named like `B` is live when `registerModules` returns, and
no module named like a descriptor `C` with a dependency entry naming `B` is, provided the
entry is spelled like `e` or `C` was not live in `s`. A module `D` that is live in `s`,
or that `x` constructs, is live when `registerModules` returns unless a construction
failure from `x` on names `D` or a name `D` depends on. -/
theorem C2_cascading_teardown_amended (buildVersion : Version) (mm : ModuleManager)
    (mfo : List InviwoModuleFactoryObject) (hac : Acyclic (mm.factoryObjects_ ++ mfo))
    (hdist : NamesDistinct (mm.factoryObjects_ ++ mfo))
    (hid : ∀ x ∈ mm.factoryObjects_ ++ mfo, ∀ m, x.create = CreateResult.module m →
      iCaseCmp m.identifier x.name = true) :
    ∃ sorted last,
      Converges (fun fuel =>
        topologicalModuleFactoryObjectSort fuel (mm.factoryObjects_ ++ mfo)) sorted ∧
      Converges (fun fuel => mm.registerModules buildVersion fuel mfo)
        (last.emit Event.modulesDidRegister) ∧
      ∀ pre x post, sorted = pre ++ x :: post →
        (∀ B ∈ sorted, x.dependsOn B = true → B ∈ pre) ∧
        ∃ s s', Converges (fun fuel =>
            pre.foldlM (ModuleManager.registerModulesStep buildVersion fuel)
              { mm with factoryObjects_ := sorted }) s ∧
          Converges (fun fuel => s.registerModulesStep buildVersion fuel x) s' ∧
          Converges (fun fuel =>
            post.foldlM (ModuleManager.registerModulesStep buildVersion fuel) s') last ∧
          (∀ toDeregister, s.getModuleByIdentifier x.name = none →
            s.checkDependencies buildVersion x = true →
            x.create = CreateResult.moduleInitException toDeregister →
            ∀ e ∈ toDeregister, ∀ B ∈ pre, iCaseCmp e B.name = true →
              (last.emit Event.modulesDidRegister).getModuleByIdentifier B.name = none ∧
              ∀ C ∈ sorted, ∀ dep ∈ C.dependencies, iCaseCmp dep.1 B.name = true →
                (dep.1 = e ∨ s.getModuleByIdentifier C.name = none) →
                (last.emit Event.modulesDidRegister).getModuleByIdentifier C.name = none) ∧
          (∀ D ∈ s.modules_,
            (∀ y ∈ x :: post, ∀ toDeregister,
              y.create = CreateResult.moduleInitException toDeregister →
              ∀ n ∈ toDeregister, iCaseCmp n D.identifier = false ∧
                ¬ DependsOnName sorted D.identifier n) →
            D ∈ (last.emit Event.modulesDidRegister).modules_) ∧
          (∀ D, s.getModuleByIdentifier x.name = none →
            s.checkDependencies buildVersion x = true → x.create = CreateResult.module D →
            (∀ y ∈ post, ∀ toDeregister,
              y.create = CreateResult.moduleInitException toDeregister →
              ∀ n ∈ toDeregister, iCaseCmp n D.identifier = false ∧
                ¬ DependsOnName sorted D.identifier n) →
            D ∈ (last.emit Event.modulesDidRegister).modules_) := by
  obtain ⟨sorted, last, hcs, hspec, hc, hsplit⟩ :=
    ModuleManager.registerModules_split buildVersion mm mfo hac
  have hdists : NamesDistinct sorted := hdist.perm hspec.1
  have hids : ∀ y ∈ sorted, ∀ m, y.create = CreateResult.module m →
      iCaseCmp m.identifier y.name = true :=
    fun y hy => hid y (hspec.1.mem_iff.mp hy)
  refine ⟨sorted, last, hcs, hc, ?_⟩
  intro pre x post hs
  obtain ⟨s, s', h1, hsfo, h2, hpost, h3, hinv⟩ := hsplit pre x post hs
  have hxpos : sorted[pre.length]? = some x := by
    rw [hs, List.getElem?_append_right (le_refl _)]
    simp
  refine ⟨?_, s, s', h1, h2, h3, ?_, ?_, ?_⟩
  · intro B hB hdep
    obtain ⟨q, hq⟩ := List.mem_iff_getElem?.mp hB
    have hlt := sortedSpec_lt_of_dependsOn hspec hdist hxpos hq hdep
    rw [hs, List.getElem?_append_left hlt] at hq
    exact List.getElem?_mem hq
  · intro names hnone hcheck hcreate e he B hB heB
    have hBs : B ∈ sorted := by rw [hs]; exact List.mem_append_left _ hB
    have hnodup : (pre ++ x :: post).Nodup := hs ▸ hdists.nodup_descriptors
    have hBpost : ∀ y ∈ post, y ≠ B := by
      intro y hy hyB
      have hdisj := (List.nodup_append.mp hnodup).2.2
      exact hdisj hB (List.mem_cons_of_mem _ (hyB ▸ hy))
    -- the state after the failure of `x`
    have hs'sub : ∀ m ∈ s'.modules_, m ∈ s.modules_ := by
      obtain ⟨-, -, -, hcase⟩ := hpost
      rcases hcase with ⟨hsome, -⟩ | ⟨-, hck, -⟩ | ⟨-, -, mx, hcr, -⟩ |
        ⟨-, -, hcr, -⟩ | ⟨-, -, names', set, -, -, hm, -⟩
      · rw [hnone] at hsome; cases hsome
      · rw [hcheck] at hck; cases hck
      · rw [hcreate] at hcr; cases hcr
      · rw [hcreate] at hcr; cases hcr
      · intro m hm'
        rw [hm] at hm'
        exact (List.mem_filter.mp hm').1
    have hs'set : ∃ set, DeregisterSetSpec s.factoryObjects_ names set ∧
        ∀ m ∈ s'.modules_, set.count m.identifier = 0 := by
      obtain ⟨-, -, -, hcase⟩ := hpost
      rcases hcase with ⟨hsome, -⟩ | ⟨-, hck, -⟩ | ⟨-, -, mx, hcr, -⟩ |
        ⟨-, -, hcr, -⟩ | ⟨-, -, names', set, hcr, hspec', hm, -⟩
      · rw [hnone] at hsome; cases hsome
      · rw [hcheck] at hck; cases hck
      · rw [hcreate] at hcr; cases hcr
      · rw [hcreate] at hcr; cases hcr
      · rw [hcreate] at hcr
        cases hcr
        refine ⟨set, hspec', ?_⟩
        intro m hm'
        rw [hm] at hm'
        have := (List.mem_filter.mp hm').2
        simpa using this
    obtain ⟨set, hset, hcount⟩ := hs'set
    have hB0 : ∀ m ∈ s'.modules_, iCaseCmp m.identifier B.name = false := by
      intro m hm
      cases hcmp : iCaseCmp m.identifier B.name
      · rfl
      · exact absurd (hcount m hm)
          (hset.2.1 e he m.identifier (iCaseCmp_trans heB (iCaseCmp_symm hcmp)))
    have hBstep : ∀ pre' y post' (t t' : ModuleManager), post = pre' ++ y :: post' →
        (∀ m ∈ t.modules_, iCaseCmp m.identifier B.name = false) →
        RegisterStepPost buildVersion t y t' →
        ∀ m ∈ t'.modules_, iCaseCmp m.identifier B.name = false := by
      intro pre' y post' t t' hpost' hnot hstep
      have hy : y ∈ post := by rw [hpost']; simp
      have hys : y ∈ sorted := by rw [hs]; simp [hy]
      refine ModuleManager.registerModulesStep_keeps_not_live buildVersion y t t' B.name hnot
        ?_ hstep
      intro m _ _ hcr
      cases hcmp : iCaseCmp m.identifier B.name
      · rfl
      · have hyB : y = B := hdists.eq_of_iCaseCmp hys hBs
          (iCaseCmp_trans (iCaseCmp_symm (hids y hys m hcr)) hcmp)
        exact absurd hyB (hBpost y hy)
    have hBlast : ∀ m ∈ last.modules_, iCaseCmp m.identifier B.name = false :=
      hinv (fun _ t => ∀ m ∈ t.modules_, iCaseCmp m.identifier B.name = false)
        (fun pre' y post' t t' hpost' _ hI hstep => hBstep pre' y post' t t' hpost' hI hstep)
        hB0
    refine ⟨(ModuleManager.getModuleByIdentifier_eq_none_iff _ _).mpr hBlast, ?_⟩
    intro C hC dep hdep hdepB hor
    have hC0 : ∀ m ∈ s'.modules_, iCaseCmp m.identifier C.name = false := by
      intro m hm
      rcases hor with hspelled | hnotlive
      · cases hcmp : iCaseCmp m.identifier C.name
        · rfl
        · have hCcount := hset.2.2.1 e he C (hsfo ▸ hC) dep hdep hspelled
          exact absurd (hcount m hm)
            (set.count_ne_zero_of_iCaseCmp hCcount (iCaseCmp_symm hcmp))
      · exact (s.getModuleByIdentifier_eq_none_iff C.name).mp hnotlive m (hs'sub m hm)
    have hClast : ∀ m ∈ last.modules_, iCaseCmp m.identifier B.name = false ∧
        iCaseCmp m.identifier C.name = false := by
      have := hinv (fun _ t => (∀ m ∈ t.modules_, iCaseCmp m.identifier B.name = false) ∧
          ∀ m ∈ t.modules_, iCaseCmp m.identifier C.name = false)
        (by
          intro pre' y post' t t' hpost' _ hI hstep
          have hy : y ∈ post := by rw [hpost']; simp
          have hys : y ∈ sorted := by rw [hs]; simp [hy]
          refine ⟨hBstep pre' y post' t t' hpost' hI.1 hstep, ?_⟩
          refine ModuleManager.registerModulesStep_keeps_not_live buildVersion y t t' C.name
            hI.2 ?_ hstep
          intro m _ hck hcr
          cases hcmp : iCaseCmp m.identifier C.name
          · rfl
          · have hyC : y = C := hdists.eq_of_iCaseCmp hys hC
              (iCaseCmp_trans (iCaseCmp_symm (hids y hys m hcr)) hcmp)
            subst hyC
            have hdeps := ((t.checkDependencies_iff buildVersion y).mp hck).2
            obtain ⟨M, hM, hMn⟩ := t.checkDependency_nil_live y dep (hdeps dep hdep)
            have := hI.1 M hM
            rw [iCaseCmp_trans hMn hdepB] at this
            cases this)
        ⟨hB0, hC0⟩
      exact fun m hm => ⟨this.1 m hm, this.2 m hm⟩
    exact (ModuleManager.getModuleByIdentifier_eq_none_iff _ _).mpr
      (fun m hm => (hClast m hm).2)
  · intro D hD hnodereg
    have hD' : D ∈ s'.modules_ :=
      ModuleManager.registerModulesStep_keeps_module buildVersion x s s' D
        (fun names hcr n hn => hsfo ▸ hnodereg x (List.mem_cons_self _ _) names hcr n hn)
        hD hpost
    refine hinv (fun _ t => D ∈ t.modules_) ?_ hD'
    intro pre' y post' t t' hpost' htfo hI hstep
    refine ModuleManager.registerModulesStep_keeps_module buildVersion y t t' D ?_ hI hstep
    intro names hcr n hn
    rw [htfo]
    exact hnodereg y (List.mem_cons_of_mem _ (by rw [hpost']; simp)) names hcr n hn
  · intro D hnone hcheck hcreate hnodereg
    have hD' : D ∈ s'.modules_ := by
      obtain ⟨-, -, -, hcase⟩ := hpost
      rcases hcase with ⟨hsome, -⟩ | ⟨-, hck, -⟩ | ⟨-, -, mx, hcr, he, -⟩ |
        ⟨-, -, hcr, -⟩ | ⟨-, -, names, set, hcr, -⟩
      · rw [hnone] at hsome; cases hsome
      · rw [hcheck] at hck; cases hck
      · rw [hcreate] at hcr
        cases hcr
        rw [he]
        exact List.mem_append_right _ (List.mem_singleton.mpr rfl)
      · rw [hcreate] at hcr; cases hcr
      · rw [hcreate] at hcr; cases hcr
    refine hinv (fun _ t => D ∈ t.modules_) ?_ hD'
    intro pre' y post' t t' hpost' htfo hI hstep
    refine ModuleManager.registerModulesStep_keeps_module buildVersion y t t' D ?_ hI hstep
    intro names hcr n hn
    rw [htfo]
    exact hnodereg y (by rw [hpost']; simp) names hcr n hn

/-- C2 (amended) at a concrete input: `d` is registered and live; the batch brings `b`,
`c` depending on `b`, `a` depending on `b` whose construction fails naming `b`, `e`, and
`f` depending on `e`. When `registerModules` returns neither `b` nor `c` is live and `d`
is; the live modules are `d`, `e` and `f`. -/
theorem C2_cascading_teardown_amended_witness :
    (∃ last : ModuleManager, Converges (fun fuel =>
        (mkManager [mkDescriptor "d" v100 []] [{ identifier := "d" }]).registerModules v100
          fuel [mkDescriptor "b" v100 [], mkDescriptor "c" v100 [("b", v100)],
            mkFailing "a" [("b", v100)] ["b"], mkDescriptor "e" v100 [],
            mkDescriptor "f" v100 [("e", v100)]])
        (last.emit Event.modulesDidRegister) ∧
      (last.emit Event.modulesDidRegister).getModuleByIdentifier "b" = none ∧
      (last.emit Event.modulesDidRegister).getModuleByIdentifier "c" = none ∧
      ({ identifier := "d" } : InviwoModule) ∈
        (last.emit Event.modulesDidRegister).modules_) ∧
    ((mkManager [mkDescriptor "d" v100 []] [{ identifier := "d" }]).registerModules v100 3
        [mkDescriptor "b" v100 [], mkDescriptor "c" v100 [("b", v100)],
          mkFailing "a" [("b", v100)] ["b"], mkDescriptor "e" v100 [],
          mkDescriptor "f" v100 [("e", v100)]]).map (fun mm => mm.modules_) =
      some [{ identifier := "d" }, { identifier := "e" }, { identifier := "f" }] := by
  refine ⟨?_, by decide⟩
  obtain ⟨sorted, last, hcs, hc, hsplit⟩ := C2_cascading_teardown_amended v100
    (mkManager [mkDescriptor "d" v100 []] [{ identifier := "d" }])
    [mkDescriptor "b" v100 [], mkDescriptor "c" v100 [("b", v100)],
      mkFailing "a" [("b", v100)] ["b"], mkDescriptor "e" v100 [],
      mkDescriptor "f" v100 [("e", v100)]]
    (acyclic_of_rank _ (fun d => d.dependencies.length) (by decide))
    (by unfold NamesDistinct; decide)
    (by
      intro x hx m hcr
      have hx' : x = mkDescriptor "d" v100 [] ∨ x = mkDescriptor "b" v100 [] ∨
          x = mkDescriptor "c" v100 [("b", v100)] ∨
          x = mkFailing "a" [("b", v100)] ["b"] ∨ x = mkDescriptor "e" v100 [] ∨
          x = mkDescriptor "f" v100 [("e", v100)] := by
        simpa [mkManager] using hx
      rcases hx' with rfl | rfl | rfl | rfl | rfl | rfl
      · cases hcr; decide
      · cases hcr; decide
      · cases hcr; decide
      · cases hcr
      · cases hcr; decide
      · cases hcr; decide)
  have hsorted : [mkDescriptor "d" v100 [], mkDescriptor "b" v100 [],
      mkDescriptor "c" v100 [("b", v100)], mkFailing "a" [("b", v100)] ["b"],
      mkDescriptor "e" v100 [], mkDescriptor "f" v100 [("e", v100)]] = sorted :=
    Converges.eq_of_mono
      (fun f f' x hle hx => topologicalModuleFactoryObjectSort_mono _ f f' hle x hx) hcs
      (by decide : topologicalModuleFactoryObjectSort 3
        ((mkManager [mkDescriptor "d" v100 []] [{ identifier := "d" }]).factoryObjects_ ++
        [mkDescriptor "b" v100 [], mkDescriptor "c" v100 [("b", v100)],
          mkFailing "a" [("b", v100)] ["b"], mkDescriptor "e" v100 [],
          mkDescriptor "f" v100 [("e", v100)]]) =
        some [mkDescriptor "d" v100 [], mkDescriptor "b" v100 [],
          mkDescriptor "c" v100 [("b", v100)], mkFailing "a" [("b", v100)] ["b"],
          mkDescriptor "e" v100 [], mkDescriptor "f" v100 [("e", v100)]])
  subst hsorted
  obtain ⟨-, s, s', h1, -, -, hA, hD, -⟩ := hsplit
    [mkDescriptor "d" v100 [], mkDescriptor "b" v100 [], mkDescriptor "c" v100 [("b", v100)]]
    (mkFailing "a" [("b", v100)] ["b"])
    [mkDescriptor "e" v100 [], mkDescriptor "f" v100 [("e", v100)]] rfl
  have hs := Converges.unique h1
    (⟨0, fun _ _ => rfl⟩ : Converges _
      ({ protected_ := IdSet.empty, sharedLibraries_ := [],
         factoryObjects_ := [mkDescriptor "d" v100 [], mkDescriptor "b" v100 [],
           mkDescriptor "c" v100 [("b", v100)], mkFailing "a" [("b", v100)] ["b"],
           mkDescriptor "e" v100 [], mkDescriptor "f" v100 [("e", v100)]],
         modules_ := [{ identifier := "d" }, { identifier := "b" }, { identifier := "c" }],
         events := [Event.postProgress "d", Event.postProgress "b",
           Event.checkDependencies "b", Event.create "b", Event.postProgress "c",
           Event.checkDependencies "c", Event.create "c"] } : ModuleManager))
  subst hs
  obtain ⟨hB, hC⟩ := hA ["b"] (by decide) (by decide) rfl "b" (List.mem_singleton.mpr rfl)
    (mkDescriptor "b" v100 []) (by decide) (by decide)
  refine ⟨last, hc, hB, ?_, ?_⟩
  · exact hC (mkDescriptor "c" v100 [("b", v100)]) (by decide) ("b", v100)
      (List.mem_singleton.mpr rfl) (by decide) (Or.inl rfl)
  · refine hD { identifier := "d" } (by decide) ?_
    intro y hy names hcr n hn
    have hy' : y = mkFailing "a" [("b", v100)] ["b"] ∨ y = mkDescriptor "e" v100 [] ∨
        y = mkDescriptor "f" v100 [("e", v100)] := by
      simpa using hy
    rcases hy' with rfl | rfl | rfl
    · cases hcr
      rw [List.mem_singleton] at hn
      subst hn
      refine ⟨by decide, fun hdep => ?_⟩
      obtain ⟨item, hitem, hname, hne⟩ := hdep.exists_item
      have hitem' : item = mkDescriptor "d" v100 [] ∨ item = mkDescriptor "b" v100 [] ∨
          item = mkDescriptor "c" v100 [("b", v100)] ∨
          item = mkFailing "a" [("b", v100)] ["b"] ∨ item = mkDescriptor "e" v100 [] ∨
          item = mkDescriptor "f" v100 [("e", v100)] := by
        simpa using hitem
      rcases hitem' with rfl | rfl | rfl | rfl | rfl | rfl
      · exact hne rfl
      · exact hne rfl
      · revert hname; decide
      · revert hname; decide
      · exact hne rfl
      · revert hname; decide
    · cases hcr
    · cases hcr

end inviwo
